import Mathlib

/-!
Verification of the troubleshoot-stack incident recovery and guardrail
pipeline.  The definitions below are shallow embeddings of the Python
sources under services/api/app: guardrails.py, parser.py, main.py,
llm/orchestrator.py and llm/json_utils.py.  Python floats that only ever
hold small decimal literals (confidences) are modelled as rationals;
Python strings are modelled as Lean strings (sequences of Unicode scalar
values); Python stdlib helpers (re substitution, json parsing, sha256)
are modelled by executable Lean functions that follow the reference
implementations of those routines.
-/

namespace TS

/-- Python whitespace for str.strip / str.isspace, ASCII range. -/
def isPyWs (c : Char) : Bool :=
  c = ' ' ∨ c = '\t' ∨ c = '\n' ∨ c = '\r' ∨ c = '\x0b' ∨ c = '\x0c'

/-- str.strip: drop whitespace from both ends. -/
def pyStripL (l : List Char) : List Char :=
  (l.dropWhile isPyWs).reverse.dropWhile isPyWs |>.reverse

def pyStrip (s : String) : String := String.mk (pyStripL s.data)

/-! ## schemas.py -/

/-- schemas.EvidenceMapEntry. -/
structure EvidenceMapEntry where
  source_type : String
  source_id : String
  line_start : Int
  line_end : Int
  excerpt_hash : String
  excerpt : Option String := none
deriving DecidableEq, Repr

/-- schemas.Hypothesis. -/
structure Hypothesis where
  id : String
  rank : Int
  confidence : ℚ
  explanation : String
  citations : List EvidenceMapEntry
deriving DecidableEq, Repr

/-- guardrails.GuardrailReport. -/
structure GuardrailReport where
  citation_missing_count : Nat
  redactions : Nat
  issues : List String
deriving DecidableEq, Repr

/-! ## guardrails.py -/

/-- guardrails.citation_signature: the f-string
"source_type:source_id:line_start:line_end:excerpt_hash". -/
def citation_signature (entry : EvidenceMapEntry) : String :=
  entry.source_type ++ ":" ++ entry.source_id ++ ":" ++ toString entry.line_start
    ++ ":" ++ toString entry.line_end ++ ":" ++ entry.excerpt_hash

/-- Python regex word character (re \w), ASCII model. -/
def isWordChar (c : Char) : Bool := c.isAlphanum ∨ c = '_'

/-- Length of the match of ARN_PATTERN = arn:aws[a-z-]*:[^\s]+ (IGNORECASE)
at the head of the list, if it matches there.  The character classes are
disjoint from the forced literals, so the greedy scan needs no
backtracking. -/
def arnMatchLen (l : List Char) : Option Nat :=
  if (l.take 7).map Char.toLower = "arn:aws".data then
    let rest := l.drop 7
    let mid := rest.takeWhile (fun c => (Char.toLower c ≥ 'a' ∧ Char.toLower c ≤ 'z') ∨ c = '-')
    match rest.drop mid.length with
    | ':' :: rest3 =>
      let body := rest3.takeWhile (fun c => ¬ isPyWs c)
      if body.isEmpty then none else some (7 + mid.length + 1 + body.length)
    | _ => none
  else none

def redactedMarker : List Char := "[REDACTED_IDENTIFIER]".data

/-- re.subn for ARN_PATTERN: left-to-right, non-overlapping. -/
def arnSubnAux : Nat → List Char → List Char × Nat
  | 0, l => (l, 0)
  | _, [] => ([], 0)
  | fuel + 1, c :: rest =>
    match arnMatchLen (c :: rest) with
    | some n =>
      let r := arnSubnAux fuel ((c :: rest).drop n)
      (redactedMarker ++ r.1, r.2 + 1)
    | none =>
      let r := arnSubnAux fuel rest
      (c :: r.1, r.2)

def arnSubn (l : List Char) : List Char × Nat := arnSubnAux (l.length + 1) l

/-- Does ACCOUNT_ID_PATTERN = \b\d{12}\b match at the head of the list,
given whether the preceding character (if any) is a word character? -/
def acctMatchHere (prevWord : Bool) (l : List Char) : Bool :=
  !prevWord && decide ((l.take 12).length = 12) && (l.take 12).all Char.isDigit &&
    (match l.drop 12 with
     | [] => true
     | c :: _ => !isWordChar c)

/-- re.subn for ACCOUNT_ID_PATTERN, tracking the previous character for
the leading word boundary.  After a replacement the scan resumes after
the 12th digit, so the previous character is a word character. -/
def acctSubnAux : Nat → Bool → List Char → List Char × Nat
  | 0, _, l => (l, 0)
  | _, _, [] => ([], 0)
  | fuel + 1, prevWord, c :: rest =>
    if acctMatchHere prevWord (c :: rest) then
      let r := acctSubnAux fuel true ((c :: rest).drop 12)
      (redactedMarker ++ r.1, r.2 + 1)
    else
      let r := acctSubnAux fuel (isWordChar c) rest
      (c :: r.1, r.2)

def acctSubn (l : List Char) : List Char × Nat := acctSubnAux (l.length + 1) false l

/-- guardrails._redact_identifiers.  The source guards each subn with a
search on the same pattern; when there is no match subn returns the text
unchanged with count 0, so the guarded form equals plain composition. -/
def redactIdentifiers (text : String) : String × Nat :=
  let r1 := arnSubn text.data
  let r2 := acctSubn r1.1
  (String.mk r2.1, r1.2 + r2.2)

/-- The filtered citation list of one hypothesis (guardrails.py lines
31-35): keep entries whose signature is in the allowed set. -/
def citationFiltered (allowed : List String) (hypothesis : Hypothesis) :
    List EvidenceMapEntry :=
  hypothesis.citations.filter (fun entry => decide (citation_signature entry ∈ allowed))

/-- The explanation after the missing-citation step (line 38). -/
def explanationAfterCitations (allowed : List String) (hypothesis : Hypothesis) : String :=
  if (citationFiltered allowed hypothesis).isEmpty then
    "No citation found. " ++ hypothesis.explanation
  else hypothesis.explanation

/-- The confidence after the missing-citation step (line 37). -/
def confidenceAfterCitations (allowed : List String) (hypothesis : Hypothesis) : ℚ :=
  if (citationFiltered allowed hypothesis).isEmpty then
    min hypothesis.confidence (3/10)
  else hypothesis.confidence

/-- The body of the loop of enforce_guardrails for one hypothesis:
returns the updated hypothesis, the missing-citation increment and the
redaction count. -/
def processHypothesis (allowed : List String) (hypothesis : Hypothesis) :
    Hypothesis × Nat × Nat :=
  let valid := citationFiltered allowed hypothesis
  let conf1 := confidenceAfterCitations allowed hypothesis
  let expl1 := explanationAfterCitations allowed hypothesis
  let missing : Nat := if valid.isEmpty then 1 else 0
  let rr := redactIdentifiers expl1
  let conf2 := if rr.2 ≠ 0 then min conf1 (1/5) else conf1
  let expl2 := if rr.2 ≠ 0 then rr.1 else expl1
  ({ id := hypothesis.id, rank := hypothesis.rank, confidence := conf2,
     explanation := expl2, citations := valid }, missing, rr.2)

/-- guardrails.enforce_guardrails. -/
def enforce_guardrails (hypotheses : List Hypothesis)
    (allowed_citations : List EvidenceMapEntry) :
    List Hypothesis × GuardrailReport :=
  let allowed := allowed_citations.map citation_signature
  hypotheses.foldl
    (fun acc hypothesis =>
      let r := processHypothesis allowed hypothesis
      (acc.1 ++ [r.1],
       { citation_missing_count := acc.2.citation_missing_count + r.2.1,
         redactions := acc.2.redactions + r.2.2,
         issues := acc.2.issues ++ (if r.2.2 ≠ 0 then ["redacted_identifiers"] else []) }))
    ([], ⟨0, 0, []⟩)

/-- The hypothesis list returned by enforce_guardrails is the map of the
per-hypothesis step over the input list. -/
theorem enforce_guardrails_fst (hypotheses : List Hypothesis)
    (allowed_citations : List EvidenceMapEntry) :
    (enforce_guardrails hypotheses allowed_citations).1 =
      hypotheses.map
        (fun h => (processHypothesis (allowed_citations.map citation_signature) h).1) := by
  unfold enforce_guardrails
  generalize allowed_citations.map citation_signature = allowed
  suffices H : ∀ (l : List Hypothesis) (acc : List Hypothesis × GuardrailReport),
      (l.foldl (fun acc hypothesis =>
        let r := processHypothesis allowed hypothesis
        (acc.1 ++ [r.1],
         { citation_missing_count := acc.2.citation_missing_count + r.2.1,
           redactions := acc.2.redactions + r.2.2,
           issues := acc.2.issues ++ (if r.2.2 ≠ 0 then ["redacted_identifiers"] else []) }))
        acc).1 = acc.1 ++ l.map (fun h => (processHypothesis allowed h).1) by
    simpa using H hypotheses ([], ⟨0, 0, []⟩)
  intro l
  induction l with
  | nil => intro acc; simp
  | cons h t ih =>
    intro acc
    simp only [List.foldl_cons, List.map_cons]
    rw [ih]
    simp

/-- The per-hypothesis step keeps id and rank unchanged. -/
theorem processHypothesis_id_rank (allowed : List String) (h : Hypothesis) :
    (processHypothesis allowed h).1.id = h.id ∧
      (processHypothesis allowed h).1.rank = h.rank := by
  simp [processHypothesis]

/-- C1: for every evidence set E and hypothesis list, every citation
carried by a hypothesis in the output of enforce_guardrails has a
signature equal to the signature of some member of E. -/
theorem guardrail_citations_resolve (hs : List Hypothesis) (E : List EvidenceMapEntry)
    (h' : Hypothesis) (hmem : h' ∈ (enforce_guardrails hs E).1)
    (c : EvidenceMapEntry) (hc : c ∈ h'.citations) :
    ∃ e ∈ E, citation_signature c = citation_signature e := by
  rw [enforce_guardrails_fst] at hmem
  rcases List.mem_map.mp hmem with ⟨h, _, rfl⟩
  have hcf : c ∈ citationFiltered (E.map citation_signature) h := by
    simpa [processHypothesis] using hc
  rcases List.mem_filter.mp hcf with ⟨-, hdec⟩
  rcases List.mem_map.mp (of_decide_eq_true hdec) with ⟨e, heE, heq⟩
  exact ⟨e, heE, heq.symm⟩

/-- Witness for C1 at a concrete input. -/
theorem guardrail_citations_resolve_witness :
    ∃ e ∈ ([⟨"log", "raw-input", 1, 1, "abc", none⟩] : List EvidenceMapEntry),
      citation_signature (⟨"log", "raw-input", 1, 1, "abc", none⟩ : EvidenceMapEntry) =
        citation_signature e :=
  guardrail_citations_resolve
    [{ id := "h1", rank := 1, confidence := 1/2, explanation := "ok",
       citations := [⟨"log", "raw-input", 1, 1, "abc", none⟩] }]
    [⟨"log", "raw-input", 1, 1, "abc", none⟩]
    { id := "h1", rank := 1, confidence := 1/2, explanation := "ok",
      citations := [⟨"log", "raw-input", 1, 1, "abc", none⟩] }
    (List.mem_singleton.mpr rfl)
    ⟨"log", "raw-input", 1, 1, "abc", none⟩
    (List.mem_singleton.mpr rfl)

/-- C2: for every processed hypothesis: an empty filtered citation list
caps the output confidence at 0.3; a redacted explanation caps it at
0.2 (even with valid citations); when both fire the 0.2 cap applies. -/
theorem guardrail_confidence_caps (hs : List Hypothesis) (E : List EvidenceMapEntry)
    (h : Hypothesis) (hmem : h ∈ hs) :
    ∃ h' ∈ (enforce_guardrails hs E).1,
      h' = (processHypothesis (E.map citation_signature) h).1 ∧
      (citationFiltered (E.map citation_signature) h = [] → h'.confidence ≤ 3/10) ∧
      (0 < (redactIdentifiers (explanationAfterCitations (E.map citation_signature) h)).2 →
        h'.confidence ≤ 1/5) ∧
      ((citationFiltered (E.map citation_signature) h = [] ∧
        0 < (redactIdentifiers (explanationAfterCitations (E.map citation_signature) h)).2) →
        h'.confidence ≤ 1/5) := by
  refine ⟨(processHypothesis (E.map citation_signature) h).1, ?_, rfl, ?_, ?_, ?_⟩
  · rw [enforce_guardrails_fst]; exact List.mem_map_of_mem _ hmem
  · intro hempty
    simp only [processHypothesis, confidenceAfterCitations, hempty]
    split
    · refine le_trans (min_le_right _ _) (by norm_num)
    · simp [List.isEmpty_iff.mpr hempty]
  · intro hred
    simp only [processHypothesis]
    split
    · exact min_le_right _ _
    · omega
  · rintro ⟨-, hred⟩
    simp only [processHypothesis]
    split
    · exact min_le_right _ _
    · omega

/-- Witness for C2 at a concrete input (both guardrails fire: no valid
citation and an ARN in the explanation). -/
theorem guardrail_confidence_caps_witness :
    ∃ h' ∈ (enforce_guardrails
        [{ id := "h1", rank := 1, confidence := 9/10,
           explanation := "see arn:aws:iam::123456789012:role/Admin", citations := [] }]
        []).1,
      h' = (processHypothesis (([] : List EvidenceMapEntry).map citation_signature)
        { id := "h1", rank := 1, confidence := 9/10,
          explanation := "see arn:aws:iam::123456789012:role/Admin", citations := [] }).1 ∧
      (citationFiltered (([] : List EvidenceMapEntry).map citation_signature)
          { id := "h1", rank := 1, confidence := 9/10,
            explanation := "see arn:aws:iam::123456789012:role/Admin", citations := [] } = [] →
        h'.confidence ≤ 3/10) ∧
      (0 < (redactIdentifiers (explanationAfterCitations
          (([] : List EvidenceMapEntry).map citation_signature)
          { id := "h1", rank := 1, confidence := 9/10,
            explanation := "see arn:aws:iam::123456789012:role/Admin", citations := [] })).2 →
        h'.confidence ≤ 1/5) ∧
      ((citationFiltered (([] : List EvidenceMapEntry).map citation_signature)
          { id := "h1", rank := 1, confidence := 9/10,
            explanation := "see arn:aws:iam::123456789012:role/Admin", citations := [] } = [] ∧
        0 < (redactIdentifiers (explanationAfterCitations
          (([] : List EvidenceMapEntry).map citation_signature)
          { id := "h1", rank := 1, confidence := 9/10,
            explanation := "see arn:aws:iam::123456789012:role/Admin", citations := [] })).2) →
        h'.confidence ≤ 1/5) :=
  guardrail_confidence_caps
    [{ id := "h1", rank := 1, confidence := 9/10,
       explanation := "see arn:aws:iam::123456789012:role/Admin", citations := [] }]
    []
    { id := "h1", rank := 1, confidence := 9/10,
      explanation := "see arn:aws:iam::123456789012:role/Admin", citations := [] }
    (List.mem_singleton.mpr rfl)

/-- C10: enforce_guardrails returns exactly one output hypothesis per
input hypothesis, in order, with id and rank unchanged.  (In this pure
embedding the function is total — it never fails — and the inputs are
immutable values.) -/
theorem guardrail_one_to_one (hs : List Hypothesis) (E : List EvidenceMapEntry) :
    (enforce_guardrails hs E).1.length = hs.length ∧
    ∀ i : Nat,
      ((enforce_guardrails hs E).1[i]?).map Hypothesis.id = (hs[i]?).map Hypothesis.id ∧
      ((enforce_guardrails hs E).1[i]?).map Hypothesis.rank = (hs[i]?).map Hypothesis.rank := by
  rw [enforce_guardrails_fst]
  refine ⟨List.length_map _ _, fun i => ?_⟩
  rw [List.getElem?_map]
  cases hs[i]? with
  | none => simp
  | some h =>
    simp [processHypothesis_id_rank]

/-! ## hashlib.sha256 (RFC 6234 reference algorithm, words as Nat mod 2^32) -/

def hexDigitChar (n : Nat) : Char :=
  if n < 10 then Char.ofNat (48 + n) else Char.ofNat (87 + n)

namespace SHA256

def M32 : Nat := 4294967296

/-- Bitwise xor of 32-bit words by explicit binary recursion. -/
def bxorAux : Nat → Nat → Nat → Nat
  | 0, _, _ => 0
  | k + 1, a, b => (if a % 2 = b % 2 then 0 else 1) + 2 * bxorAux k (a / 2) (b / 2)

def xor32 (a b : Nat) : Nat := bxorAux 32 a b

/-- Bitwise and of 32-bit words. -/
def bandAux : Nat → Nat → Nat → Nat
  | 0, _, _ => 0
  | k + 1, a, b => (if a % 2 = 1 ∧ b % 2 = 1 then 1 else 0) + 2 * bandAux k (a / 2) (b / 2)

def and32 (a b : Nat) : Nat := bandAux 32 a b

def not32 (a : Nat) : Nat := (M32 - 1) - (a % M32)

def rotr (n x : Nat) : Nat := (x / 2 ^ n + x % 2 ^ n * 2 ^ (32 - n)) % M32

def shr (n x : Nat) : Nat := x / 2 ^ n

def ch (x y z : Nat) : Nat := xor32 (and32 x y) (and32 (not32 x) z)

def maj (x y z : Nat) : Nat := xor32 (xor32 (and32 x y) (and32 x z)) (and32 y z)

def bigSigma0 (x : Nat) : Nat := xor32 (xor32 (rotr 2 x) (rotr 13 x)) (rotr 22 x)

def bigSigma1 (x : Nat) : Nat := xor32 (xor32 (rotr 6 x) (rotr 11 x)) (rotr 25 x)

def smallSigma0 (x : Nat) : Nat := xor32 (xor32 (rotr 7 x) (rotr 18 x)) (shr 3 x)

def smallSigma1 (x : Nat) : Nat := xor32 (xor32 (rotr 17 x) (rotr 19 x)) (shr 10 x)

def K : List Nat :=
  [1116352408, 1899447441, 3049323471, 3921009573, 961987163, 1508970993,
   2453635748, 2870763221, 3624381080, 310598401, 607225278, 1426881987,
   1925078388, 2162078206, 2614888103, 3248222580, 3835390401, 4022224774,
   264347078, 604807628, 770255983, 1249150122, 1555081692, 1996064986,
   2554220882, 2821834349, 2952996808, 3210313671, 3336571891, 3584528711,
   113926993, 338241895, 666307205, 773529912, 1294757372, 1396182291,
   1695183700, 1986661051, 2177026350, 2456956037, 2730485921, 2820302411,
   3259730800, 3345764771, 3516065817, 3600352804, 4094571909, 275423344,
   430227734, 506948616, 659060556, 883997877, 958139571, 1322822218,
   1537002063, 1747873779, 1955562222, 2024104815, 2227730452, 2361852424,
   2428436474, 2756734187, 3204031479, 3329325298]

structure St where
  a : Nat
  b : Nat
  c : Nat
  d : Nat
  e : Nat
  f : Nat
  g : Nat
  h : Nat

def H0 : St := ⟨1779033703, 3144134277, 1013904242, 2773480762,
                1359893119, 2600822924, 528734635, 1541459225⟩

def be8 (n : Nat) : List Nat :=
  [n / 2 ^ 56 % 256, n / 2 ^ 48 % 256, n / 2 ^ 40 % 256, n / 2 ^ 32 % 256,
   n / 2 ^ 24 % 256, n / 2 ^ 16 % 256, n / 2 ^ 8 % 256, n % 256]

def padBytes (msg : List Nat) : List Nat :=
  msg ++ [0x80] ++ List.replicate ((119 - msg.length % 64) % 64) 0 ++ be8 (8 * msg.length)

def chunkWords : List Nat → List Nat
  | b1 :: b2 :: b3 :: b4 :: rest =>
    (((b1 * 256 + b2) * 256 + b3) * 256 + b4) :: chunkWords rest
  | _ => []

def group16 : Nat → List Nat → List (List Nat)
  | 0, _ => []
  | _, [] => []
  | fuel + 1, l => l.take 16 :: group16 fuel (l.drop 16)

def extendStep (w : List Nat) : List Nat :=
  let n := w.length
  w ++ [(smallSigma1 (w.getD (n - 2) 0) + w.getD (n - 7) 0 +
         smallSigma0 (w.getD (n - 15) 0) + w.getD (n - 16) 0) % M32]

def extendTo64 : Nat → List Nat → List Nat
  | 0, w => w
  | k + 1, w => extendTo64 k (extendStep w)

def round (st : St) (kw : Nat × Nat) : St :=
  let t1 := (st.h + bigSigma1 st.e + ch st.e st.f st.g + kw.1 + kw.2) % M32
  let t2 := (bigSigma0 st.a + maj st.a st.b st.c) % M32
  ⟨(t1 + t2) % M32, st.a, st.b, st.c, (st.d + t1) % M32, st.e, st.f, st.g⟩

def processBlock (hs : St) (block : List Nat) : St :=
  let w := extendTo64 48 block
  let st := (K.zip w).foldl round hs
  ⟨(hs.a + st.a) % M32, (hs.b + st.b) % M32, (hs.c + st.c) % M32, (hs.d + st.d) % M32,
   (hs.e + st.e) % M32, (hs.f + st.f) % M32, (hs.g + st.g) % M32, (hs.h + st.h) % M32⟩

def digestWords (msg : List Nat) : List Nat :=
  let padded := padBytes msg
  let st := (group16 (padded.length + 1) (chunkWords padded)).foldl processBlock H0
  [st.a, st.b, st.c, st.d, st.e, st.f, st.g, st.h]

def hex8 (n : Nat) : List Char :=
  (List.range 8).map (fun i => hexDigitChar (n / 16 ^ (7 - i) % 16))

end SHA256

/-- UTF-8 encoding of one scalar value. -/
def utf8Bytes (c : Char) : List Nat :=
  let n := c.toNat
  if n < 0x80 then [n]
  else if n < 0x800 then [0xC0 + n / 64, 0x80 + n % 64]
  else if n < 0x10000 then [0xE0 + n / 4096, 0x80 + n / 64 % 64, 0x80 + n % 64]
  else [0xF0 + n / 262144, 0x80 + n / 4096 % 64, 0x80 + n / 64 % 64, 0x80 + n % 64]

/-- hashlib.sha256(text.encode("utf-8")).hexdigest(). -/
def sha256Hex (text : String) : String :=
  String.mk ((SHA256.digestWords (text.data.flatMap utf8Bytes)).flatMap SHA256.hex8)

/-! ## parser.py -/

/-- Structural substring test on char lists. -/
def infixOfL (needle : List Char) : List Char → Bool
  | [] => needle.isEmpty
  | c :: rest => needle.isPrefixOf (c :: rest) || infixOfL needle rest

/-- Python substring membership (needle in haystack). -/
def pyIn (needle hay : String) : Bool := infixOfL needle.data hay.data

/-- Python str.startswith. -/
def pyStartsWith (s lead : String) : Bool := lead.data.isPrefixOf s.data

/-- str.lower, ASCII model. -/
def pyLower (s : String) : String := String.mk (s.data.map Char.toLower)

/-- str.splitlines restricted to the \n, \r and \r\n boundaries. -/
def pySplitlinesGo : List Char → List Char → List (List Char)
  | acc, [] => [acc.reverse]
  | acc, '\r' :: '\n' :: rest =>
    acc.reverse :: (match rest with | [] => [] | _ => pySplitlinesGo [] rest)
  | acc, '\r' :: rest =>
    acc.reverse :: (match rest with | [] => [] | _ => pySplitlinesGo [] rest)
  | acc, '\n' :: rest =>
    acc.reverse :: (match rest with | [] => [] | _ => pySplitlinesGo [] rest)
  | acc, c :: rest => pySplitlinesGo (c :: acc) rest

def pySplitlines (l : List Char) : List (List Char) :=
  match l with
  | [] => []
  | _ => pySplitlinesGo [] l

/-- parser.NormalizedLine. -/
structure NormalizedLine where
  number : Nat
  text : String
  lowered : String
deriving DecidableEq, Repr

/-- parser.NormalizedLog. -/
structure NormalizedLog where
  raw_text : String
  lines : List NormalizedLine
  timestamps : List String
deriving DecidableEq, Repr

/-- schemas.TimeWindow. -/
structure TimeWindow where
  start : Option String
  «end» : Option String
deriving DecidableEq, Repr

/-- parser.ParserResult. -/
structure ParserResult where
  primary_error_signature : Option String := none
  secondary_signatures : List String := []
  evidence_map : List EvidenceMapEntry := []
  services : List String := []
  infra_components : List String := []
  suspected_failure_domain : Option String := none
  time_window : Option TimeWindow := none
deriving DecidableEq, Repr

/-- Length of a match of the timestamp regex
\d{4}-\d{2}-\d{2}[T\s]\d{2}:\d{2}:\d{2}(?:\.\d+)?Z? at the head. -/
def tsHere (l : List Char) : Option Nat :=
  match l with
  | y1 :: y2 :: y3 :: y4 :: '-' :: m1 :: m2 :: '-' :: d1 :: d2 :: sep ::
      h1 :: h2 :: ':' :: n1 :: n2 :: ':' :: s1 :: s2 :: rest =>
    if ([y1, y2, y3, y4, m1, m2, d1, d2, h1, h2, n1, n2, s1, s2]).all Char.isDigit ∧
        (sep = 'T' ∨ isPyWs sep) then
      let fr := match rest with
        | '.' :: r2 =>
          let ds := r2.takeWhile Char.isDigit
          if ds.isEmpty then 0 else 1 + ds.length
        | _ => 0
      let z := match rest.drop fr with | 'Z' :: _ => 1 | _ => 0
      some (19 + fr + z)
    else none
  | _ => none

/-- parser._extract_timestamp: leftmost match of the timestamp regex. -/
def tsSearch : List Char → Option String
  | [] => none
  | c :: rest =>
    match tsHere (c :: rest) with
    | some n => some (String.mk ((c :: rest).take n))
    | none => tsSearch rest

/-- parser._normalize. -/
def normalize (raw_text : String) : NormalizedLog :=
  let ls := (pySplitlines raw_text.data).enum.map
    (fun p => { number := p.1 + 1, text := String.mk p.2,
                lowered := pyLower (String.mk p.2) : NormalizedLine })
  { raw_text := raw_text, lines := ls,
    timestamps := ls.filterMap (fun line => tsSearch line.text.data) }

/-- parser._looks_like_error. -/
def looksLikeError (lowered : String) : Bool :=
  ["error", "exception", "traceback", "fatal", "panic", "failed"].any
    (fun token => pyIn token lowered)

/-- parser._make_evidence. -/
def makeEvidence (source_id : String) (line_start line_end : Int) (text : String) :
    EvidenceMapEntry :=
  { source_type := "log", source_id := source_id, line_start := line_start,
    line_end := line_end, excerpt_hash := sha256Hex text, excerpt := none }

/-- Truncated signature text: line.text.strip()[:256]. -/
def sigText (text : String) : String := String.mk ((pyStripL text.data).take 256)

/-- The four registered log family providers of RuleBasedLogParser. -/
inductive LogFamily where
  | terraform
  | cloudwatch
  | pythonTraceback
  | generic
deriving DecidableEq, Repr

def familyName : LogFamily → String
  | .terraform => "terraform"
  | .cloudwatch => "cloudwatch"
  | .pythonTraceback => "python-traceback"
  | .generic => "generic"

def terraformScoreLine (line : NormalizedLine) : Int :=
  (if pyIn "terraform" line.lowered then 2 else 0) +
  (if pyIn "error:" line.lowered then 1 else 0) +
  (if pyIn ".tf" line.lowered ∧ pyIn "line" line.lowered then 2 else 0) +
  (if pyIn "module." line.lowered then 1 else 0)

def cloudwatchScoreLine (line : NormalizedLine) : Int :=
  (if pyIn "cloudwatch" line.lowered then 2 else 0) +
  (if pyIn "log group" line.lowered ∨ pyIn "log stream" line.lowered then 2 else 0) +
  (if pyIn "eventid" line.lowered ∨ pyIn "event id" line.lowered then 1 else 0) +
  (if pyIn "awslogs" line.lowered then 1 else 0)

def pytbScoreLine (line : NormalizedLine) : Int :=
  (if pyIn "traceback (most recent call last):" line.lowered then 4 else 0) +
  (if pyStartsWith (pyStrip line.lowered) "file \"" ∧ pyIn ", line" line.lowered then 1 else 0) +
  (if pyIn "exception" line.lowered ∨ pyIn "error" line.lowered then 1 else 0)

/-- match_score of each provider. -/
def matchScore : LogFamily → NormalizedLog → Int
  | .terraform, n => (n.lines.map terraformScoreLine).sum
  | .cloudwatch, n => (n.lines.map cloudwatchScoreLine).sum
  | .pythonTraceback, n => (n.lines.map pytbScoreLine).sum
  | .generic, n => if n.lines.any (fun line => looksLikeError line.lowered) then 1 else 0

/-- TerraformParser.extract. -/
def terraformExtract (n : NormalizedLog) : ParserResult :=
  let hit :=
    match n.lines.find? (fun line => pyStartsWith line.lowered "error:") with
    | some l => some l
    | none => n.lines.find? (fun line => pyIn "error:" line.lowered)
  let primaryPart : Option String × List EvidenceMapEntry :=
    match hit with
    | some l => (some (sigText l.text),
        [makeEvidence "raw-input" (l.number : Int) (l.number : Int) l.text])
    | none => (none, [])
  let secLines := (n.lines.filter (fun line =>
      pyIn "on" line.lowered ∧ pyIn ".tf" line.lowered ∧ pyIn "line" line.lowered)).take 3
  { primary_error_signature := primaryPart.1,
    secondary_signatures := secLines.map (fun l => sigText l.text),
    evidence_map := primaryPart.2 ++ secLines.map
      (fun l => makeEvidence "raw-input" (l.number : Int) (l.number : Int) l.text),
    infra_components := ["terraform"] }

/-- CloudWatchParser.extract. -/
def cloudwatchExtract (n : NormalizedLog) : ParserResult :=
  match n.lines.find? (fun line => looksLikeError line.lowered) with
  | some l =>
    { primary_error_signature := some (sigText l.text),
      evidence_map := [makeEvidence "raw-input" (l.number : Int) (l.number : Int) l.text],
      infra_components := ["cloudwatch"] }
  | none => { infra_components := ["cloudwatch"] }

/-- The traceback-collection loop of PythonTracebackParser.extract. -/
def pytbCollect : List NormalizedLine → List NormalizedLine → List NormalizedLine
  | acc, [] => acc
  | acc, line :: rest =>
    if pyIn "traceback (most recent call last):" line.lowered then
      pytbCollect (acc ++ [line]) rest
    else if ¬ acc.isEmpty then
      let acc2 := acc ++ [line]
      if pyStrip line.text ≠ "" ∧ ¬ pyStartsWith line.text " " ∧ acc2.length > 6 then acc2
      else pytbCollect acc2 rest
    else pytbCollect acc rest

/-- PythonTracebackParser.extract. -/
def pytbExtract (n : NormalizedLog) : ParserResult :=
  let tb := pytbCollect [] n.lines
  match tb.getLast? with
  | none => {}
  | some lastLine =>
    let secLines := (tb.take 3).filter (fun line => pyIn "file \"" line.lowered)
    { primary_error_signature := some (sigText lastLine.text),
      secondary_signatures := secLines.map (fun l => sigText l.text),
      evidence_map :=
        makeEvidence "raw-input" (lastLine.number : Int) (lastLine.number : Int) lastLine.text ::
          secLines.map (fun l => makeEvidence "raw-input" (l.number : Int) (l.number : Int) l.text) }

/-- GenericParser.extract. -/
def genericExtract (n : NormalizedLog) : ParserResult :=
  match n.lines.find? (fun line => looksLikeError line.lowered) with
  | some l =>
    { primary_error_signature := some (sigText l.text),
      evidence_map := [makeEvidence "raw-input" (l.number : Int) (l.number : Int) l.text] }
  | none =>
    match n.lines with
    | [] => {}
    | first :: _ =>
      { primary_error_signature := some (sigText first.text),
        evidence_map := [makeEvidence "raw-input" (first.number : Int) (first.number : Int) first.text] }

def extract : LogFamily → NormalizedLog → ParserResult
  | .terraform, n => terraformExtract n
  | .cloudwatch, n => cloudwatchExtract n
  | .pythonTraceback, n => pytbExtract n
  | .generic, n => genericExtract n

/-- The provider registration order of RuleBasedLogParser.__init__. -/
def registration : List LogFamily :=
  [.terraform, .cloudwatch, .pythonTraceback, .generic]

/-- parser._select_parser. -/
def selectFamily (families : List LogFamily) (normalized : NormalizedLog) :
    LogFamily × Int :=
  let r := families.foldl
    (fun (acc : Option LogFamily × Int) p =>
      let score := matchScore p normalized
      if score > acc.2 then (some p, score) else acc)
    (none, -1)
  match r.1 with
  | none => (.generic, 0)
  | some p => (p, r.2)

/-- Python truthiness of an optional string (None and "" are falsy). -/
def optStrTruthy : Option String → Bool
  | none => false
  | some s => s ≠ ""

/-- parser._score_to_confidence. -/
def scoreToConfidence (score : Int) (has_primary : Option String) : ℚ :=
  if score ≤ 0 then (if optStrTruthy has_primary then 1/4 else 3/20)
  else if score ≥ 6 then 17/20
  else if score ≥ 3 then 7/10
  else 1/2

/-- parser._extract_services. -/
def extractServices (raw_text : String) : List String :=
  let lowered := pyLower raw_text
  ["api", "worker", "gateway", "frontend", "backend"].filter (fun name => pyIn name lowered)

/-- parser._extract_infra_components. -/
def extractInfraComponents (raw_text : String) : List String :=
  let lowered := pyLower raw_text
  ["ecs", "alb", "lambda", "dynamodb", "s3", "rds", "redis", "cloudwatch"].filter
    (fun name => pyIn name lowered)

/-- parser._guess_domain. -/
def guessDomain (raw_text : String) : Option String :=
  let lowered := pyLower raw_text
  if pyIn "timeout" lowered ∨ pyIn "latency" lowered then some "performance"
  else if pyIn "permission" lowered ∨ pyIn "access denied" lowered then some "security"
  else if pyIn "connection" lowered ∨ pyIn "dns" lowered then some "network"
  else if pyIn "null" lowered ∨ pyIn "exception" lowered then some "application"
  else none

/-- schemas.IncidentFrame.  created_at is modelled as an opaque string
timestamp value. -/
structure IncidentFrame where
  frame_id : String
  conversation_id : Option String
  request_id : String
  source : String
  parser_version : String
  parse_confidence : ℚ
  created_at : String
  primary_error_signature : Option String
  secondary_signatures : List String
  time_window : Option TimeWindow
  services : List String
  infra_components : List String
  suspected_failure_domain : Option String
  evidence_map : List EvidenceMapEntry
deriving DecidableEq, Repr

/-- RuleBasedLogParser.parse.  The nondeterministic uuid4() and
datetime.now() calls are passed in as the frame_id and created_at
arguments.  Python set unions (list(set) conversions) are modelled as
order-normalising dedup of the concatenation. -/
def rulesParse (raw_text request_id : String) (conversation_id : Option String)
    (frame_id created_at : String) : IncidentFrame :=
  let normalized := normalize raw_text
  let sel := selectFamily registration normalized
  let result0 := extract sel.1 normalized
  let tw : TimeWindow :=
    { start := normalized.timestamps.head?, «end» := normalized.timestamps.getLast? }
  let result1 :=
    if ¬ normalized.timestamps.isEmpty then
      { result0 with time_window := some tw }
    else result0
  let result := { result1 with
    services := extractServices raw_text,
    infra_components := (result1.infra_components ++ extractInfraComponents raw_text).dedup,
    suspected_failure_domain := guessDomain raw_text }
  { frame_id := frame_id,
    conversation_id := conversation_id,
    request_id := request_id,
    source := "user_input",
    parser_version := "v0.2",
    parse_confidence := scoreToConfidence sel.2 result.primary_error_signature,
    created_at := created_at,
    primary_error_signature := result.primary_error_signature,
    secondary_signatures := result.secondary_signatures,
    time_window := result.time_window,
    services := result.services,
    infra_components := result.infra_components,
    suspected_failure_domain := result.suspected_failure_domain,
    evidence_map := result.evidence_map }

/-- Python or on optional strings (None and "" falsy). -/
def pyOrStr (a b : Option String) : Option String := if optStrTruthy a then a else b

/-- Python or on optional objects (an object is always truthy). -/
def pyOrTW (a b : Option TimeWindow) : Option TimeWindow :=
  match a with
  | some x => some x
  | none => b

/-- main._merge_frames. -/
def mergeFrames (existing incoming : IncidentFrame) : IncidentFrame :=
  { frame_id := incoming.frame_id,
    conversation_id := incoming.conversation_id,
    request_id := incoming.request_id,
    source := incoming.source,
    parser_version := incoming.parser_version,
    parse_confidence := max existing.parse_confidence incoming.parse_confidence,
    created_at := incoming.created_at,
    primary_error_signature :=
      pyOrStr incoming.primary_error_signature existing.primary_error_signature,
    secondary_signatures :=
      (existing.secondary_signatures ++ incoming.secondary_signatures).dedup,
    time_window := pyOrTW incoming.time_window existing.time_window,
    services := (existing.services ++ incoming.services).dedup,
    infra_components := (existing.infra_components ++ incoming.infra_components).dedup,
    suspected_failure_domain :=
      pyOrStr incoming.suspected_failure_domain existing.suspected_failure_domain,
    evidence_map := existing.evidence_map ++ incoming.evidence_map }

/-- Every provider's match_score is nonnegative. -/
theorem matchScore_nonneg (fam : LogFamily) (n : NormalizedLog) :
    0 ≤ matchScore fam n := by
  cases fam <;> simp only [matchScore]
  · apply List.sum_nonneg
    intro x hx
    rcases List.mem_map.mp hx with ⟨l, -, rfl⟩
    simp only [terraformScoreLine]
    split_ifs <;> omega
  · apply List.sum_nonneg
    intro x hx
    rcases List.mem_map.mp hx with ⟨l, -, rfl⟩
    simp only [cloudwatchScoreLine]
    split_ifs <;> omega
  · apply List.sum_nonneg
    intro x hx
    rcases List.mem_map.mp hx with ⟨l, -, rfl⟩
    simp only [pytbScoreLine]
    split_ifs <;> omega
  · split_ifs <;> omega

/-- Closed form of the selection fold over the registration list. -/
theorem selectFamily_reg (n : NormalizedLog) :
    selectFamily registration n =
      (if matchScore .cloudwatch n > matchScore .terraform n then
        if matchScore .pythonTraceback n > matchScore .cloudwatch n then
          if matchScore .generic n > matchScore .pythonTraceback n then
            (.generic, matchScore .generic n)
          else (.pythonTraceback, matchScore .pythonTraceback n)
        else
          if matchScore .generic n > matchScore .cloudwatch n then
            (.generic, matchScore .generic n)
          else (.cloudwatch, matchScore .cloudwatch n)
      else
        if matchScore .pythonTraceback n > matchScore .terraform n then
          if matchScore .generic n > matchScore .pythonTraceback n then
            (.generic, matchScore .generic n)
          else (.pythonTraceback, matchScore .pythonTraceback n)
        else
          if matchScore .generic n > matchScore .terraform n then
            (.generic, matchScore .generic n)
          else (.terraform, matchScore .terraform n)) := by
  have h1 : matchScore .terraform n > -1 := by
    have := matchScore_nonneg .terraform n; omega
  simp only [selectFamily, registration, List.foldl_cons, List.foldl_nil]
  rw [if_pos h1]
  split_ifs <;> rfl

/-- C8: family dispatch is a deterministic function of the raw text; the
selected provider has the maximal match_score, and among equal scores the
first provider in the registration order (terraform, cloudwatch,
python-traceback, generic) wins. -/
theorem family_dispatch_deterministic (raw : String) :
    (∀ raw2 : String, raw2 = raw →
      selectFamily registration (normalize raw2) =
        selectFamily registration (normalize raw)) ∧
    (∀ fam ∈ registration,
      matchScore fam (normalize raw) ≤ (selectFamily registration (normalize raw)).2) ∧
    (∃ i : Nat,
      registration[i]? = some (selectFamily registration (normalize raw)).1 ∧
      matchScore (selectFamily registration (normalize raw)).1 (normalize raw) =
        (selectFamily registration (normalize raw)).2 ∧
      ∀ j : Nat, j < i → ∀ fam2 : LogFamily, registration[j]? = some fam2 →
        matchScore fam2 (normalize raw) <
          (selectFamily registration (normalize raw)).2) := by
  refine ⟨fun raw2 h => by rw [h], ?_⟩
  rw [selectFamily_reg (normalize raw)]
  set n := normalize raw
  split_ifs with h2 h3 h4 h5 h6 h7 h8 <;>
    (constructor
     · intro fam hfam
       rcases (by simpa [registration] using hfam :
           fam = LogFamily.terraform ∨ fam = LogFamily.cloudwatch ∨
           fam = LogFamily.pythonTraceback ∨ fam = LogFamily.generic) with
         rfl | rfl | rfl | rfl <;> dsimp only <;> omega
     · first
         | exact ⟨0, rfl, rfl, fun j hj fam2 hget => by omega⟩
         | refine ⟨1, rfl, rfl, fun j hj fam2 hget => ?_⟩
           interval_cases j <;>
             simp only [registration, List.getElem?_cons_zero, List.getElem?_cons_succ,
               Option.some.injEq] at hget <;>
             subst hget <;> dsimp only <;> omega
         | refine ⟨2, rfl, rfl, fun j hj fam2 hget => ?_⟩
           interval_cases j <;>
             simp only [registration, List.getElem?_cons_zero, List.getElem?_cons_succ,
               Option.some.injEq] at hget <;>
             subst hget <;> dsimp only <;> omega
         | refine ⟨3, rfl, rfl, fun j hj fam2 hget => ?_⟩
           interval_cases j <;>
             simp only [registration, List.getElem?_cons_zero, List.getElem?_cons_succ,
               Option.some.injEq] at hget <;>
             subst hget <;> dsimp only <;> omega)

/-- Witness for C8 at a concrete input. -/
theorem family_dispatch_deterministic_witness :
    matchScore LogFamily.cloudwatch (normalize "terraform Error: boom") ≤
      (selectFamily registration (normalize "terraform Error: boom")).2 :=
  (family_dispatch_deterministic "terraform Error: boom").2.1 LogFamily.cloudwatch (by decide)

/-- The winning provider's match score for a raw input. -/
def winningScore (raw : String) : Int :=
  (selectFamily registration (normalize raw)).2

/-- The primary error signature extracted by the winning provider. -/
def winningPrimary (raw : String) : Option String :=
  (extract (selectFamily registration (normalize raw)).1 (normalize raw)).primary_error_signature

/-- The parse_confidence of a parsed frame is the confidence heuristic at
the winning score and extracted primary signature. -/
theorem rulesParse_confidence (raw_text request_id : String)
    (conversation_id : Option String) (frame_id created_at : String) :
    (rulesParse raw_text request_id conversation_id frame_id created_at).parse_confidence =
      scoreToConfidence (winningScore raw_text) (winningPrimary raw_text) := by
  unfold rulesParse winningScore winningPrimary
  dsimp only
  split <;> rfl

/-- C9: parse_confidence is exactly the heuristic value: 0.15 for
score ≤ 0 with no (truthy) primary signature, 0.25 for score ≤ 0 with
one, 0.85 for score ≥ 6, 0.70 for 3 ≤ score < 6, 0.50 otherwise. -/
theorem parse_confidence_heuristic (raw_text request_id : String)
    (conversation_id : Option String) (frame_id created_at : String) :
    (rulesParse raw_text request_id conversation_id frame_id created_at).parse_confidence =
      scoreToConfidence (winningScore raw_text) (winningPrimary raw_text) ∧
    (winningScore raw_text ≤ 0 → optStrTruthy (winningPrimary raw_text) = false →
      (rulesParse raw_text request_id conversation_id frame_id created_at).parse_confidence = 3/20) ∧
    (winningScore raw_text ≤ 0 → optStrTruthy (winningPrimary raw_text) = true →
      (rulesParse raw_text request_id conversation_id frame_id created_at).parse_confidence = 1/4) ∧
    (6 ≤ winningScore raw_text →
      (rulesParse raw_text request_id conversation_id frame_id created_at).parse_confidence = 17/20) ∧
    (3 ≤ winningScore raw_text → winningScore raw_text < 6 →
      (rulesParse raw_text request_id conversation_id frame_id created_at).parse_confidence = 7/10) ∧
    (0 < winningScore raw_text → winningScore raw_text < 3 →
      (rulesParse raw_text request_id conversation_id frame_id created_at).parse_confidence = 1/2) := by
  have hc := rulesParse_confidence raw_text request_id conversation_id frame_id created_at
  refine ⟨hc, ?_, ?_, ?_, ?_, ?_⟩ <;> rw [hc] <;> unfold scoreToConfidence
  · intro hs hp
    rw [if_pos hs, hp]
    rfl
  · intro hs hp
    rw [if_pos hs, hp]
    rfl
  · intro hs
    rw [if_neg (by omega), if_pos (by omega)]
  · intro hs1 hs2
    rw [if_neg (by omega), if_neg (by omega), if_pos (by omega)]
  · intro hs1 hs2
    rw [if_neg (by omega), if_neg (by omega), if_neg (by omega)]

/-- Witness for C9: a terraform input whose winning score is ≥ 6 parses
with confidence 0.85. -/
theorem parse_confidence_heuristic_witness :
    6 ≤ winningScore "Error: a\non a.tf line 1\non b.tf line 2\non c.tf line 3" ∧
    (rulesParse "Error: a\non a.tf line 1\non b.tf line 2\non c.tf line 3"
      "r1" none "f1" "t1").parse_confidence = 17/20 :=
  ⟨by decide,
   (parse_confidence_heuristic "Error: a\non a.tf line 1\non b.tf line 2\non c.tf line 3"
     "r1" none "f1" "t1").2.2.2.1 (by decide)⟩

/-- Counterexample for C5: merging two parser-produced frames, each with
three secondary signatures, yields a frame with six secondary
signatures, violating the ≤ 3 bound. -/
theorem merge_secondary_overflow :
    3 < ((mergeFrames
      (rulesParse "Error: a\non a.tf line 1\non b.tf line 2\non c.tf line 3" "r1" none "f1" "t1")
      (rulesParse "Error: b\non d.tf line 4\non e.tf line 5\non f.tf line 6" "r2" none "f2" "t2")
      ).secondary_signatures).length := by decide

/-- C5 (amended): a freshly parsed frame has at most 3 secondary
signatures; a merged frame's secondary signatures are the deduplicated
union of the two inputs and are bounded only by the sum of their lengths
(so up to 6 when both inputs are parser outputs). -/
theorem secondary_signature_bounds (raw_text request_id : String)
    (conversation_id : Option String) (frame_id created_at : String)
    (existing incoming : IncidentFrame) :
    (rulesParse raw_text request_id conversation_id frame_id created_at
      ).secondary_signatures.length ≤ 3 ∧
    (mergeFrames existing incoming).secondary_signatures.length ≤
      existing.secondary_signatures.length + incoming.secondary_signatures.length := by
  constructor
  · have hext : ∀ (fam : LogFamily) (n : NormalizedLog),
        (extract fam n).secondary_signatures.length ≤ 3 := by
      intro fam n
      cases fam
      · simp only [extract, terraformExtract]
        rw [List.length_map, List.length_take]
        omega
      · simp only [extract, cloudwatchExtract]
        split <;> simp
      · simp only [extract, pytbExtract]
        cases hlast : (pytbCollect [] n.lines).getLast? with
        | none => simp
        | some lastLine =>
          dsimp only
          rw [List.length_map]
          have h1 := List.length_filter_le (fun line => pyIn "file \"" line.lowered)
            ((pytbCollect [] n.lines).take 3)
          have h2 : ((pytbCollect [] n.lines).take 3).length ≤ 3 := by
            rw [List.length_take]; omega
          omega
      · simp only [extract, genericExtract]
        split
        · simp
        · split <;> simp
    have hsec : (rulesParse raw_text request_id conversation_id frame_id created_at
        ).secondary_signatures =
        (extract (selectFamily registration (normalize raw_text)).1
          (normalize raw_text)).secondary_signatures := by
      unfold rulesParse
      dsimp only
      split <;> rfl
    rw [hsec]
    exact hext _ _
  · have h1 := (List.dedup_sublist
      (existing.secondary_signatures ++ incoming.secondary_signatures)).length_le
    simpa [List.length_append] using h1

/-! ## orchestrator.py citation normalization -/

/-- A model-supplied citation reference (a JSON dict); a missing key is
modelled as none. -/
structure CitationRef where
  evidence_map_entry_id : Option String := none
  excerpt_hash : Option String := none
  excerpt : Option String := none
  line_start : Option Int := none
  line_end : Option Int := none
  source_type : Option String := none
  source_id : Option String := none
deriving DecidableEq, Repr

/-- Python dict assignment d[k] = v: replace in place or append. -/
def upsert {κ : Type} [DecidableEq κ] (l : List (κ × EvidenceMapEntry)) (k : κ)
    (v : EvidenceMapEntry) : List (κ × EvidenceMapEntry) :=
  if l.any (fun p => p.1 = k) then
    l.map (fun p => if p.1 = k then (k, v) else p)
  else l ++ [(k, v)]

/-- Python dict lookup. -/
def dlookup {κ : Type} [DecidableEq κ] (l : List (κ × EvidenceMapEntry)) (k : κ) :
    Option EvidenceMapEntry :=
  (l.find? (fun p => p.1 = k)).map (fun p => p.2)

/-- The four lookup tables built by _normalize_llm_payload from the
allowed entries: by signature, by excerpt hash, by stripped excerpt and
by (source_type, source_id, line_start, line_end). -/
def buildMaps (allowed_entries : List EvidenceMapEntry) :
    List (String × EvidenceMapEntry) × List (String × EvidenceMapEntry) ×
    List (String × EvidenceMapEntry) ×
    List ((String × String × Int × Int) × EvidenceMapEntry) :=
  allowed_entries.foldl
    (fun maps entry =>
      (upsert maps.1 (citation_signature entry) entry,
       (if entry.excerpt_hash ≠ "" then upsert maps.2.1 entry.excerpt_hash entry
        else maps.2.1),
       (match entry.excerpt with
        | some x => if x ≠ "" then upsert maps.2.2.1 (pyStrip x) entry else maps.2.2.1
        | none => maps.2.2.1),
       upsert maps.2.2.2 (entry.source_type, entry.source_id,
         entry.line_start, entry.line_end) entry))
    ([], [], [], [])

def isDigits (s : String) : Bool := !s.data.isEmpty && s.data.all Char.isDigit

def digitsToNat (s : String) : Nat :=
  s.data.foldl (fun acc c => acc * 10 + (c.toNat - 48)) 0

/-- orchestrator._match_citation. -/
def matchCitation (citation : CitationRef)
    (bySig byHash byExc : List (String × EvidenceMapEntry))
    (byLines : List ((String × String × Int × Int) × EvidenceMapEntry))
    (allowed_entries : List EvidenceMapEntry) : Option EvidenceMapEntry :=
  let viaId : Option EvidenceMapEntry :=
    match citation.evidence_map_entry_id with
    | none => none
    | some key =>
      match dlookup bySig key with
      | some e => some e
      | none =>
        match dlookup byHash key with
        | some e => some e
        | none =>
          if isDigits key then
            if digitsToNat key < allowed_entries.length then
              allowed_entries[digitsToNat key]?
            else none
          else none
  match viaId with
  | some e => some e
  | none =>
    match citation.excerpt_hash with
    | some hk =>
      match dlookup byHash hk with
      | some e => some e
      | none => matchCitationTail citation byExc byLines
    | none => matchCitationTail citation byExc byLines
where
  matchCitationTail (citation : CitationRef)
      (byExc : List (String × EvidenceMapEntry))
      (byLines : List ((String × String × Int × Int) × EvidenceMapEntry)) :
      Option EvidenceMapEntry :=
    match citation.excerpt with
    | some x =>
      match dlookup byExc (pyStrip x) with
      | some e => some e
      | none => matchCitationLines citation byLines
    | none => matchCitationLines citation byLines
  matchCitationLines (citation : CitationRef)
      (byLines : List ((String × String × Int × Int) × EvidenceMapEntry)) :
      Option EvidenceMapEntry :=
    match citation.line_start, citation.line_end with
    | some ls, some le =>
      let st := match citation.source_type with
        | none => "log"
        | some s => if s = "" then "log" else s
      let sid := match citation.source_id with
        | none => "raw-input"
        | some s => if s = "" then "raw-input" else s
      dlookup byLines (st, sid, ls, le)
    | _, _ => none

/-- Fallback chaining of optional lookups. -/
def orO {α : Type} (a b : Option α) : Option α :=
  match a with
  | some x => some x
  | none => b

/-- Modelled from the spec: the resolution chain in the order the spec
asserts — exact signature match, then excerpt-hash match, then
trimmed-excerpt-text match, then line-tuple match, and a literal numeric
index only as a last resort. -/
def specOrderResolve (citation : CitationRef)
    (bySig byHash byExc : List (String × EvidenceMapEntry))
    (byLines : List ((String × String × Int × Int) × EvidenceMapEntry))
    (allowed_entries : List EvidenceMapEntry) : Option EvidenceMapEntry :=
  orO (citation.evidence_map_entry_id.bind (fun key => dlookup bySig key))
    (orO (orO (citation.evidence_map_entry_id.bind (fun key => dlookup byHash key))
              (citation.excerpt_hash.bind (fun hk => dlookup byHash hk)))
      (orO (citation.excerpt.bind (fun x => dlookup byExc (pyStrip x)))
        (orO (matchCitation.matchCitationLines citation byLines)
          (citation.evidence_map_entry_id.bind (fun key =>
            if isDigits key then
              if digitsToNat key < allowed_entries.length then
                allowed_entries[digitsToNat key]?
              else none
            else none)))))

/-- The resolution chain in the order the code actually uses: entry id
as signature, entry id as hash, entry id as numeric index, then the
excerpt-hash field, then trimmed excerpt text, then the line tuple. -/
def amendedOrderResolve (citation : CitationRef)
    (bySig byHash byExc : List (String × EvidenceMapEntry))
    (byLines : List ((String × String × Int × Int) × EvidenceMapEntry))
    (allowed_entries : List EvidenceMapEntry) : Option EvidenceMapEntry :=
  orO (citation.evidence_map_entry_id.bind (fun key => dlookup bySig key))
    (orO (citation.evidence_map_entry_id.bind (fun key => dlookup byHash key))
      (orO (citation.evidence_map_entry_id.bind (fun key =>
              if isDigits key then
                if digitsToNat key < allowed_entries.length then
                  allowed_entries[digitsToNat key]?
                else none
              else none))
        (orO (citation.excerpt_hash.bind (fun hk => dlookup byHash hk))
          (orO (citation.excerpt.bind (fun x => dlookup byExc (pyStrip x)))
            (matchCitation.matchCitationLines citation byLines)))))

/-- A citation list item arriving from the model payload. -/
inductive CitationItem where
  | entryObj (e : EvidenceMapEntry)
  | ref (r : CitationRef)
  | invalid
deriving DecidableEq, Repr

def hasFullKeys (r : CitationRef) : Bool :=
  r.source_type.isSome && r.source_id.isSome && r.line_start.isSome &&
    r.line_end.isSome && r.excerpt_hash.isSome

/-- The dict of a full-key reference, passed through unchanged. -/
def refToEntry (r : CitationRef) : EvidenceMapEntry :=
  { source_type := r.source_type.getD "", source_id := r.source_id.getD "",
    line_start := r.line_start.getD 0, line_end := r.line_end.getD 0,
    excerpt_hash := r.excerpt_hash.getD "", excerpt := r.excerpt }

/-- One step of the citation loop of _normalize_llm_payload. -/
def normStep (bySig byHash byExc : List (String × EvidenceMapEntry))
    (byLines : List ((String × String × Int × Int) × EvidenceMapEntry))
    (allowed_entries : List EvidenceMapEntry) (item : CitationItem) :
    List EvidenceMapEntry :=
  match item with
  | .entryObj e => [e]
  | .invalid => []
  | .ref r =>
    if hasFullKeys r then [refToEntry r]
    else
      match matchCitation r bySig byHash byExc byLines allowed_entries with
      | some e => [e]
      | none => []

/-- The normalized citation list of one hypothesis. -/
def normalizeCitationList (items : List CitationItem)
    (bySig byHash byExc : List (String × EvidenceMapEntry))
    (byLines : List ((String × String × Int × Int) × EvidenceMapEntry))
    (allowed_entries : List EvidenceMapEntry) : List EvidenceMapEntry :=
  items.flatMap (normStep bySig byHash byExc byLines allowed_entries)

def cxE0 : EvidenceMapEntry := ⟨"log", "raw-input", 1, 1, "h0", some "text0"⟩

def cxE1 : EvidenceMapEntry := ⟨"log", "raw-input", 2, 2, "h1", some "text1"⟩

def cxCitEntries : List EvidenceMapEntry := [cxE0, cxE1]

/-- A reference whose entry id is a plain digit and whose excerpt text
matches a different entry. -/
def cxIdxRef : CitationRef := { evidence_map_entry_id := some "1", excerpt := some "text0" }

/-- A reference that resolves by no method. -/
def cxBadRef : CitationRef := { excerpt := some "nope" }

/-- Counterexample for C4: _match_citation resolves a digit entry id as
a literal index before trying the excerpt-text match, so it returns
entry 1 where the spec's resolution order returns entry 0. -/
theorem citation_resolution_spec_order_cx :
    matchCitation cxIdxRef (buildMaps cxCitEntries).1 (buildMaps cxCitEntries).2.1
        (buildMaps cxCitEntries).2.2.1 (buildMaps cxCitEntries).2.2.2 cxCitEntries =
      some cxE1 ∧
    specOrderResolve cxIdxRef (buildMaps cxCitEntries).1 (buildMaps cxCitEntries).2.1
        (buildMaps cxCitEntries).2.2.1 (buildMaps cxCitEntries).2.2.2 cxCitEntries =
      some cxE0 ∧
    cxE1 ≠ cxE0 := by decide

/-- C4 (amended): resolution tries, in this order, the entry id as exact
signature, as excerpt hash, and as literal numeric index, then the
excerpt-hash field, then trimmed excerpt text, then the line tuple; a
reference resolving by none of these (and lacking the full key set) is
dropped from the citation list, never guessed. -/
theorem citation_resolution_amended (c : CitationRef)
    (bySig byHash byExc : List (String × EvidenceMapEntry))
    (byLines : List ((String × String × Int × Int) × EvidenceMapEntry))
    (entries : List EvidenceMapEntry) :
    matchCitation c bySig byHash byExc byLines entries =
      amendedOrderResolve c bySig byHash byExc byLines entries ∧
    (∀ pre post : List CitationItem, ¬ hasFullKeys c →
      matchCitation c bySig byHash byExc byLines entries = none →
      normalizeCitationList (pre ++ CitationItem.ref c :: post) bySig byHash byExc byLines entries =
        normalizeCitationList (pre ++ post) bySig byHash byExc byLines entries) := by
  constructor
  · rcases c with ⟨id, eh, ex, ls, le, st, sid⟩
    cases id <;> cases eh <;> cases ex <;>
      simp only [matchCitation, matchCitation.matchCitationTail, amendedOrderResolve, orO,
        Option.none_bind, Option.some_bind] <;>
      (repeat' split) <;> simp_all
  · intro pre post hkeys hnone
    have hb : hasFullKeys c = false := by
      cases h : hasFullKeys c
      · rfl
      · exact absurd h hkeys
    simp [normalizeCitationList, List.flatMap_append, List.flatMap_cons, normStep, hb, hnone]

/-- Witness for C4's amended theorem: an unresolvable reference is
dropped from a concrete citation list. -/
theorem citation_resolution_amended_witness :
    normalizeCitationList ([CitationItem.entryObj cxE0] ++ CitationItem.ref cxBadRef :: [])
        (buildMaps cxCitEntries).1 (buildMaps cxCitEntries).2.1
        (buildMaps cxCitEntries).2.2.1 (buildMaps cxCitEntries).2.2.2 cxCitEntries =
      normalizeCitationList ([CitationItem.entryObj cxE0] ++ [])
        (buildMaps cxCitEntries).1 (buildMaps cxCitEntries).2.1
        (buildMaps cxCitEntries).2.2.1 (buildMaps cxCitEntries).2.2.2 cxCitEntries :=
  (citation_resolution_amended cxBadRef (buildMaps cxCitEntries).1 (buildMaps cxCitEntries).2.1
    (buildMaps cxCitEntries).2.2.1 (buildMaps cxCitEntries).2.2.2 cxCitEntries).2
    [CitationItem.entryObj cxE0] [] (by decide) (by decide)

/-! ## json_utils.py and the json stdlib model

json.loads is modelled on the pure-Python reference scanner
(json.decoder): values are scanned by first character, strings by a
left-to-right scan with escape handling and surrogate-pair combination,
and errors carry the kind and position that the repair ladder inspects.
Decoded strings are sequences of code points (List Nat, so that lone
surrogates from \uXXXX escapes are representable); numeric literals are
kept verbatim (their float value is never inspected by this codebase).
-/

/-- A decoded JSON value. -/
inductive Json where
  | null
  | bool (b : Bool)
  | str (s : List Nat)
  | num (lit : List Char)
  | arr (elems : List Json)
  | obj (pairs : List (List Nat × Json))
deriving Repr

/-- Whether an Except value is a success. -/
def exOk {ε α : Type} : Except ε α → Bool
  | .ok _ => true
  | .error _ => false

/-- The error kinds of json.JSONDecodeError that the code inspects or
raises. -/
inductive JErrKind where
  | expectingValue
  | expectingColon
  | expectingComma
  | expectingPropName
  | unterminatedString
  | invalidControlChar
  | invalidEscape
  | invalidUEscape
  | extraData
deriving DecidableEq, Repr

structure JErr where
  kind : JErrKind
  pos : Nat
deriving DecidableEq, Repr

/-- JSON whitespace (the WHITESPACE class of json.decoder). -/
def isJsonWs (c : Char) : Bool := c = ' ' ∨ c = '\t' ∨ c = '\n' ∨ c = '\r'

/-- Skip whitespace, tracking the absolute position. -/
def skipWs : List Char → Nat → List Char × Nat
  | [], pos => ([], pos)
  | c :: rest, pos => if isJsonWs c then skipWs rest (pos + 1) else (c :: rest, pos)

def hexVal (c : Char) : Option Nat :=
  if '0' ≤ c ∧ c ≤ '9' then some (c.toNat - 48)
  else if 'a' ≤ c ∧ c ≤ 'f' then some (c.toNat - 87)
  else if 'A' ≤ c ∧ c ≤ 'F' then some (c.toNat - 55)
  else none

/-- The BACKSLASH table of json.decoder. -/
def shortEsc (c : Char) : Option Nat :=
  if c = '"' then some 34
  else if c = '\\' then some 92
  else if c = '/' then some 47
  else if c = 'b' then some 8
  else if c = 'f' then some 12
  else if c = 'n' then some 10
  else if c = 'r' then some 13
  else if c = 't' then some 9
  else none

/-- py_scanstring: scan a string body after the opening quote.  startPos
is the index of the opening quote (for the unterminated-string error);
pos is the index of the head of the list.  Returns the decoded code
points, the remaining characters and the position after the closing
quote. -/
def scanStr (strict : Bool) (startPos : Nat) :
    Nat → List Char → Nat → Except JErr (List Nat × List Char × Nat)
  | 0, _, _ => .error ⟨.unterminatedString, startPos⟩
  | _ + 1, [], _ => .error ⟨.unterminatedString, startPos⟩
  | _ + 1, '"' :: rest, pos => .ok ([], rest, pos + 1)
  | fuel + 1, '\\' :: 'u' :: a :: b :: c2 :: d :: rest3, pos =>
    (match hexVal a, hexVal b, hexVal c2, hexVal d with
     | some va, some vb, some vc, some vd =>
       let uni := ((va * 16 + vb) * 16 + vc) * 16 + vd
       if 0xd800 ≤ uni ∧ uni ≤ 0xdbff then
         match rest3 with
         | '\\' :: 'u' :: a2 :: b2 :: c3 :: d2 :: rest4 =>
           (match hexVal a2, hexVal b2, hexVal c3, hexVal d2 with
            | some wa, some wb, some wc, some wd =>
              let uni2 := ((wa * 16 + wb) * 16 + wc) * 16 + wd
              if 0xdc00 ≤ uni2 ∧ uni2 ≤ 0xdfff then
                match scanStr strict startPos fuel rest4 (pos + 12) with
                | .error err => .error err
                | .ok r =>
                  .ok ((0x10000 + (uni - 0xd800) * 1024 + (uni2 - 0xdc00)) :: r.1, r.2.1, r.2.2)
              else
                match scanStr strict startPos fuel rest3 (pos + 6) with
                | .error err => .error err
                | .ok r => .ok (uni :: r.1, r.2.1, r.2.2)
            | _, _, _, _ => .error ⟨.invalidUEscape, pos + 7⟩)
         | '\\' :: 'u' :: _ => .error ⟨.invalidUEscape, pos + 7⟩
         | _ =>
           match scanStr strict startPos fuel rest3 (pos + 6) with
           | .error err => .error err
           | .ok r => .ok (uni :: r.1, r.2.1, r.2.2)
       else
         match scanStr strict startPos fuel rest3 (pos + 6) with
         | .error err => .error err
         | .ok r => .ok (uni :: r.1, r.2.1, r.2.2)
     | _, _, _, _ => .error ⟨.invalidUEscape, pos + 1⟩)
  | _ + 1, '\\' :: 'u' :: _ :: _ :: _, pos => .error ⟨.invalidUEscape, pos + 1⟩
  | _ + 1, '\\' :: 'u' :: _ :: _, pos => .error ⟨.invalidUEscape, pos + 1⟩
  | _ + 1, ['\\', 'u'], pos => .error ⟨.invalidUEscape, pos + 1⟩
  | _ + 1, ['\\'], _ => .error ⟨.unterminatedString, startPos⟩
  | fuel + 1, '\\' :: e :: rest2, pos =>
    (match shortEsc e with
     | some code =>
       match scanStr strict startPos fuel rest2 (pos + 2) with
       | .error err => .error err
       | .ok r => .ok (code :: r.1, r.2.1, r.2.2)
     | none => .error ⟨.invalidEscape, pos⟩)
  | fuel + 1, c :: rest, pos =>
    if c.toNat < 0x20 ∧ strict then .error ⟨.invalidControlChar, pos⟩
    else
      match scanStr strict startPos fuel rest (pos + 1) with
      | .error err => .error err
      | .ok r => .ok (c.toNat :: r.1, r.2.1, r.2.2)

/-- The sign group of NUMBER_RE: an optional leading minus. -/
def signSplit : List Char → List Char × List Char
  | '-' :: t => (['-'], t)
  | l => ([], l)

/-- The integer group of NUMBER_RE: 0|[1-9]\d*. -/
def intPart : List Char → Option (List Char × List Char)
  | [] => none
  | c :: t =>
    if c = '0' then some ([c], t)
    else if c.isDigit then
      let ds := t.takeWhile Char.isDigit
      some (c :: ds, t.drop ds.length)
    else none

/-- The fraction group of NUMBER_RE: (\.\d+)?. -/
def fracPart : List Char → List Char × List Char
  | '.' :: t2 =>
    let ds := t2.takeWhile Char.isDigit
    if ds.isEmpty then ([], '.' :: t2) else ('.' :: ds, t2.drop ds.length)
  | l => ([], l)

/-- The optional sign inside the exponent group. -/
def expSign : List Char → List Char × List Char
  | '+' :: t => (['+'], t)
  | '-' :: t => (['-'], t)
  | l => ([], l)

/-- The exponent group of NUMBER_RE: ([eE][-+]?\d+)?. -/
def expPart : List Char → List Char × List Char
  | [] => ([], [])
  | e :: t3 =>
    if e = 'e' ∨ e = 'E' then
      let sg := expSign t3
      let ds := sg.2.takeWhile Char.isDigit
      if ds.isEmpty then ([], e :: t3) else (e :: sg.1 ++ ds, sg.2.drop ds.length)
    else ([], e :: t3)

/-- The NUMBER_RE regex (-?(?:0|[1-9]\d*))(\.\d+)?([eE][-+]?\d+)?:
returns the matched literal and the remaining characters. -/
def matchNumber (l : List Char) : Option (List Char × List Char) :=
  let sgn := signSplit l
  match intPart sgn.2 with
  | none => none
  | some ip =>
    let fp := fracPart ip.2
    let ep := expPart fp.2
    some (sgn.1 ++ ip.1 ++ fp.1 ++ ep.1, ep.2)

/-- Python dict insertion for object pairs: an existing key keeps its
position and takes the new value; a new key is appended. -/
def objInsert (pairs : List (List Nat × Json)) (k : List Nat) (v : Json) :
    List (List Nat × Json) :=
  if pairs.any (fun p => p.1 = k) then
    pairs.map (fun p => if p.1 = k then (k, v) else p)
  else pairs ++ [(k, v)]

mutual

/-- _scan_once of the json scanner.  fuel is a recursion bound strictly
larger than anything a parse of the input can consume. -/
def parseValue (strict : Bool) : Nat → List Char → Nat → Except JErr (Json × List Char × Nat)
  | 0, _, pos => .error ⟨.expectingValue, pos⟩
  | _ + 1, [], pos => .error ⟨.expectingValue, pos⟩
  | fuel + 1, c :: rest, pos =>
    if c = '"' then
      match scanStr strict pos (rest.length + 1) rest (pos + 1) with
      | .error err => .error err
      | .ok r => .ok (.str r.1, r.2.1, r.2.2)
    else if c = '{' then parseObject strict fuel rest (pos + 1)
    else if c = '[' then parseArray strict fuel rest (pos + 1)
    else if c = 'n' ∧ "ull".data.isPrefixOf rest then .ok (.null, rest.drop 3, pos + 4)
    else if c = 't' ∧ "rue".data.isPrefixOf rest then .ok (.bool true, rest.drop 3, pos + 4)
    else if c = 'f' ∧ "alse".data.isPrefixOf rest then .ok (.bool false, rest.drop 4, pos + 5)
    else
      match matchNumber (c :: rest) with
      | some r => .ok (.num r.1, r.2, pos + r.1.length)
      | none =>
        if c = 'N' ∧ "aN".data.isPrefixOf rest then .ok (.num "NaN".data, rest.drop 2, pos + 3)
        else if c = 'I' ∧ "nfinity".data.isPrefixOf rest then
          .ok (.num "Infinity".data, rest.drop 7, pos + 8)
        else if c = '-' ∧ "Infinity".data.isPrefixOf rest then
          .ok (.num "-Infinity".data, rest.drop 8, pos + 9)
        else .error ⟨.expectingValue, pos⟩
termination_by structural fuel l pos => fuel

/-- JSONObject of json.decoder, entered just after the opening brace. -/
def parseObject (strict : Bool) : Nat → List Char → Nat → Except JErr (Json × List Char × Nat)
  | 0, _, pos => .error ⟨.expectingValue, pos⟩
  | fuel + 1, s, pos =>
    let sp : List Char × Nat :=
      match s with
      | '"' :: _ => (s, pos)
      | c :: _ => if isJsonWs c then skipWs s pos else (s, pos)
      | [] => ([], pos)
    match sp.1 with
    | '}' :: rest => .ok (.obj [], rest, sp.2 + 1)
    | '"' :: rest => parseMembers strict fuel [] rest (sp.2 + 1)
    | _ => .error ⟨.expectingPropName, sp.2⟩
termination_by structural fuel s pos => fuel

/-- The pair loop of JSONObject; s starts just after the opening quote
of the next key (at absolute position pos). -/
def parseMembers (strict : Bool) :
    Nat → List (List Nat × Json) → List Char → Nat → Except JErr (Json × List Char × Nat)
  | 0, _, _, pos => .error ⟨.expectingValue, pos⟩
  | fuel + 1, pairs, s, pos =>
    match scanStr strict (pos - 1) (s.length + 1) s pos with
    | .error err => .error err
    | .ok kr =>
      let colon : List Char × Nat :=
        match kr.2.1 with
        | ':' :: _ => (kr.2.1, kr.2.2)
        | _ => skipWs kr.2.1 kr.2.2
      match colon.1 with
      | ':' :: s4 =>
        let vstart := skipWs s4 (colon.2 + 1)
        match parseValue strict fuel vstart.1 vstart.2 with
        | .error err => .error err
        | .ok vr =>
          let pairs2 := objInsert pairs kr.1 vr.1
          let nx := skipWs vr.2.1 vr.2.2
          match nx.1 with
          | '}' :: s8 => .ok (.obj pairs2, s8, nx.2 + 1)
          | ',' :: s8 =>
            let nk := skipWs s8 (nx.2 + 1)
            match nk.1 with
            | '"' :: s10 => parseMembers strict fuel pairs2 s10 (nk.2 + 1)
            | _ => .error ⟨.expectingPropName, nk.2⟩
          | _ => .error ⟨.expectingComma, nx.2⟩
      | _ => .error ⟨.expectingColon, colon.2⟩
termination_by structural fuel pairs s pos => fuel

/-- JSONArray of json.decoder, entered just after the opening bracket. -/
def parseArray (strict : Bool) : Nat → List Char → Nat → Except JErr (Json × List Char × Nat)
  | 0, _, pos => .error ⟨.expectingValue, pos⟩
  | fuel + 1, s, pos =>
    let sp : List Char × Nat :=
      match s with
      | c :: _ => if isJsonWs c then skipWs s pos else (s, pos)
      | [] => ([], pos)
    match sp.1 with
    | ']' :: rest => .ok (.arr [], rest, sp.2 + 1)
    | _ => parseElems strict fuel [] sp.1 sp.2
termination_by structural fuel s pos => fuel

/-- The element loop of JSONArray. -/
def parseElems (strict : Bool) :
    Nat → List Json → List Char → Nat → Except JErr (Json × List Char × Nat)
  | 0, _, _, pos => .error ⟨.expectingValue, pos⟩
  | fuel + 1, acc, s, pos =>
    match parseValue strict fuel s pos with
    | .error err => .error err
    | .ok vr =>
      let acc2 := acc ++ [vr.1]
      let nx : List Char × Nat :=
        match vr.2.1 with
        | c :: _ => if isJsonWs c then skipWs vr.2.1 vr.2.2 else (vr.2.1, vr.2.2)
        | [] => ([], vr.2.2)
      match nx.1 with
      | ']' :: s4 => .ok (.arr acc2, s4, nx.2 + 1)
      | ',' :: s4 =>
        let ne := skipWs s4 (nx.2 + 1)
        parseElems strict fuel acc2 ne.1 ne.2
      | _ => .error ⟨.expectingComma, nx.2⟩
termination_by structural fuel acc s pos => fuel

end

/-- json.loads on a character list: skip leading whitespace, scan one
value, skip trailing whitespace, and require the input to be
exhausted. -/
def jsonLoadsL (strict : Bool) (l : List Char) : Except JErr Json :=
  let sp := skipWs l 0
  match parseValue strict (4 * l.length + 8) sp.1 sp.2 with
  | .error err => .error err
  | .ok r =>
    let tail := skipWs r.2.1 r.2.2
    match tail.1 with
    | [] => .ok r.1
    | _ => .error ⟨.extraData, tail.2⟩

def jsonLoads (strict : Bool) (payload : String) : Except JErr Json :=
  jsonLoadsL strict payload.data

def encodeHex4 (n : Nat) : List Char :=
  [hexDigitChar (n / 4096 % 16), hexDigitChar (n / 256 % 16),
   hexDigitChar (n / 16 % 16), hexDigitChar (n % 16)]

/-- The per-code-point encoding of json.dumps with ensure_ascii: the
ESCAPE_DCT short escapes, \uXXXX for other characters outside 0x20-0x7E
(as a surrogate pair above 0xFFFF), the character itself otherwise. -/
def escCp (n : Nat) : List Char :=
  if n = 34 then ['\\', '"']
  else if n = 92 then ['\\', '\\']
  else if n = 8 then ['\\', 'b']
  else if n = 12 then ['\\', 'f']
  else if n = 10 then ['\\', 'n']
  else if n = 13 then ['\\', 'r']
  else if n = 9 then ['\\', 't']
  else if n < 0x20 ∨ 0x7E < n then
    if 0x10000 ≤ n then
      ['\\', 'u'] ++ encodeHex4 (0xd800 + (n - 0x10000) / 1024) ++
        ['\\', 'u'] ++ encodeHex4 (0xdc00 + (n - 0x10000) % 1024)
    else ['\\', 'u'] ++ encodeHex4 n
  else [Char.ofNat n]

/-- The serialized form of a string. -/
def encStr (s : List Nat) : List Char := '"' :: s.flatMap escCp ++ ['"']

mutual

/-- json.dumps with the default separators (", " and ": ") and
ensure_ascii. -/
def jsonDumps : Json → List Char
  | .null => "null".data
  | .bool true => "true".data
  | .bool false => "false".data
  | .num lit => lit
  | .str s => encStr s
  | .arr l => '[' :: dumpElems l ++ [']']
  | .obj l => '\x7b' :: dumpPairs l ++ ['\x7d']

def dumpElems : List Json → List Char
  | [] => []
  | [x] => jsonDumps x
  | x :: y :: t => jsonDumps x ++ ',' :: ' ' :: dumpElems (y :: t)

def dumpPairs : List (List Nat × Json) → List Char
  | [] => []
  | [p] => encStr p.1 ++ ':' :: ' ' :: jsonDumps p.2
  | p :: q :: t => (encStr p.1 ++ ':' :: ' ' :: jsonDumps p.2) ++ ',' :: ' ' :: dumpPairs (q :: t)

end

/-- json_utils._repair_invalid_escapes, as a state machine over
(inside-string, remaining input).  A backslash inside a string keeps a
valid following escape character and is doubled otherwise; the character
after a kept or doubled backslash is then emitted verbatim. -/
def repairEscapesGo : Bool → List Char → List Char
  | _, [] => []
  | false, c :: r => c :: repairEscapesGo (c = '"') r
  | true, '\\' :: nc :: r =>
    (if nc = '"' ∨ nc = '\\' ∨ nc = '/' ∨ nc = 'b' ∨ nc = 'f' ∨ nc = 'n' ∨ nc = 'r' ∨
        nc = 't' ∨ nc = 'u' then ['\\', nc] else ['\\', '\\', nc]) ++ repairEscapesGo true r
  | true, ['\\'] => ['\\', '\\']
  | true, '"' :: r => '"' :: repairEscapesGo false r
  | true, c :: r => c :: repairEscapesGo true r

def repairEscapesL (payload : List Char) : List Char := repairEscapesGo false payload

/-- json_utils._escape_control_chars_in_strings, with the
(inside-string, escape-pending) state of the source loop. -/
def escCtrlGo : Bool → Bool → List Char → List Char
  | _, _, [] => []
  | true, true, c :: r => c :: escCtrlGo true false r
  | true, false, '\\' :: r => '\\' :: escCtrlGo true true r
  | true, false, '"' :: r => '"' :: escCtrlGo false false r
  | true, false, '\n' :: r => '\\' :: 'n' :: escCtrlGo true false r
  | true, false, '\r' :: r => '\\' :: 'r' :: escCtrlGo true false r
  | true, false, '\t' :: r => '\\' :: 't' :: escCtrlGo true false r
  | true, false, c :: r => c :: escCtrlGo true false r
  | false, e, c :: r => c :: escCtrlGo (c = '"') e r

def escCtrlL (payload : List Char) : List Char := escCtrlGo false false payload

/-- json_utils._try_insert_missing_commas: up to three parse attempts,
inserting a comma when the parse fails with a missing-delimiter error
between two adjacent value boundaries. -/
def commaAttempt : Nat → List Char → Option Json
  | 0, _ => none
  | att + 1, current =>
    match jsonLoadsL false current with
    | .ok v => some v
    | .error e =>
      if e.kind ≠ .expectingComma then none
      else if e.pos = 0 ∨ current.length ≤ e.pos then none
      else
        let prevs := ((current.take e.pos).reverse).dropWhile isPyWs
        let nexts := (current.drop e.pos).dropWhile isPyWs
        match prevs, nexts with
        | p :: _, nc :: _ =>
          if (p = '"' ∨ p = '\x7d' ∨ p = ']') ∧ (nc = '"' ∨ nc = '\x7b' ∨ nc = '[') then
            commaAttempt att (current.take e.pos ++ ',' :: current.drop e.pos)
          else none
        | _, _ => none

/-- json_utils._load_json_with_repair. -/
def loadWithRepair (payload : List Char) : Except JErr Json :=
  match jsonLoadsL true payload with
  | .ok v => .ok v
  | .error _ =>
    let repaired := escCtrlL (repairEscapesL payload)
    match jsonLoadsL false repaired with
    | .ok v => .ok v
    | .error _ =>
      match commaAttempt 3 repaired with
      | some v => .ok v
      | none => jsonLoadsL true repaired

/-- json_utils._extract_balanced_object: remember the offset just after
the last time brace depth returned to zero, tracking string state. -/
def balancedGo : List Char → Nat → Int → Bool → Bool → Option Nat → Option Nat
  | [], _, _, _, _, lc => lc
  | c :: rest, idx, depth, inString, escape, lc =>
    if inString then
      if escape then balancedGo rest (idx + 1) depth true false lc
      else if c = '\\' then balancedGo rest (idx + 1) depth true true lc
      else if c = '"' then balancedGo rest (idx + 1) depth false false lc
      else balancedGo rest (idx + 1) depth true false lc
    else if c = '"' then balancedGo rest (idx + 1) depth true false lc
    else if c = '\x7b' then balancedGo rest (idx + 1) (depth + 1) false false lc
    else if c = '\x7d' then
      balancedGo rest (idx + 1) (depth - 1) false false
        (if depth - 1 = 0 then some (idx + 1) else lc)
    else balancedGo rest (idx + 1) depth false false lc

def extractBalanced (text : List Char) : Option (List Char) :=
  match balancedGo text 0 0 false false none with
  | some n => some (text.take n)
  | none => none

/-- json_utils._attempt_close_json: final (depth, in-string) state of
the scan; depth is floored at zero as in the source. -/
def closeGo : List Char → Nat → Bool → Bool → Nat × Bool
  | [], depth, inString, _ => (depth, inString)
  | c :: rest, depth, inString, escape =>
    if inString then
      if escape then closeGo rest depth true false
      else if c = '\\' then closeGo rest depth true true
      else if c = '"' then closeGo rest depth false false
      else closeGo rest depth true false
    else if c = '"' then closeGo rest depth true false
    else if c = '\x7b' then closeGo rest (depth + 1) false false
    else if c = '\x7d' then closeGo rest (depth - 1) false false
    else closeGo rest depth false false

def attemptClose (text : List Char) : Option (List Char) :=
  let r := closeGo text 0 false false
  if r.1 = 0 ∧ r.2 = false then none
  else
    let suffix := (if r.2 then ['"'] else []) ++ List.replicate r.1 '\x7d'
    let closed := pyStripL (text ++ suffix)
    if closed = text then none else some closed

/-- json_utils._recover_truncated_json. -/
def recoverTruncated (payload : List Char) : Option (List Char) :=
  let trimmed := pyStripL payload
  match trimmed with
  | '\x7b' :: _ =>
    (match extractBalanced trimmed with
     | some b => some b
     | none =>
       match attemptClose trimmed with
       | some cl => some cl
       | none => none)
  | _ => none

/-- The leftmost index of a character (str.find). -/
def findIdx : List Char → Char → Nat → Option Nat
  | [], _, _ => none
  | c :: r, t, i => if c = t then some i else findIdx r t (i + 1)

/-- The rightmost index of a character (str.rfind). -/
def rfindIdx (l : List Char) (t : Char) : Option Nat :=
  match findIdx l.reverse t 0 with
  | none => none
  | some i => some (l.length - 1 - i)

/-- The typed failures of extract_json: the two ValueError messages and
a propagated json.JSONDecodeError. -/
inductive ExtractErr where
  | noObject
  | noCompleteObject
  | decode (e : JErr)
deriving DecidableEq, Repr

/-- json_utils.extract_json. -/
def extract_json (text : String) : Except ExtractErr Json :=
  let t := pyStripL text.data
  if t.head? = some '\x7b' ∧ t.getLast? = some '\x7d' then
    (loadWithRepair t).mapError ExtractErr.decode
  else
    match findIdx t '\x7b' 0 with
    | none => .error .noObject
    | some start =>
      match rfindIdx t '\x7d' with
      | none =>
        (match recoverTruncated (t.drop start) with
         | some rec => (loadWithRepair rec).mapError ExtractErr.decode
         | none => .error .noCompleteObject)
      | some stop =>
        if stop ≤ start then
          match recoverTruncated (t.drop start) with
          | some rec => (loadWithRepair rec).mapError ExtractErr.decode
          | none => .error .noCompleteObject
        else
          let candidate := (t.drop start).take (stop + 1 - start)
          match loadWithRepair candidate with
          | .ok v => .ok v
          | .error err =>
            match recoverTruncated (t.drop start) with
            | some rec => (loadWithRepair rec).mapError ExtractErr.decode
            | none => .error (.decode err)

/-- A non-whitespace character survives dropWhile. -/
theorem mem_dropWhile_of_not_ws {c : Char} (hc : ¬ isPyWs c = true) :
    ∀ l : List Char, c ∈ l → c ∈ l.dropWhile isPyWs := by
  intro l
  induction l with
  | nil => intro h; cases h
  | cons a t ih =>
    intro hmem
    by_cases ha : isPyWs a = true
    · rw [List.dropWhile_cons_of_pos ha]
      rcases List.mem_cons.mp hmem with rfl | ht
      · exact absurd ha hc
      · exact ih ht
    · rw [List.dropWhile_cons_of_neg ha]
      exact hmem

/-- str.strip preserves membership of non-whitespace characters. -/
theorem mem_pyStripL_iff {c : Char} (hc : ¬ isPyWs c = true) (l : List Char) :
    c ∈ pyStripL l ↔ c ∈ l := by
  unfold pyStripL
  constructor
  · intro h
    have h1 : c ∈ (l.dropWhile isPyWs).reverse :=
      (List.dropWhile_sublist isPyWs).subset (List.mem_reverse.mp h)
    exact (List.dropWhile_sublist isPyWs).subset (List.mem_reverse.mp h1)
  · intro h
    rw [List.mem_reverse]
    exact mem_dropWhile_of_not_ws hc _ (List.mem_reverse.mpr
      (mem_dropWhile_of_not_ws hc _ h))

/-- findIdx finds nothing exactly when the character is absent. -/
theorem findIdx_none_iff (t : Char) : ∀ (l : List Char) (i : Nat),
    findIdx l t i = none ↔ t ∉ l := by
  intro l
  induction l with
  | nil => intro i; simp [findIdx]
  | cons a r ih =>
    intro i
    simp only [findIdx, List.mem_cons]
    by_cases ha : a = t
    · simp [ha]
    · simp only [if_neg ha, ih]
      constructor
      · rintro h (rfl | hmem)
        · exact ha rfl
        · exact h hmem
      · intro h hmem
        exact h (Or.inr hmem)

/-- C7: extract_json returns the decoded object or a typed failure; the
"no object found" failure occurs exactly when the text has no opening
brace, and both irreparable failures (the "no complete object" error and
a propagated decode error) occur only when an object boundary is
present; irreparable input never yields a best-effort object. -/
theorem extract_json_error_taxonomy (text : String) :
    (extract_json text = .error .noObject ↔ '\x7b' ∉ text.data) ∧
    (∀ d : JErr, extract_json text = .error (.decode d) → '\x7b' ∈ text.data) ∧
    (extract_json text = .error .noCompleteObject → '\x7b' ∈ text.data) := by
  have hbnotws : ¬ isPyWs '\x7b' = true := by decide
  have hmem := mem_pyStripL_iff hbnotws text.data
  unfold extract_json
  dsimp only
  split_ifs with hshape
  · -- stripped text starts with LBRACE and ends with RBRACE
    have hin : '\x7b' ∈ text.data := by
      rcases hshape with ⟨hhead, -⟩
      apply hmem.mp
      cases ht : pyStripL text.data with
      | nil => rw [ht] at hhead; cases hhead
      | cons a r =>
        rw [ht] at hhead
        simp only [List.head?] at hhead
        cases hhead
        exact List.mem_cons_self _ _
    refine ⟨?_, fun d _ => hin, fun _ => hin⟩
    constructor
    · intro h
      cases hl : loadWithRepair (pyStripL text.data) <;>
        rw [hl] at h <;> simp [Except.mapError] at h
    · intro habs
      exact absurd hin habs
  · cases hfind : findIdx (pyStripL text.data) '\x7b' 0 with
    | none =>
      have hnot : '\x7b' ∉ text.data := fun h =>
        ((findIdx_none_iff '\x7b' (pyStripL text.data) 0).mp hfind) (hmem.mpr h)
      refine ⟨by simp [hnot], ?_, ?_⟩
      · intro d h
        cases h
      · intro h
        cases h
    | some start =>
      have hin : '\x7b' ∈ text.data := by
        apply hmem.mp
        by_contra hno
        rw [(findIdx_none_iff '\x7b' (pyStripL text.data) 0).mpr hno] at hfind
        cases hfind
      have herr : ∀ r : Except ExtractErr Json,
          (∀ d, r = .error (.decode d) → True) → True := fun _ _ => trivial
      refine ⟨?_, fun d _ => hin, fun _ => hin⟩
      constructor
      · intro h
        -- every branch after a found brace yields ok, a decode error or
        -- the no-complete-object error, never the no-object error
        exfalso
        revert h
        dsimp only
        cases hr : rfindIdx (pyStripL text.data) '\x7d' with
        | none =>
          dsimp only
          cases hrec : recoverTruncated ((pyStripL text.data).drop start) with
          | some rec =>
            dsimp only
            cases hl : loadWithRepair rec <;> simp [Except.mapError]
          | none => intro h; cases h
        | some stop =>
          dsimp only
          by_cases hle : stop ≤ start
          · rw [if_pos hle]
            cases hrec : recoverTruncated ((pyStripL text.data).drop start) with
            | some rec =>
              dsimp only
              cases hl : loadWithRepair rec <;> simp [Except.mapError]
            | none => intro h; cases h
          · rw [if_neg hle]
            cases hc : loadWithRepair (((pyStripL text.data).drop start).take
                (stop + 1 - start)) with
            | ok v => intro h; cases h
            | error err =>
              dsimp only
              cases hrec : recoverTruncated ((pyStripL text.data).drop start) with
              | some rec =>
                dsimp only
                cases hl : loadWithRepair rec <;> simp [Except.mapError]
              | none => intro h; cases h
      · intro habs
        exact absurd hin habs

/-- Witness for C7 at a concrete irreparable input (truncation right
after a backslash): the decode failure implies a brace is present. -/
theorem extract_json_error_taxonomy_witness :
    '\x7b' ∈ "\x7b\"a\": \"x\\".data :=
  (extract_json_error_taxonomy "\x7b\"a\": \"x\\").2.1 ⟨.unterminatedString, 6⟩ (by rfl)

/-! ### Round-trip machinery: well-formedness of decoded values

jsonLoadsL only produces values of the following restricted shape, and
on such values jsonDumps inverts the parse. -/

def isHighSur (n : Nat) : Bool := 0xd800 ≤ n ∧ n ≤ 0xdbff

def isLowSur (n : Nat) : Bool := 0xdc00 ≤ n ∧ n ≤ 0xdfff

/-- No adjacent high-low surrogate pair: the parser would have combined
such a pair into one code point, and dumps of such a pair re-combines. -/
def noSurPair : List Nat → Bool
  | [] => true
  | [_] => true
  | a :: b :: t => !(isHighSur a && isLowSur b) && noSurPair (b :: t)

def wfStr (s : List Nat) : Bool := noSurPair s && s.all (fun n => n < 0x110000)

/-- A numeric literal as the scanner stores it: re-matching it consumes
exactly itself. -/
def wfNumLit (lit : List Char) : Bool :=
  decide (lit = "NaN".data) || decide (lit = "Infinity".data) ||
    decide (lit = "-Infinity".data) ||
    (match matchNumber lit with
     | some r => decide (r.1 = lit) && decide (r.2 = [])
     | none => false)

def keysDistinct : List (List Nat × Json) → Bool
  | [] => true
  | p :: t => t.all (fun q => ¬ q.1 = p.1) && keysDistinct t

mutual

def wfJson : Json → Bool
  | .null => true
  | .bool _ => true
  | .str s => wfStr s
  | .num lit => wfNumLit lit
  | .arr l => wfList l
  | .obj l => keysDistinct l && wfPairs l

def wfList : List Json → Bool
  | [] => true
  | x :: t => wfJson x && wfList t

def wfPairs : List (List Nat × Json) → Bool
  | [] => true
  | p :: t => wfStr p.1 && wfJson p.2 && wfPairs t

end

/-- skipWs is the identity when the head is not whitespace. -/
theorem skipWs_no_ws {l : List Char} {pos : Nat}
    (h : ∀ c, l.head? = some c → ¬ isJsonWs c = true) : skipWs l pos = (l, pos) := by
  cases l with
  | nil => rfl
  | cons c rest =>
    have := h c rfl
    simp [skipWs, this]

/-- pyStripL is the identity when both ends are not whitespace. -/
theorem pyStripL_no_ws {l : List Char}
    (h1 : ∀ c, l.head? = some c → ¬ isPyWs c = true)
    (h2 : ∀ c, l.getLast? = some c → ¬ isPyWs c = true) : pyStripL l = l := by
  unfold pyStripL
  have hd : l.dropWhile isPyWs = l := by
    cases l with
    | nil => rfl
    | cons c rest => exact List.dropWhile_cons_of_neg (h1 c rfl)
  rw [hd]
  have hr : l.reverse.dropWhile isPyWs = l.reverse := by
    cases hl : l.reverse with
    | nil => rfl
    | cons c rest =>
      refine List.dropWhile_cons_of_neg (h2 c ?_)
      rw [← List.head?_reverse]
      rw [hl]
      rfl
  rw [hr, List.reverse_reverse]

theorem hexVal_hexDigitChar {d : Nat} (h : d < 16) :
    hexVal (hexDigitChar d) = some d := by
  interval_cases d <;> rfl


/-- Char.ofNat below the surrogate range decodes to the same scalar. -/
theorem toNat_ofNat_lit {n : Nat} (h : n < 0xd800) : (Char.ofNat n).toNat = n := by
  have hv : n.isValidChar := Or.inl h
  rw [Char.ofNat, dif_pos hv]
  rfl

/-- Shape classification of the dumps encoding of one code point. -/
theorem escCp_shape (cp : Nat) (hcp : cp < 0x110000) :
    (∃ e, escCp cp = ['\\', e] ∧ ¬ e = 'u' ∧ shortEsc e = some cp) ∨
    (∃ c, escCp cp = [c] ∧ ¬ c = '"' ∧ ¬ c = '\\' ∧ c.toNat = cp ∧ 0x20 ≤ cp ∧ cp ≤ 0x7E) ∨
    (escCp cp = '\\' :: 'u' :: encodeHex4 cp ∧ cp ≤ 0xFFFF) ∨
    (0x10000 ≤ cp ∧
      escCp cp = '\\' :: 'u' :: encodeHex4 (0xd800 + (cp - 0x10000) / 1024) ++
        '\\' :: 'u' :: encodeHex4 (0xdc00 + (cp - 0x10000) % 1024)) := by
  by_cases h1 : cp = 34
  · exact Or.inl ⟨'"', by rw [h1]; rfl, by decide, by rw [h1]; rfl⟩
  by_cases h2 : cp = 92
  · exact Or.inl ⟨'\\', by rw [h2]; rfl, by decide, by rw [h2]; rfl⟩
  by_cases h3 : cp = 8
  · exact Or.inl ⟨'b', by rw [h3]; rfl, by decide, by rw [h3]; rfl⟩
  by_cases h4 : cp = 12
  · exact Or.inl ⟨'f', by rw [h4]; rfl, by decide, by rw [h4]; rfl⟩
  by_cases h5 : cp = 10
  · exact Or.inl ⟨'n', by rw [h5]; rfl, by decide, by rw [h5]; rfl⟩
  by_cases h6 : cp = 13
  · exact Or.inl ⟨'r', by rw [h6]; rfl, by decide, by rw [h6]; rfl⟩
  by_cases h7 : cp = 9
  · exact Or.inl ⟨'t', by rw [h7]; rfl, by decide, by rw [h7]; rfl⟩
  have hesc : escCp cp =
      if cp < 0x20 ∨ 0x7E < cp then
        if 0x10000 ≤ cp then
          ['\\', 'u'] ++ encodeHex4 (0xd800 + (cp - 0x10000) / 1024) ++
            ['\\', 'u'] ++ encodeHex4 (0xdc00 + (cp - 0x10000) % 1024)
        else ['\\', 'u'] ++ encodeHex4 cp
      else [Char.ofNat cp] := by
    unfold escCp
    rw [if_neg h1, if_neg h2, if_neg h3, if_neg h4, if_neg h5, if_neg h6, if_neg h7]
  by_cases hrange : cp < 0x20 ∨ 0x7E < cp
  · by_cases hbig : 0x10000 ≤ cp
    · right; right; right
      refine ⟨hbig, ?_⟩
      rw [hesc, if_pos hrange, if_pos hbig]
      simp [List.append_assoc]
    · right; right; left
      constructor
      · rw [hesc, if_pos hrange, if_neg hbig]
        simp
      · omega
  · right; left
    refine ⟨Char.ofNat cp, ?_, ?_, ?_, toNat_ofNat_lit (by omega), by omega, by omega⟩
    · rw [hesc, if_neg hrange]
    · intro hq
      have hx := congrArg Char.toNat hq
      rw [toNat_ofNat_lit (by omega)] at hx
      have h34 : Char.toNat '"' = 34 := by decide
      rw [h34] at hx
      omega
    · intro hq
      have hx := congrArg Char.toNat hq
      rw [toNat_ofNat_lit (by omega)] at hx
      have h92 : Char.toNat '\\' = 92 := by decide
      rw [h92] at hx
      omega


theorem scanStr_quote (strict : Bool) (sp f : Nat) (rest : List Char) (pos : Nat) :
    scanStr strict sp (f + 1) ('"' :: rest) pos = .ok ([], rest, pos + 1) := rfl

theorem scanStr_u (strict : Bool) (sp f : Nat) (a b c d : Char) (t : List Char) (pos : Nat) :
    scanStr strict sp (f + 1) ('\\' :: 'u' :: a :: b :: c :: d :: t) pos =
      (match hexVal a, hexVal b, hexVal c, hexVal d with
       | some va, some vb, some vc, some vd =>
         let uni := ((va * 16 + vb) * 16 + vc) * 16 + vd
         if 0xd800 ≤ uni ∧ uni ≤ 0xdbff then
           match t with
           | '\\' :: 'u' :: a2 :: b2 :: c3 :: d2 :: rest4 =>
             (match hexVal a2, hexVal b2, hexVal c3, hexVal d2 with
              | some wa, some wb, some wc, some wd =>
                let uni2 := ((wa * 16 + wb) * 16 + wc) * 16 + wd
                if 0xdc00 ≤ uni2 ∧ uni2 ≤ 0xdfff then
                  match scanStr strict sp f rest4 (pos + 12) with
                  | .error err => .error err
                  | .ok r =>
                    .ok ((0x10000 + (uni - 0xd800) * 1024 + (uni2 - 0xdc00)) :: r.1, r.2.1, r.2.2)
                else
                  match scanStr strict sp f t (pos + 6) with
                  | .error err => .error err
                  | .ok r => .ok (uni :: r.1, r.2.1, r.2.2)
              | _, _, _, _ => .error ⟨.invalidUEscape, pos + 7⟩)
           | '\\' :: 'u' :: _ => .error ⟨.invalidUEscape, pos + 7⟩
           | _ =>
             match scanStr strict sp f t (pos + 6) with
             | .error err => .error err
             | .ok r => .ok (uni :: r.1, r.2.1, r.2.2)
         else
           match scanStr strict sp f t (pos + 6) with
           | .error err => .error err
           | .ok r => .ok (uni :: r.1, r.2.1, r.2.2)
       | _, _, _, _ => .error ⟨.invalidUEscape, pos + 1⟩) := rfl

theorem scanStr_esc (strict : Bool) (sp f : Nat) (e : Char) (he : ¬ e = 'u')
    (r2 : List Char) (pos : Nat) :
    scanStr strict sp (f + 1) ('\\' :: e :: r2) pos =
      (match shortEsc e with
       | some code =>
         match scanStr strict sp f r2 (pos + 2) with
         | .error err => .error err
         | .ok r => .ok (code :: r.1, r.2.1, r.2.2)
       | none => .error ⟨.invalidEscape, pos⟩) := by
  rw [scanStr.eq_def]
  split
  any_goals simp_all
  rename_i hno hfeq heq
  exact absurd heq.2.symm (hno e r2 heq.1.symm)

theorem scanStr_lit (strict : Bool) (sp f : Nat) (c : Char) (hq : ¬ c = '"')
    (hb : ¬ c = '\\') (r : List Char) (pos : Nat) :
    scanStr strict sp (f + 1) (c :: r) pos =
      (if c.toNat < 0x20 ∧ strict then .error ⟨.invalidControlChar, pos⟩
       else
         match scanStr strict sp f r (pos + 1) with
         | .error err => .error err
         | .ok r2 => .ok (c.toNat :: r2.1, r2.2.1, r2.2.2)) := by
  rw [scanStr.eq_def]
  split <;> simp_all


theorem wfStr_cons {cp : Nat} {s' : List Nat} (h : wfStr (cp :: s') = true) :
    cp < 0x110000 ∧ wfStr s' = true ∧
      ∀ b t, s' = b :: t → (isHighSur cp && isLowSur b) = false := by
  cases s' <;> simp_all [wfStr, noSurPair]
  intro h1
  rcases h.1.1 with h2 | h2
  · rw [h1] at h2; cases h2
  · exact h2

theorem scanStr_round (strict : Bool) (sp : Nat) :
    ∀ (fuel : Nat) (s : List Nat), wfStr s = true → s.length < fuel →
      ∀ (rest : List Char) (pos : Nat),
        ∃ p, scanStr strict sp fuel (s.flatMap escCp ++ '"' :: rest) pos =
          .ok (s, rest, p) := by
  intro fuel
  induction fuel with
  | zero => intro s _ h; omega
  | succ f ih =>
    intro s hwf hlen rest pos
    cases s with
    | nil => exact ⟨pos + 1, by simp [scanStr_quote]⟩
    | cons cp s' =>
      obtain ⟨hcp, hwf', hpair⟩ := wfStr_cons hwf
      have hlen' : s'.length < f := by simp at hlen; omega
      rcases escCp_shape cp hcp with ⟨e, hesc, heu, hcode⟩ |
        ⟨c, hesc, hq, hb, htn, hlo, hhi⟩ | ⟨hesc, hle⟩ | ⟨hge, hesc⟩
      · -- short escape
        obtain ⟨p, hp⟩ := ih s' hwf' hlen' rest (pos + 2)
        refine ⟨p, ?_⟩
        rw [List.flatMap_cons, hesc, List.append_assoc, List.cons_append,
          List.cons_append, List.nil_append, scanStr_esc strict sp f e heu, hcode, hp]
      · -- plain literal
        obtain ⟨p, hp⟩ := ih s' hwf' hlen' rest (pos + 1)
        refine ⟨p, ?_⟩
        rw [List.flatMap_cons, hesc, List.append_assoc, List.cons_append,
          List.nil_append, scanStr_lit strict sp f c hq hb,
          if_neg (by simp only [htn]; omega), hp, htn]
      · -- single \uXXXX escape
        have hrw : (cp :: s').flatMap escCp ++ '"' :: rest =
            '\\' :: 'u' :: hexDigitChar (cp / 4096 % 16) :: hexDigitChar (cp / 256 % 16) ::
              hexDigitChar (cp / 16 % 16) :: hexDigitChar (cp % 16) ::
              (s'.flatMap escCp ++ '"' :: rest) := by
          rw [List.flatMap_cons, hesc]
          simp [encodeHex4]
        rw [hrw, scanStr_u,
          hexVal_hexDigitChar (show cp / 4096 % 16 < 16 by omega),
          hexVal_hexDigitChar (show cp / 256 % 16 < 16 by omega),
          hexVal_hexDigitChar (show cp / 16 % 16 < 16 by omega),
          hexVal_hexDigitChar (show cp % 16 < 16 by omega)]
        dsimp only
        rw [show ((cp / 4096 % 16 * 16 + cp / 256 % 16) * 16 + cp / 16 % 16) * 16 + cp % 16
            = cp from by omega]
        by_cases hhigh : 0xd800 ≤ cp ∧ cp ≤ 0xdbff
        · rw [if_pos hhigh]
          cases s' with
          | nil =>
            obtain ⟨p, hp⟩ := ih [] hwf' hlen' rest (pos + 6)
            simp only [List.flatMap_nil, List.nil_append] at hp ⊢
            refine ⟨p, ?_⟩
            rw [hp]
            rfl
          | cons cp2 s2 =>
            obtain ⟨p, hp⟩ := ih (cp2 :: s2) hwf' hlen' rest (pos + 6)
            refine ⟨p, ?_⟩
            have hlow : isLowSur cp2 = false := by
              have h1 := hpair cp2 s2 rfl
              have h2 : isHighSur cp = true := by simp [isHighSur]; omega
              rw [h2] at h1
              simpa using h1
            have hnlow : ¬ (0xdc00 ≤ cp2 ∧ cp2 ≤ 0xdfff) := by
              simp [isLowSur] at hlow
              omega
            obtain ⟨hcp2, -, -⟩ := wfStr_cons hwf'
            rcases escCp_shape cp2 hcp2 with ⟨e2, hesc2, heu2, -⟩ |
              ⟨c2, hesc2, -, hb2, -, -, -⟩ | ⟨hesc2, hle2⟩ | ⟨hge2, hesc2⟩
            · -- next is a short escape: inner match falls through
              rw [List.flatMap_cons, hesc2] at hp ⊢
              dsimp only [List.cons_append, List.nil_append] at hp ⊢
              split
              · rename_i heq
                rw [List.cons.injEq, List.cons.injEq] at heq
                exact absurd heq.2.1 heu2
              · rename_i heq
                rw [List.cons.injEq, List.cons.injEq] at heq
                exact absurd heq.2.1 heu2
              · rw [hp]
            · -- next is a plain character
              rw [List.flatMap_cons, hesc2] at hp ⊢
              dsimp only [List.cons_append, List.nil_append] at hp ⊢
              split
              · rename_i heq
                rw [List.cons.injEq] at heq
                exact absurd heq.1 hb2
              · rename_i heq
                rw [List.cons.injEq] at heq
                exact absurd heq.1 hb2
              · rw [hp]
            · -- next is a single \u escape of a non-low-surrogate
              rw [List.flatMap_cons, hesc2] at hp ⊢
              rw [show encodeHex4 cp2 = [hexDigitChar (cp2 / 4096 % 16),
                hexDigitChar (cp2 / 256 % 16), hexDigitChar (cp2 / 16 % 16),
                hexDigitChar (cp2 % 16)] from rfl] at hp ⊢
              simp only [List.cons_append, List.nil_append] at hp ⊢
              rw [hexVal_hexDigitChar (show cp2 / 4096 % 16 < 16 by omega),
                hexVal_hexDigitChar (show cp2 / 256 % 16 < 16 by omega),
                hexVal_hexDigitChar (show cp2 / 16 % 16 < 16 by omega),
                hexVal_hexDigitChar (show cp2 % 16 < 16 by omega)]
              dsimp only
              rw [show ((cp2 / 4096 % 16 * 16 + cp2 / 256 % 16) * 16 + cp2 / 16 % 16) * 16
                  + cp2 % 16 = cp2 from by omega]
              rw [if_neg hnlow, hp]
            · -- next is a surrogate-pair escape: first unit is high, not low
              rw [List.flatMap_cons, hesc2] at hp ⊢
              rw [show encodeHex4 (0xd800 + (cp2 - 0x10000) / 1024) =
                [hexDigitChar ((0xd800 + (cp2 - 0x10000) / 1024) / 4096 % 16),
                 hexDigitChar ((0xd800 + (cp2 - 0x10000) / 1024) / 256 % 16),
                 hexDigitChar ((0xd800 + (cp2 - 0x10000) / 1024) / 16 % 16),
                 hexDigitChar ((0xd800 + (cp2 - 0x10000) / 1024) % 16)] from rfl] at hp ⊢
              simp only [List.cons_append, List.nil_append, List.append_assoc] at hp ⊢
              rw [hexVal_hexDigitChar (show (0xd800 + (cp2 - 0x10000) / 1024) / 4096 % 16 < 16
                  by omega),
                hexVal_hexDigitChar (show (0xd800 + (cp2 - 0x10000) / 1024) / 256 % 16 < 16
                  by omega),
                hexVal_hexDigitChar (show (0xd800 + (cp2 - 0x10000) / 1024) / 16 % 16 < 16
                  by omega),
                hexVal_hexDigitChar (show (0xd800 + (cp2 - 0x10000) / 1024) % 16 < 16 by omega)]
              dsimp only
              rw [show (((0xd800 + (cp2 - 0x10000) / 1024) / 4096 % 16 * 16 +
                  (0xd800 + (cp2 - 0x10000) / 1024) / 256 % 16) * 16 +
                  (0xd800 + (cp2 - 0x10000) / 1024) / 16 % 16) * 16 +
                  (0xd800 + (cp2 - 0x10000) / 1024) % 16
                  = 0xd800 + (cp2 - 0x10000) / 1024 from by omega]
              rw [if_neg (show ¬ (0xdc00 ≤ 0xd800 + (cp2 - 0x10000) / 1024 ∧
                  0xd800 + (cp2 - 0x10000) / 1024 ≤ 0xdfff) from by omega)]
              rw [hp]
        · rw [if_neg hhigh]
          obtain ⟨p, hp⟩ := ih s' hwf' hlen' rest (pos + 6)
          refine ⟨p, ?_⟩
          rw [hp]
      · -- surrogate-pair encoding of an astral code point
        obtain ⟨p, hp⟩ := ih s' hwf' hlen' rest (pos + 12)
        refine ⟨p, ?_⟩
        obtain ⟨hi, hhi, hhib⟩ : ∃ h, 0xd800 + (cp - 0x10000) / 1024 = h ∧
            0xd800 ≤ h ∧ h ≤ 0xdbff := ⟨_, rfl, by omega⟩
        obtain ⟨lo, hlo, hlob⟩ : ∃ h, 0xdc00 + (cp - 0x10000) % 1024 = h ∧
            0xdc00 ≤ h ∧ h ≤ 0xdfff := ⟨_, rfl, by omega⟩
        rw [hhi, hlo] at hesc
        rw [List.flatMap_cons, hesc]
        rw [show encodeHex4 hi =
          [hexDigitChar (hi / 4096 % 16), hexDigitChar (hi / 256 % 16),
           hexDigitChar (hi / 16 % 16), hexDigitChar (hi % 16)] from rfl,
          show encodeHex4 lo =
          [hexDigitChar (lo / 4096 % 16), hexDigitChar (lo / 256 % 16),
           hexDigitChar (lo / 16 % 16), hexDigitChar (lo % 16)] from rfl]
        simp only [List.cons_append, List.nil_append, List.append_assoc]
        rw [scanStr_u]
        rw [hexVal_hexDigitChar (show hi / 4096 % 16 < 16 by omega),
          hexVal_hexDigitChar (show hi / 256 % 16 < 16 by omega),
          hexVal_hexDigitChar (show hi / 16 % 16 < 16 by omega),
          hexVal_hexDigitChar (show hi % 16 < 16 by omega)]
        dsimp only
        rw [show ((hi / 4096 % 16 * 16 + hi / 256 % 16) * 16 + hi / 16 % 16) * 16 + hi % 16
            = hi from by omega]
        rw [if_pos (show 0xd800 ≤ hi ∧ hi ≤ 0xdbff from hhib)]
        simp only [List.cons_append, List.nil_append, List.append_assoc]
        rw [hexVal_hexDigitChar (show lo / 4096 % 16 < 16 by omega),
          hexVal_hexDigitChar (show lo / 256 % 16 < 16 by omega),
          hexVal_hexDigitChar (show lo / 16 % 16 < 16 by omega),
          hexVal_hexDigitChar (show lo % 16 < 16 by omega)]
        dsimp only
        rw [show ((lo / 4096 % 16 * 16 + lo / 256 % 16) * 16 + lo / 16 % 16) * 16 + lo % 16
            = lo from by omega]
        rw [if_pos (show 0xdc00 ≤ lo ∧ lo ≤ 0xdfff from hlob)]
        rw [hp]
        rw [show 0x10000 + (hi - 0xd800) * 1024 + (lo - 0xdc00) = cp from by omega]


/-- Appending past an all-p prefix: takeWhile stops exactly at the boundary. -/
theorem takeWhile_append_all {p : Char → Bool} {l r : List Char}
    (hl : ∀ a ∈ l, p a = true) (hr : ∀ b, r.head? = some b → p b = false) :
    (l ++ r).takeWhile p = l := by
  induction l with
  | nil =>
    cases r with
    | nil => rfl
    | cons b t => simp [List.takeWhile_cons, hr b rfl]
  | cons a l' ih =>
    simp only [List.cons_append, List.takeWhile_cons, hl a (List.mem_cons_self a l')]
    rw [ih (fun x hx => hl x (List.mem_cons_of_mem a hx))]
    simp

/-- The shape of a NUMBER_RE match: sign, integer part, optional fraction,
optional exponent. -/
def NumShape (m : List Char) : Prop :=
  ∃ sg ip fp ep : List Char, m = sg ++ ip ++ fp ++ ep ∧
    (sg = [] ∨ sg = ['-']) ∧
    (ip = ['0'] ∨ ∃ c ds, ip = c :: ds ∧ c.isDigit = true ∧ c ≠ '0' ∧
      ∀ a ∈ ds, a.isDigit = true) ∧
    (fp = [] ∨ ∃ ds, fp = '.' :: ds ∧ ds ≠ [] ∧ ∀ a ∈ ds, a.isDigit = true) ∧
    (ep = [] ∨ ∃ e sg2 ds, ep = e :: sg2 ++ ds ∧ (e = 'e' ∨ e = 'E') ∧
      (sg2 = [] ∨ sg2 = ['+'] ∨ sg2 = ['-']) ∧ ds ≠ [] ∧ ∀ a ∈ ds, a.isDigit = true)

theorem signSplit_fst (l : List Char) : (signSplit l).1 = [] ∨ (signSplit l).1 = ['-'] := by
  unfold signSplit
  split <;> simp

theorem signSplit_not_minus {c : Char} (hc : ¬ c = '-') (t : List Char) :
    signSplit (c :: t) = ([], c :: t) := by
  unfold signSplit
  split <;> simp_all

theorem intPart_shape {x : List Char} {ip : List Char × List Char}
    (h : intPart x = some ip) :
    ip.1 = ['0'] ∨ ∃ c ds, ip.1 = c :: ds ∧ c.isDigit = true ∧ c ≠ '0' ∧
      ∀ a ∈ ds, a.isDigit = true := by
  cases x with
  | nil => simp [intPart] at h
  | cons c t =>
    simp only [intPart] at h
    by_cases hc0 : c = '0'
    · rw [if_pos hc0] at h
      rw [Option.some.injEq] at h
      subst h
      exact Or.inl (by rw [hc0])
    · rw [if_neg hc0] at h
      by_cases hcd : c.isDigit = true
      · rw [if_pos hcd] at h
        rw [Option.some.injEq] at h
        subst h
        exact Or.inr ⟨c, _, rfl, hcd, hc0, fun a ha => List.mem_takeWhile_imp ha⟩
      · rw [if_neg hcd] at h
        cases h

theorem fracPart_shape (x : List Char) :
    (fracPart x).1 = [] ∨ ∃ ds, (fracPart x).1 = '.' :: ds ∧ ds ≠ [] ∧
      ∀ a ∈ ds, a.isDigit = true := by
  unfold fracPart
  split
  · dsimp only
    split
    · exact Or.inl rfl
    · rename_i hne
      refine Or.inr ⟨_, rfl, ?_, fun a ha => List.mem_takeWhile_imp ha⟩
      simpa [List.isEmpty_iff] using hne
  · exact Or.inl rfl

theorem expPart_shape (x : List Char) :
    (expPart x).1 = [] ∨ ∃ e sg2 ds, (expPart x).1 = e :: sg2 ++ ds ∧
      (e = 'e' ∨ e = 'E') ∧ (sg2 = [] ∨ sg2 = ['+'] ∨ sg2 = ['-']) ∧ ds ≠ [] ∧
      ∀ a ∈ ds, a.isDigit = true := by
  unfold expPart
  split
  · exact Or.inl rfl
  · rename_i e t3
    split
    · rename_i hecond
      dsimp only
      split
      · exact Or.inl rfl
      · rename_i hne
        refine Or.inr ⟨e, _, _, rfl, hecond, ?_, ?_, fun a ha =>
          List.mem_takeWhile_imp ha⟩
        · unfold expSign
          split <;> simp
        · simpa [List.isEmpty_iff] using hne
    · exact Or.inl rfl

/-- A successful NUMBER_RE match has the regex's shape. -/
theorem matchNumber_shape {l m r : List Char}
    (h : matchNumber l = some (m, r)) : NumShape m := by
  unfold matchNumber at h
  dsimp only at h
  cases hip : intPart (signSplit l).2 with
  | none => rw [hip] at h; cases h
  | some ip =>
    rw [hip] at h
    dsimp only at h
    rw [Option.some.injEq, Prod.mk.injEq] at h
    obtain ⟨hm, -⟩ := h
    subst hm
    exact ⟨_, _, _, _, rfl, signSplit_fst l, intPart_shape hip,
      fracPart_shape ip.2, expPart_shape (fracPart ip.2).2⟩

/-- A digit is none of the number syntax's punctuation characters. -/
theorem digit_ne_punct {b : Char} (h : b.isDigit = true) :
    ¬ b = '-' ∧ ¬ b = '+' ∧ ¬ b = '.' ∧ ¬ b = 'e' ∧ ¬ b = 'E' := by
  refine ⟨?_, ?_, ?_, ?_, ?_⟩ <;> (rintro rfl; simp [Char.isDigit] at h)

theorem fracPart_not_dot {l : List Char}
    (hc : ∀ b, l.head? = some b → ¬ b = '.') : fracPart l = ([], l) := by
  cases l with
  | nil => rfl
  | cons b t =>
    have hb := hc b rfl
    unfold fracPart
    split <;> simp_all

theorem expSign_other {l : List Char}
    (hc : ∀ b, l.head? = some b → ¬ b = '+' ∧ ¬ b = '-') : expSign l = ([], l) := by
  cases l with
  | nil => rfl
  | cons b t =>
    have hb := hc b rfl
    unfold expSign
    split <;> simp_all

theorem expPart_not_e {l : List Char}
    (hc : ∀ b, l.head? = some b → ¬ b = 'e' ∧ ¬ b = 'E') : expPart l = ([], l) := by
  cases l with
  | nil => rfl
  | cons b t =>
    have hb := hc b rfl
    simp only [expPart]
    rw [if_neg (by tauto)]

/-- Boundary condition under which a NUMBER_RE match does not extend. -/
def numBnd (r : List Char) : Prop :=
  ∀ b, r.head? = some b → b.isDigit = false ∧ ¬ b = '.' ∧ ¬ b = 'e' ∧ ¬ b = 'E'

/-- A shaped literal placed before a boundary re-matches as exactly itself. -/
theorem matchNumber_of_shape {m : List Char} (hs : NumShape m) {r : List Char}
    (hb : numBnd r) : matchNumber (m ++ r) = some (m, r) := by
  obtain ⟨sg, ip, fp, ep, hm, hsg, hip, hfp, hep⟩ := hs
  subst hm
  have hephead : ∀ b, (ep ++ r).head? = some b →
      b.isDigit = false ∧ ¬ b = '.' := by
    rcases hep with rfl | ⟨e, sg2, ds, rfl, hecond, -, -, -⟩
    · intro b hb2
      exact ⟨(hb b hb2).1, (hb b hb2).2.1⟩
    · intro b hb2
      simp only [List.cons_append, List.head?_cons, Option.some.injEq] at hb2
      subst hb2
      rcases hecond with rfl | rfl <;> exact ⟨by simp [Char.isDigit], by decide⟩
  have hfphead : ∀ b, (fp ++ (ep ++ r)).head? = some b → b.isDigit = false := by
    rcases hfp with rfl | ⟨ds, rfl, -, -⟩
    · intro b hb2
      exact (hephead b (by simpa using hb2)).1
    · intro b hb2
      simp only [List.cons_append, List.head?_cons, Option.some.injEq] at hb2
      subst hb2
      simp [Char.isDigit]
  have hint : intPart (ip ++ (fp ++ (ep ++ r))) = some (ip, fp ++ (ep ++ r)) := by
    rcases hip with rfl | ⟨c, ds, rfl, hcd, hc0, hds⟩
    · rfl
    · show intPart (c :: (ds ++ (fp ++ (ep ++ r)))) = _
      simp only [intPart]
      rw [if_neg hc0, if_pos hcd]
      rw [show ((ds ++ (fp ++ (ep ++ r))).takeWhile Char.isDigit) = ds from
        takeWhile_append_all hds hfphead]
      rw [List.drop_left]
  have hfrac : fracPart (fp ++ (ep ++ r)) = (fp, ep ++ r) := by
    rcases hfp with rfl | ⟨ds, rfl, hne, hds⟩
    · rw [List.nil_append]
      refine fracPart_not_dot ?_
      intro b hb2
      rcases hep with rfl | ⟨e, sg2, ds, rfl, hecond, -, -, -⟩
      · exact (hb b (by simpa using hb2)).2.1
      · simp only [List.cons_append, List.head?_cons, Option.some.injEq] at hb2
        subst hb2
        rcases hecond with rfl | rfl <;> decide
    · show fracPart ('.' :: (ds ++ (ep ++ r))) = _
      simp only [fracPart]
      rw [show ((ds ++ (ep ++ r)).takeWhile Char.isDigit) = ds from
        takeWhile_append_all hds (fun b hb2 => (hephead b hb2).1)]
      rw [if_neg (by simpa [List.isEmpty_iff] using hne), List.drop_left]
  have hexp : expPart (ep ++ r) = (ep, r) := by
    rcases hep with rfl | ⟨e, sg2, ds, rfl, hecond, hsg2, hne, hds⟩
    · rw [List.nil_append]
      refine expPart_not_e ?_
      intro b hb2
      exact ⟨(hb b hb2).2.2.1, (hb b hb2).2.2.2⟩
    · rw [show ((e :: sg2) ++ ds) ++ r = e :: (sg2 ++ (ds ++ r)) by simp]
      simp only [expPart]
      rw [if_pos hecond]
      have hds_tw : (ds ++ r).takeWhile Char.isDigit = ds :=
        takeWhile_append_all hds (fun b hb2 => (hb b hb2).1)
      have hsgeq : expSign (sg2 ++ (ds ++ r)) = (sg2, ds ++ r) := by
        rcases hsg2 with rfl | rfl | rfl
        · rw [List.nil_append]
          refine expSign_other ?_
          intro b hb2
          cases ds with
          | nil => exact absurd rfl hne
          | cons d dt =>
            simp only [List.cons_append, List.head?_cons, Option.some.injEq] at hb2
            subst hb2
            have hd := digit_ne_punct (hds d (List.mem_cons_self d dt))
            exact ⟨hd.2.1, hd.1⟩
        · rfl
        · rfl
      rw [hsgeq]
      dsimp only
      rw [hds_tw]
      rw [if_neg (by simpa [List.isEmpty_iff] using hne), List.drop_left]
  have hsgn : signSplit (sg ++ (ip ++ (fp ++ (ep ++ r)))) =
      (sg, ip ++ (fp ++ (ep ++ r))) := by
    rcases hsg with rfl | rfl
    · rw [List.nil_append]
      rcases hip with rfl | ⟨c, ds, rfl, hcd, -, -⟩
      · exact signSplit_not_minus (by decide) _
      · exact signSplit_not_minus (digit_ne_punct hcd).1 _
    · rfl
  rw [show (sg ++ ip ++ fp ++ ep) ++ r = sg ++ (ip ++ (fp ++ (ep ++ r))) by
    simp [List.append_assoc]]
  unfold matchNumber
  dsimp only
  rw [hsgn]
  dsimp only
  rw [hint]
  dsimp only
  rw [hfrac, hexp]

/-- The head of a shaped numeric literal is a minus sign or a digit. -/
theorem NumShape_head {m : List Char} (hs : NumShape m) :
    ∃ c t, m = c :: t ∧ (c = '-' ∨ c.isDigit = true) := by
  obtain ⟨sg, ip, fp, ep, hm, hsg, hip, -, -⟩ := hs
  subst hm
  rcases hsg with rfl | rfl
  · rcases hip with rfl | ⟨c, ds, rfl, hcd, -, -⟩
    · exact ⟨'0', fp ++ ep, by simp, Or.inr (by decide)⟩
    · exact ⟨c, ds ++ fp ++ ep, by simp, Or.inr hcd⟩
  · exact ⟨'-', ip ++ fp ++ ep, by simp, Or.inl rfl⟩

/-- Every character of a shaped numeric literal is a digit or number
punctuation. -/
theorem NumShape_chars {m : List Char} (hs : NumShape m) :
    ∀ a ∈ m, a.isDigit = true ∨ a = '-' ∨ a = '+' ∨ a = '.' ∨ a = 'e' ∨ a = 'E' := by
  obtain ⟨sg, ip, fp, ep, hm, hsg, hip, hfp, hep⟩ := hs
  subst hm
  intro a ha
  simp only [List.append_assoc, List.mem_append] at ha
  rcases ha with ha | ha | ha | ha
  · rcases hsg with rfl | rfl
    · cases ha
    · rw [List.mem_singleton] at ha
      exact Or.inr (Or.inl ha)
  · rcases hip with rfl | ⟨c, ds, rfl, hcd, -, hds⟩
    · rw [List.mem_singleton] at ha
      subst ha
      exact Or.inl (by decide)
    · rcases List.mem_cons.mp ha with rfl | ha
      · exact Or.inl hcd
      · exact Or.inl (hds a ha)
  · rcases hfp with rfl | ⟨ds, rfl, -, hds⟩
    · cases ha
    · rcases List.mem_cons.mp ha with rfl | ha
      · exact Or.inr (Or.inr (Or.inr (Or.inl rfl)))
      · exact Or.inl (hds a ha)
  · rcases hep with rfl | ⟨e, sg2, ds, rfl, hecond, hsg2, -, hds⟩
    · cases ha
    · rcases List.mem_cons.mp ha with rfl | ha
      · rcases hecond with rfl | rfl
        · exact Or.inr (Or.inr (Or.inr (Or.inr (Or.inl rfl))))
        · exact Or.inr (Or.inr (Or.inr (Or.inr (Or.inr rfl))))
      · rcases List.mem_append.mp ha with ha | ha
        · rcases hsg2 with rfl | rfl | rfl
          · cases ha
          · rw [List.mem_singleton] at ha
            exact Or.inr (Or.inr (Or.inl ha))
          · rw [List.mem_singleton] at ha
            exact Or.inr (Or.inl ha)
        · exact Or.inl (hds a ha)


theorem hexVal_lt {c : Char} {v : Nat} (h : hexVal c = some v) : v < 16 := by
  unfold hexVal at h
  split_ifs at h with h1 h2 h3 <;>
    simp_all [Char.le_def, UInt32.le_def, BitVec.le_def, Char.toNat, UInt32.toNat] <;>
    omega

theorem shortEsc_lt {c : Char} {v : Nat} (h : shortEsc c = some v) : v < 0xd800 := by
  unfold shortEsc at h
  split_ifs at h <;> simp_all <;> omega

theorem wfStr_cons_of {x : Nat} {xs : List Nat} (hx : x < 0x110000)
    (hxs : wfStr xs = true)
    (hh : ∀ b t, xs = b :: t → (isHighSur x && isLowSur b) = false) :
    wfStr (x :: xs) = true := by
  cases xs with
  | nil => simp [wfStr, noSurPair, hx]
  | cons b t =>
    have hb := hh b t rfl
    simp only [wfStr, noSurPair, Bool.and_eq_true] at hxs ⊢
    refine ⟨⟨?_, hxs.1⟩, ?_⟩
    · cases hhx : isHighSur x with
      | false => simp
      | true => rw [hhx] at hb; simpa using hb
    · simp_all

theorem char_toNat_wf (c : Char) : c.toNat < 0x110000 ∧ isHighSur c.toNat = false ∧
    isLowSur c.toNat = false := by
  have hv : c.toNat = c.val.toNat := rfl
  rcases c.valid with h | ⟨h1, h2⟩ <;>
    refine ⟨by omega, ?_, ?_⟩ <;> simp [isHighSur, isLowSur] <;> omega

/-- The scanner only produces well-formed code-point lists; a low
surrogate can stand at the head only when the input itself begins with a
\u escape denoting it. -/
theorem scanStr_wf (strict : Bool) (sp : Nat) : ∀ (fuel : Nat) (l : List Char)
    (pos : Nat) (r : List Nat × List Char × Nat),
    scanStr strict sp fuel l pos = .ok r →
    wfStr r.1 = true ∧
    (∀ h hs, r.1 = h :: hs → isLowSur h = true →
      ∃ a b c d t, l = '\\' :: 'u' :: a :: b :: c :: d :: t ∧
        ∃ va vb vc vd, hexVal a = some va ∧ hexVal b = some vb ∧
          hexVal c = some vc ∧ hexVal d = some vd ∧
          ((va * 16 + vb) * 16 + vc) * 16 + vd = h) := by
  intro fuel
  induction fuel with
  | zero => intro l pos r hok; cases hok
  | succ f ih =>
    intro l pos r hok
    cases l with
    | nil => cases hok
    | cons c rest =>
      by_cases hcq : c = '"'
      · subst hcq
        rw [scanStr_quote] at hok
        rw [Except.ok.injEq] at hok
        subst hok
        exact ⟨rfl, fun h hs heq => by cases heq⟩
      by_cases hcb : c = '\\'
      · subst hcb
        cases rest with
        | nil => cases hok
        | cons e rest2 =>
          by_cases heu : e = 'u'
          · subst heu
            cases rest2 with
            | nil => cases hok
            | cons a rest3 =>
              cases rest3 with
              | nil => cases hok
              | cons b rest4 =>
                cases rest4 with
                | nil => cases hok
                | cons c2 rest5 =>
                  cases rest5 with
                  | nil => cases hok
                  | cons d rest6 =>
                    rw [scanStr_u] at hok
                    dsimp only at hok
                    split at hok
                    · rename_i va vb vc vd hva hvb hvc hvd
                      split at hok
                      · -- first unit is a high surrogate
                        rename_i huni
                        split at hok
                        · -- followed by a full second escape
                          rename_i a2 b2 c3 d2 rest7 heq3
                          split at hok
                          · rename_i wa wb wc wd hwa hwb hwc hwd
                            split at hok
                            · -- valid low surrogate: combined pair
                              rename_i huni2
                              split at hok
                              · cases hok
                              · rename_i r2 hr2
                                rw [Except.ok.injEq] at hok
                                subst hok
                                obtain ⟨hwf2, -⟩ := ih _ _ r2 hr2
                                have hb1 := hexVal_lt hva
                                have hb2 := hexVal_lt hvb
                                have hb3 := hexVal_lt hvc
                                have hb4 := hexVal_lt hvd
                                have hc1 := hexVal_lt hwa
                                have hc2 := hexVal_lt hwb
                                have hc3 := hexVal_lt hwc
                                have hc4 := hexVal_lt hwd
                                refine ⟨wfStr_cons_of (by omega) hwf2 ?_, ?_⟩
                                · intro b t heq
                                  have : isHighSur (0x10000 +
                                      (((va * 16 + vb) * 16 + vc) * 16 + vd - 0xd800) * 1024 +
                                      (((wa * 16 + wb) * 16 + wc) * 16 + wd - 0xdc00)) = false := by
                                    simp [isHighSur]
                                    omega
                                  simp [this]
                                · intro h hs heq hlow
                                  rw [List.cons.injEq] at heq
                                  obtain ⟨rfl, -⟩ := heq
                                  simp [isLowSur] at hlow
                                  omega
                            · -- second escape is not a low surrogate
                              rename_i huni2
                              split at hok
                              · cases hok
                              · rename_i r2 hr2
                                rw [Except.ok.injEq] at hok
                                subst hok
                                obtain ⟨hwf2, hhead2⟩ := ih _ _ r2 hr2
                                have hb1 := hexVal_lt hva
                                have hb2 := hexVal_lt hvb
                                have hb3 := hexVal_lt hvc
                                have hb4 := hexVal_lt hvd
                                refine ⟨wfStr_cons_of (by omega) hwf2 ?_, ?_⟩
                                · intro bb tt heq
                                  cases hlowbb : isLowSur bb with
                                  | false => simp [hlowbb]
                                  | true =>
                                    obtain ⟨a3, b3, c4, d3, t3, heq2, va3, vb3, vc3, vd3,
                                      hva3, hvb3, hvc3, hvd3, hval3⟩ :=
                                      hhead2 bb tt heq hlowbb
                                    rw [List.cons.injEq, List.cons.injEq, List.cons.injEq,
                                      List.cons.injEq, List.cons.injEq, List.cons.injEq] at heq2
                                    obtain ⟨-, -, rfl, rfl, rfl, rfl, -⟩ := heq2
                                    rw [hva3, Option.some.injEq] at hwa
                                    rw [hvb3, Option.some.injEq] at hwb
                                    rw [hvc3, Option.some.injEq] at hwc
                                    rw [hvd3, Option.some.injEq] at hwd
                                    subst hwa
                                    subst hwb
                                    subst hwc
                                    subst hwd
                                    simp only [isLowSur, decide_eq_true_eq] at hlowbb
                                    exact absurd ⟨by omega, by omega⟩ huni2
                                · intro h hs heq hlow
                                  rw [List.cons.injEq] at heq
                                  obtain ⟨rfl, -⟩ := heq
                                  obtain ⟨h1, h2⟩ := huni
                                  simp [isLowSur] at hlow
                                  omega
                          · cases hok
                        · -- short second escape: error
                          cases hok
                        · -- no second \u escape follows
                          rename_i hno1 hno2
                          split at hok
                          · cases hok
                          · rename_i r2 hr2
                            rw [Except.ok.injEq] at hok
                            subst hok
                            obtain ⟨hwf2, hhead2⟩ := ih _ _ r2 hr2
                            have hb1 := hexVal_lt hva
                            have hb2 := hexVal_lt hvb
                            have hb3 := hexVal_lt hvc
                            have hb4 := hexVal_lt hvd
                            refine ⟨wfStr_cons_of (by omega) hwf2 ?_, ?_⟩
                            · intro bb tt heq
                              cases hlowbb : isLowSur bb with
                              | false => simp [hlowbb]
                              | true =>
                                obtain ⟨a', b', c', d', t', heq2, -⟩ :=
                                  hhead2 bb tt heq hlowbb
                                exact absurd heq2 (by
                                  intro hq
                                  exact hno1 a' b' c' d' t' hq)
                            · intro h hs heq hlow
                              rw [List.cons.injEq] at heq
                              obtain ⟨rfl, -⟩ := heq
                              obtain ⟨h1, h2⟩ := huni
                              simp [isLowSur] at hlow
                              omega
                      · -- first unit is not a high surrogate
                        rename_i huni
                        split at hok
                        · cases hok
                        · rename_i r2 hr2
                          rw [Except.ok.injEq] at hok
                          subst hok
                          obtain ⟨hwf2, -⟩ := ih _ _ r2 hr2
                          have hb1 := hexVal_lt hva
                          have hb2 := hexVal_lt hvb
                          have hb3 := hexVal_lt hvc
                          have hb4 := hexVal_lt hvd
                          refine ⟨wfStr_cons_of (by omega) hwf2 ?_, ?_⟩
                          · intro bb tt heq
                            have : isHighSur (((va * 16 + vb) * 16 + vc) * 16 + vd) = false := by
                              simp only [isHighSur]
                              simp only [Bool.decide_and] at huni ⊢
                              simpa using fun h1 h2 => huni ⟨h1, h2⟩
                            simp [this]
                          · intro h hs heq hlow
                            rw [List.cons.injEq] at heq
                            obtain ⟨rfl, -⟩ := heq
                            exact ⟨a, b, c2, d, rest6, rfl, va, vb, vc, vd,
                              hva, hvb, hvc, hvd, rfl⟩
                    · cases hok
          · -- short escape
            rw [scanStr_esc strict sp f e heu] at hok
            split at hok
            · rename_i code hcode
              split at hok
              · cases hok
              · rename_i r2 hr2
                rw [Except.ok.injEq] at hok
                subst hok
                obtain ⟨hwf2, -⟩ := ih _ _ r2 hr2
                have hlt := shortEsc_lt hcode
                refine ⟨wfStr_cons_of (by omega) hwf2 ?_, ?_⟩
                · intro b t heq
                  have : isHighSur code = false := by simp [isHighSur]; omega
                  simp [this]
                · intro h hs heq hlow
                  rw [List.cons.injEq] at heq
                  obtain ⟨rfl, -⟩ := heq
                  simp [isLowSur] at hlow
                  omega
            · cases hok
      · -- plain character
        rw [scanStr_lit strict sp f c hcq hcb] at hok
        split at hok
        · cases hok
        · split at hok
          · cases hok
          · rename_i r2 hr2
            rw [Except.ok.injEq] at hok
            subst hok
            obtain ⟨hwf2, -⟩ := ih _ _ r2 hr2
            obtain ⟨hc1, hc2, hc3⟩ := char_toNat_wf c
            refine ⟨wfStr_cons_of hc1 hwf2 ?_, ?_⟩
            · intro b t heq
              simp [hc2]
            · intro h hs heq hlow
              rw [List.cons.injEq] at heq
              obtain ⟨rfl, -⟩ := heq
              rw [hlow] at hc3
              cases hc3


theorem wfNumLit_of_selfmatch {lit : List Char}
    (h : matchNumber lit = some (lit, [])) : wfNumLit lit = true := by
  unfold wfNumLit
  rw [h]
  simp

theorem objInsert_fst_mem {ps : List (List Nat × Json)} {k : List Nat} {v : Json} :
    ∀ q ∈ (ps.map (fun p => if p.1 = k then (k, v) else p)), ∃ p ∈ ps, q.1 = p.1 := by
  intro q hq
  rw [List.mem_map] at hq
  obtain ⟨p, hp, rfl⟩ := hq
  refine ⟨p, hp, ?_⟩
  split <;> simp_all

theorem keysDistinct_map {ps : List (List Nat × Json)} {k : List Nat} {v : Json}
    (h : keysDistinct ps = true) :
    keysDistinct (ps.map (fun p => if p.1 = k then (k, v) else p)) = true := by
  induction ps with
  | nil => rfl
  | cons p t ih =>
    simp only [keysDistinct, Bool.and_eq_true, List.all_eq_true] at h
    simp only [List.map_cons, keysDistinct, Bool.and_eq_true, List.all_eq_true]
    refine ⟨?_, ih h.2⟩
    intro q hq
    obtain ⟨p2, hp2, hfst⟩ := objInsert_fst_mem q hq
    have hne := h.1 p2 hp2
    simp only [decide_eq_true_eq] at hne ⊢
    have hhead : ((if p.1 = k then (k, v) else p) : List Nat × Json).1 = p.1 := by
      split <;> simp_all
    rw [hhead]
    exact fun hqp => hne (hfst.symm.trans hqp)

theorem wfPairs_map {ps : List (List Nat × Json)} {k : List Nat} {v : Json}
    (h : wfPairs ps = true) (hk : wfStr k = true) (hv : wfJson v = true) :
    wfPairs (ps.map (fun p => if p.1 = k then (k, v) else p)) = true := by
  induction ps with
  | nil => rfl
  | cons p t ih =>
    simp only [wfPairs, Bool.and_eq_true] at h
    simp only [List.map_cons, wfPairs, Bool.and_eq_true]
    refine ⟨?_, ih h.2⟩
    split
    · exact ⟨hk, hv⟩
    · exact h.1

theorem wfPairs_append {ps : List (List Nat × Json)} {k : List Nat} {v : Json}
    (h : wfPairs ps = true) (hk : wfStr k = true) (hv : wfJson v = true) :
    wfPairs (ps ++ [(k, v)]) = true := by
  induction ps with
  | nil => simp [wfPairs, hk, hv]
  | cons p t ih =>
    simp only [wfPairs, Bool.and_eq_true] at h
    simp only [List.cons_append, wfPairs, Bool.and_eq_true]
    exact ⟨h.1, ih h.2⟩

theorem keysDistinct_append {ps : List (List Nat × Json)} {k : List Nat} {v : Json}
    (h : keysDistinct ps = true) (hk : ps.any (fun p => p.1 = k) = false) :
    keysDistinct (ps ++ [(k, v)]) = true := by
  induction ps with
  | nil => simp [keysDistinct]
  | cons p t ih =>
    simp only [List.any_cons, Bool.or_eq_false_iff] at hk
    simp only [keysDistinct, Bool.and_eq_true, List.all_eq_true] at h
    simp only [List.cons_append, keysDistinct, Bool.and_eq_true, List.all_eq_true]
    refine ⟨?_, ih h.2 hk.2⟩
    intro q hq
    rcases List.mem_append.1 hq with hq2 | hq2
    · exact h.1 q hq2
    · have hq3 := List.mem_singleton.1 hq2
      subst hq3
      simp only [decide_eq_true_eq]
      intro hkp
      rw [decide_eq_false_iff_not] at hk
      exact hk.1 hkp.symm

theorem objInsert_wf {ps : List (List Nat × Json)} {k : List Nat} {v : Json}
    (hps : wfPairs ps = true) (hd : keysDistinct ps = true)
    (hk : wfStr k = true) (hv : wfJson v = true) :
    wfPairs (objInsert ps k v) = true ∧ keysDistinct (objInsert ps k v) = true := by
  unfold objInsert
  split
  · exact ⟨wfPairs_map hps hk hv, keysDistinct_map hd⟩
  · rename_i hany
    rw [Bool.not_eq_true] at hany
    exact ⟨wfPairs_append hps hk hv, keysDistinct_append hd hany⟩

theorem wfList_append {l : List Json} {x : Json}
    (h : wfList l = true) (hx : wfJson x = true) : wfList (l ++ [x]) = true := by
  induction l with
  | nil => simp [wfList, hx]
  | cons y t ih =>
    simp only [wfList, Bool.and_eq_true] at h
    simp only [List.cons_append, wfList, Bool.and_eq_true]
    exact ⟨h.1, ih h.2⟩

/-- Every value produced by the scanner family is well-formed; objects
come out as objects. -/
theorem parse_wf (strict : Bool) : ∀ fuel : Nat,
    (∀ l pos r, parseValue strict fuel l pos = .ok r → wfJson r.1 = true) ∧
    (∀ l pos r, parseObject strict fuel l pos = .ok r →
      wfJson r.1 = true ∧ ∃ ps, r.1 = .obj ps) ∧
    (∀ pairs l pos r, wfPairs pairs = true → keysDistinct pairs = true →
      parseMembers strict fuel pairs l pos = .ok r →
      wfJson r.1 = true ∧ ∃ ps, r.1 = .obj ps) ∧
    (∀ l pos r, parseArray strict fuel l pos = .ok r → wfJson r.1 = true) ∧
    (∀ acc l pos r, wfList acc = true → parseElems strict fuel acc l pos = .ok r →
      wfJson r.1 = true) := by
  intro fuel
  induction fuel with
  | zero =>
    refine ⟨?_, ?_, ?_, ?_, ?_⟩
    · intro l pos r h; simp [parseValue] at h
    · intro l pos r h; simp [parseObject] at h
    · intro pairs l pos r h1 h2 h; simp [parseMembers] at h
    · intro l pos r h; simp [parseArray] at h
    · intro acc l pos r h1 h; simp [parseElems] at h
  | succ f ih =>
    obtain ⟨QV, QO, QM, QA, QE⟩ := ih
    refine ⟨?_, ?_, ?_, ?_, ?_⟩
    · -- parseValue
      intro l pos r h
      cases l with
      | nil => simp [parseValue] at h
      | cons c rest =>
        simp only [parseValue] at h
        by_cases h1 : c = '"'
        · rw [if_pos h1] at h
          split at h
          · simp at h
          · rename_i kr hkr
            rw [Except.ok.injEq] at h
            subst h
            have hwf := (scanStr_wf strict pos _ _ _ kr hkr).1
            simpa [wfJson] using hwf
        rw [if_neg h1] at h
        by_cases h2 : c = '{'
        · rw [if_pos h2] at h
          exact (QO _ _ _ h).1
        rw [if_neg h2] at h
        by_cases h3 : c = '['
        · rw [if_pos h3] at h
          exact QA _ _ _ h
        rw [if_neg h3] at h
        by_cases h4 : c = 'n' ∧ "ull".data.isPrefixOf rest
        · rw [if_pos h4] at h
          rw [Except.ok.injEq] at h
          subst h
          rfl
        rw [if_neg h4] at h
        by_cases h5 : c = 't' ∧ "rue".data.isPrefixOf rest
        · rw [if_pos h5] at h
          rw [Except.ok.injEq] at h
          subst h
          rfl
        rw [if_neg h5] at h
        by_cases h6 : c = 'f' ∧ "alse".data.isPrefixOf rest
        · rw [if_pos h6] at h
          rw [Except.ok.injEq] at h
          subst h
          rfl
        rw [if_neg h6] at h
        split at h
        · rename_i mr hmr
          rw [Except.ok.injEq] at h
          subst h
          have hshape := matchNumber_shape hmr
          have hself := matchNumber_of_shape hshape
            (show numBnd [] from fun b hb => by cases hb)
          rw [List.append_nil] at hself
          simpa [wfJson] using wfNumLit_of_selfmatch hself
        · by_cases g1 : c = 'N' ∧ "aN".data.isPrefixOf rest
          · rw [if_pos g1] at h
            rw [Except.ok.injEq] at h
            subst h
            show wfNumLit "NaN".data = true
            decide
          rw [if_neg g1] at h
          by_cases g2 : c = 'I' ∧ "nfinity".data.isPrefixOf rest
          · rw [if_pos g2] at h
            rw [Except.ok.injEq] at h
            subst h
            show wfNumLit "Infinity".data = true
            decide
          rw [if_neg g2] at h
          by_cases g3 : c = '-' ∧ "Infinity".data.isPrefixOf rest
          · rw [if_pos g3] at h
            rw [Except.ok.injEq] at h
            subst h
            show wfNumLit "-Infinity".data = true
            decide
          rw [if_neg g3] at h
          simp at h
    · -- parseObject
      intro l pos r h
      simp only [parseObject] at h
      split at h <;> first
        | (simp at h; done)
        | (rw [Except.ok.injEq] at h
           subst h
           exact ⟨rfl, [], rfl⟩)
        | exact QM [] _ _ _ rfl rfl h
    · -- parseMembers
      intro pairs l pos r hwfp hkd h
      simp only [parseMembers] at h
      split at h
      · simp at h
      · rename_i kr hkr
        split at h
        · rename_i s4 heqc
          split at h
          · simp at h
          · rename_i vr hvr
            have hkwf := (scanStr_wf strict (pos - 1) _ _ _ kr hkr).1
            have hvwf := QV _ _ _ hvr
            obtain ⟨hp2, hd2⟩ := objInsert_wf hwfp hkd hkwf hvwf
            split at h
            · rw [Except.ok.injEq] at h
              subst h
              refine ⟨?_, _, rfl⟩
              simp [wfJson, Bool.and_eq_true]
              exact ⟨hd2, hp2⟩
            · split at h
              · exact QM _ _ _ _ hp2 hd2 h
              · simp at h
            · simp at h
        · simp at h
    · -- parseArray
      intro l pos r h
      simp only [parseArray] at h
      split at h
      · rw [Except.ok.injEq] at h
        subst h
        rfl
      · exact QE [] _ _ _ rfl h
    · -- parseElems
      intro acc l pos r hacc h
      simp only [parseElems] at h
      split at h
      · simp at h
      · rename_i vr hvr
        have hvwf := QV _ _ _ hvr
        have hacc2 := wfList_append hacc hvwf
        split at h
        · rw [Except.ok.injEq] at h
          subst h
          simpa [wfJson] using hacc2
        · exact QE _ _ _ _ hacc2 h
        · simp at h

/-- Characters that may legally follow a serialized value. -/
def jBnd : List Char → Prop
  | [] => True
  | c :: _ => c = ',' ∨ c = ']' ∨ c = '\x7d'

/-- The tail of a serialized non-empty object, after the first key's
opening quote. -/
def dumpMembers : List (List Nat × Json) → List Char
  | [] => []
  | [p] => p.1.flatMap escCp ++ '"' :: ':' :: ' ' :: jsonDumps p.2
  | p :: q :: t =>
    (p.1.flatMap escCp ++ '"' :: ':' :: ' ' :: jsonDumps p.2) ++
      ',' :: ' ' :: '"' :: dumpMembers (q :: t)

/-- What follows a pair's serialized value inside an object dump. -/
def dumpMembersTail : List (List Nat × Json) → List Char → List Char
  | [], rest => '\x7d' :: rest
  | q :: t2, rest => ',' :: ' ' :: '"' :: (dumpMembers (q :: t2) ++ '\x7d' :: rest)

theorem dumpPairs_cons_eq (p : List Nat × Json) (t : List (List Nat × Json)) :
    dumpPairs (p :: t) = '"' :: dumpMembers (p :: t) := by
  induction t generalizing p with
  | nil => simp [dumpPairs, dumpMembers, encStr]
  | cons q t2 ih =>
    rw [dumpPairs, dumpMembers, ih q]
    simp [encStr]

theorem escCp_ne_nil (n : Nat) : escCp n ≠ [] := by
  unfold escCp
  split_ifs <;> simp [encodeHex4]

theorem flatMap_escCp_len (s : List Nat) : s.length ≤ (s.flatMap escCp).length := by
  induction s with
  | nil => simp
  | cons cp t ih =>
    rw [List.flatMap_cons, List.length_append, List.length_cons]
    have hne := escCp_ne_nil cp
    have : 1 ≤ (escCp cp).length := by
      cases h : escCp cp with
      | nil => exact absurd h hne
      | cons a b => simp
    omega

theorem digit_not_special {b : Char} (h : b.isDigit = true) :
    isJsonWs b = false ∧ ¬ b = ']' ∧ ¬ b = '"' ∧ ¬ b = '\x7b' ∧ ¬ b = '[' ∧
      ¬ b = 'n' ∧ ¬ b = 't' ∧ ¬ b = 'f' := by
  refine ⟨?_, ?_, ?_, ?_, ?_, ?_, ?_, ?_⟩ <;>
    first
      | (rintro rfl; simp [Char.isDigit] at h)
      | (simp [isJsonWs]
         refine ⟨?_, ?_, ?_, ?_⟩ <;> (rintro rfl; simp [Char.isDigit] at h))

theorem wfNumLit_cases {lit : List Char} (h : wfNumLit lit = true) :
    lit = "NaN".data ∨ lit = "Infinity".data ∨ lit = "-Infinity".data ∨
      matchNumber lit = some (lit, []) := by
  unfold wfNumLit at h
  simp only [Bool.or_eq_true, decide_eq_true_eq] at h
  rcases h with ((h | h) | h) | h
  · exact Or.inl h
  · exact Or.inr (Or.inl h)
  · exact Or.inr (Or.inr (Or.inl h))
  · refine Or.inr (Or.inr (Or.inr ?_))
    cases hm : matchNumber lit with
    | none => rw [hm] at h; cases h
    | some r =>
      rw [hm] at h
      simp only [Bool.and_eq_true, decide_eq_true_eq] at h
      cases r with
      | mk a b =>
        simp only at h
        rw [h.1, h.2]

/-- The first character of a serialized well-formed value is never JSON
whitespace and never a closing bracket. -/
theorem dump_head {v : Json} (hv : wfJson v = true) :
    ∃ c t2, jsonDumps v = c :: t2 ∧ isJsonWs c = false ∧ ¬ c = ']' := by
  cases v with
  | null => exact ⟨'n', _, rfl, by decide, by decide⟩
  | bool b => cases b
              · exact ⟨'f', _, rfl, by decide, by decide⟩
              · exact ⟨'t', _, rfl, by decide, by decide⟩
  | str s => exact ⟨'"', _, rfl, by decide, by decide⟩
  | arr l => exact ⟨'[', _, rfl, by decide, by decide⟩
  | obj l => exact ⟨'\x7b', _, rfl, by decide, by decide⟩
  | num lit =>
    have hl : wfNumLit lit = true := by simpa [wfJson] using hv
    rcases wfNumLit_cases hl with rfl | rfl | rfl | hm
    · exact ⟨'N', _, rfl, by decide, by decide⟩
    · exact ⟨'I', _, rfl, by decide, by decide⟩
    · exact ⟨'-', _, rfl, by decide, by decide⟩
    · obtain ⟨c, t, heq, hc⟩ := NumShape_head (matchNumber_shape hm)
      refine ⟨c, t, by simpa [jsonDumps] using heq, ?_, ?_⟩
      · rcases hc with rfl | hc
        · decide
        · exact (digit_not_special hc).1
      · rcases hc with rfl | hc
        · decide
        · exact (digit_not_special hc).2.1

theorem dump_len_pos {v : Json} (hv : wfJson v = true) :
    1 ≤ (jsonDumps v).length := by
  obtain ⟨c, t2, heq, -⟩ := dump_head hv
  rw [heq]
  simp

theorem jBnd_numBnd {rest : List Char} (h : jBnd rest) : numBnd rest := by
  intro b hb
  cases rest with
  | nil => cases hb
  | cons c t =>
    rw [List.head?_cons, Option.some.injEq] at hb
    subst hb
    rcases h with rfl | rfl | rfl <;> exact ⟨by decide, by decide, by decide, by decide⟩

theorem keysDistinct_any {acc t : List (List Nat × Json)} {p : List Nat × Json}
    (h : keysDistinct (acc ++ p :: t) = true) :
    acc.any (fun q => q.1 = p.1) = false := by
  induction acc with
  | nil => rfl
  | cons a acc2 ih =>
    simp only [List.cons_append, keysDistinct, Bool.and_eq_true, List.all_eq_true] at h
    rw [List.any_cons]
    have hp := h.1 p (List.mem_append_right _ (List.mem_cons_self p t))
    simp only [decide_eq_true_eq] at hp
    rw [Bool.or_eq_false_iff]
    refine ⟨?_, ih h.2⟩
    rw [decide_eq_false_iff_not]
    exact fun hq => hp hq.symm

theorem isPrefixOf_append (l r : List Char) : l.isPrefixOf (l ++ r) = true := by
  induction l with
  | nil => simp
  | cons c t ih => simp [List.isPrefixOf, ih]

theorem skipWs_space {x : List Char} {q : Nat}
    (h : ∀ c, x.head? = some c → isJsonWs c = false) :
    skipWs (' ' :: x) q = (x, q + 1) := by
  show (if isJsonWs ' ' then skipWs x (q + 1) else (' ' :: x, q)) = (x, q + 1)
  rw [if_pos (by decide)]
  exact skipWs_no_ws (fun c hc => by rw [h c hc]; simp)

theorem dumpMembers_unfold (q : List Nat × Json) (t2 : List (List Nat × Json))
    (rest : List Char) :
    dumpMembers (q :: t2) ++ '\x7d' :: rest =
      q.1.flatMap escCp ++ '"' :: ':' :: ' ' ::
        (jsonDumps q.2 ++ dumpMembersTail t2 rest) := by
  cases t2 with
  | nil => simp [dumpMembers, dumpMembersTail]
  | cons r t3 => simp [dumpMembers, dumpMembersTail]

/-- Parsing a serialized well-formed value consumes exactly the
serialization and returns the value. -/
theorem parse_dumps (strict : Bool) : ∀ fuel : Nat,
    (∀ v rest pos, wfJson v = true → 2 * (jsonDumps v).length ≤ fuel → jBnd rest →
      ∃ p, parseValue strict fuel (jsonDumps v ++ rest) pos = .ok (v, rest, p)) ∧
    (∀ ps rest pos, wfJson (.obj ps) = true → 2 * (dumpPairs ps).length + 2 ≤ fuel →
      ∃ p, parseObject strict fuel (dumpPairs ps ++ '\x7d' :: rest) pos =
        .ok (.obj ps, rest, p)) ∧
    (∀ acc k v t rest pos, wfPairs ((k, v) :: t) = true →
      keysDistinct (acc ++ (k, v) :: t) = true →
      2 * (dumpMembers ((k, v) :: t)).length + 2 ≤ fuel →
      ∃ p, parseMembers strict fuel acc
        (k.flatMap escCp ++ '"' :: ':' :: ' ' ::
          (jsonDumps v ++ dumpMembersTail t rest)) pos =
        .ok (.obj (acc ++ (k, v) :: t), rest, p)) ∧
    (∀ l rest pos, wfList l = true → 2 * (dumpElems l).length + 3 ≤ fuel →
      ∃ p, parseArray strict fuel (dumpElems l ++ ']' :: rest) pos =
        .ok (.arr l, rest, p)) ∧
    (∀ acc x t rest pos, wfList (x :: t) = true →
      2 * (dumpElems (x :: t)).length + 2 ≤ fuel →
      ∃ p, parseElems strict fuel acc (dumpElems (x :: t) ++ ']' :: rest) pos =
        .ok (.arr (acc ++ x :: t), rest, p)) := by
  intro fuel
  induction fuel with
  | zero =>
    refine ⟨?_, ?_, ?_, ?_, ?_⟩
    · intro v rest pos hwf hlen hbnd
      have := dump_len_pos hwf
      omega
    · intro ps rest pos hwf hlen; omega
    · intro acc k v t rest pos h1 h2 hlen; omega
    · intro l rest pos hwf hlen; omega
    · intro acc x t rest pos hwf hlen; omega
  | succ f ih =>
    obtain ⟨PV, PO, PM, PA, PE⟩ := ih
    refine ⟨?_, ?_, ?_, ?_, ?_⟩
    · -- parseValue on a dump
      intro v rest pos hwf hlen hbnd
      cases v with
      | null =>
        refine ⟨pos + 4, ?_⟩
        show parseValue strict (f + 1) ('n' :: ("ull".data ++ rest)) pos = _
        simp only [parseValue]
        rw [if_neg (by decide), if_neg (by decide), if_neg (by decide),
          if_pos ⟨by trivial, isPrefixOf_append "ull".data rest⟩]
        rw [show ("ull".data ++ rest).drop 3 = rest from List.drop_left "ull".data rest]
      | bool b =>
        cases b with
        | true =>
          refine ⟨pos + 4, ?_⟩
          show parseValue strict (f + 1) ('t' :: ("rue".data ++ rest)) pos = _
          simp only [parseValue]
          rw [if_neg (by decide), if_neg (by decide), if_neg (by decide),
            if_neg (fun hq => absurd hq.1 (by decide)),
            if_pos ⟨by trivial, isPrefixOf_append "rue".data rest⟩]
          rw [show ("rue".data ++ rest).drop 3 = rest from List.drop_left "rue".data rest]
        | false =>
          refine ⟨pos + 5, ?_⟩
          show parseValue strict (f + 1) ('f' :: ("alse".data ++ rest)) pos = _
          simp only [parseValue]
          rw [if_neg (by decide), if_neg (by decide), if_neg (by decide),
            if_neg (fun hq => absurd hq.1 (by decide)),
            if_neg (fun hq => absurd hq.1 (by decide)),
            if_pos ⟨by trivial, isPrefixOf_append "alse".data rest⟩]
          rw [show ("alse".data ++ rest).drop 4 = rest from
            List.drop_left "alse".data rest]
      | str s =>
        have hws : wfStr s = true := by simpa [wfJson] using hwf
        obtain ⟨p, hp⟩ := scanStr_round strict pos
          ((s.flatMap escCp ++ '"' :: rest).length + 1) s hws
          (by
            have := flatMap_escCp_len s
            simp only [List.length_append, List.length_cons]
            omega)
          rest (pos + 1)
        refine ⟨p, ?_⟩
        rw [show jsonDumps (.str s) ++ rest = '"' :: (s.flatMap escCp ++ '"' :: rest) by
          simp [jsonDumps, encStr]]
        simp only [parseValue]
        rw [if_pos (by trivial), hp]
      | num lit =>
        have hl : wfNumLit lit = true := by simpa [wfJson] using hwf
        rcases wfNumLit_cases hl with rfl | rfl | rfl | hm
        · refine ⟨pos + 3, ?_⟩
          show parseValue strict (f + 1) ('N' :: ("aN".data ++ rest)) pos = _
          simp only [parseValue]
          rw [if_neg (by decide), if_neg (by decide), if_neg (by decide),
            if_neg (fun hq => absurd hq.1 (by decide)),
            if_neg (fun hq => absurd hq.1 (by decide)),
            if_neg (fun hq => absurd hq.1 (by decide))]
          rw [show matchNumber ('N' :: ("aN".data ++ rest)) = none by
            unfold matchNumber
            rw [signSplit_not_minus (by decide)]
            simp [intPart]]
          rw [if_pos ⟨by trivial, isPrefixOf_append "aN".data rest⟩]
          rw [show ("aN".data ++ rest).drop 2 = rest from List.drop_left "aN".data rest]
        · refine ⟨pos + 8, ?_⟩
          show parseValue strict (f + 1) ('I' :: ("nfinity".data ++ rest)) pos = _
          simp only [parseValue]
          rw [if_neg (by decide), if_neg (by decide), if_neg (by decide),
            if_neg (fun hq => absurd hq.1 (by decide)),
            if_neg (fun hq => absurd hq.1 (by decide)),
            if_neg (fun hq => absurd hq.1 (by decide))]
          rw [show matchNumber ('I' :: ("nfinity".data ++ rest)) = none by
            unfold matchNumber
            rw [signSplit_not_minus (by decide)]
            simp [intPart]]
          rw [if_neg (fun hq => absurd hq.1 (by decide)),
            if_pos ⟨by trivial, isPrefixOf_append "nfinity".data rest⟩]
          rw [show ("nfinity".data ++ rest).drop 7 = rest from
            List.drop_left "nfinity".data rest]
        · refine ⟨pos + 9, ?_⟩
          show parseValue strict (f + 1) ('-' :: ("Infinity".data ++ rest)) pos = _
          simp only [parseValue]
          rw [if_neg (by decide), if_neg (by decide), if_neg (by decide),
            if_neg (fun hq => absurd hq.1 (by decide)),
            if_neg (fun hq => absurd hq.1 (by decide)),
            if_neg (fun hq => absurd hq.1 (by decide))]
          rw [show matchNumber ('-' :: ("Infinity".data ++ rest)) = none by
            unfold matchNumber
            simp [signSplit, intPart]]
          rw [if_neg (fun hq => absurd hq.1 (by decide)),
            if_neg (fun hq => absurd hq.1 (by decide)),
            if_pos ⟨by trivial, isPrefixOf_append "Infinity".data rest⟩]
          rw [show ("Infinity".data ++ rest).drop 8 = rest from
            List.drop_left "Infinity".data rest]
        · have hshape := matchNumber_shape hm
          obtain ⟨c, t2, heq, hc⟩ := NumShape_head hshape
          have hmr : matchNumber (lit ++ rest) = some (lit, rest) :=
            matchNumber_of_shape hshape (jBnd_numBnd hbnd)
          refine ⟨pos + lit.length, ?_⟩
          rw [heq] at hmr ⊢
          show parseValue strict (f + 1) ((c :: t2) ++ rest) pos =
            .ok (.num (c :: t2), rest, pos + (c :: t2).length)
          rw [List.cons_append]
          simp only [parseValue]
          have hcs : ¬ c = '"' ∧ ¬ c = '\x7b' ∧ ¬ c = '[' ∧ ¬ c = 'n' ∧ ¬ c = 't' ∧
              ¬ c = 'f' := by
            rcases hc with rfl | hc
            · exact ⟨by decide, by decide, by decide, by decide, by decide, by decide⟩
            · obtain ⟨-, -, h3, h4, h5, h6, h7, h8⟩ := digit_not_special hc
              exact ⟨h3, h4, h5, h6, h7, h8⟩
          rw [if_neg hcs.1, if_neg hcs.2.1, if_neg hcs.2.2.1,
            if_neg (fun hq => absurd hq.1 hcs.2.2.2.1),
            if_neg (fun hq => absurd hq.1 hcs.2.2.2.2.1),
            if_neg (fun hq => absurd hq.1 hcs.2.2.2.2.2)]
          rw [show matchNumber (c :: (t2 ++ rest)) = some (c :: t2, rest) from by
            rw [← List.cons_append]
            exact hmr]
      | arr l =>
        have hwl : wfList l = true := by simpa [wfJson] using hwf
        obtain ⟨p, hp⟩ := PA l rest (pos + 1) hwl (by
          have : (jsonDumps (.arr l)).length = (dumpElems l).length + 2 := by
            simp [jsonDumps]
          omega)
        refine ⟨p, ?_⟩
        rw [show jsonDumps (.arr l) ++ rest = '[' :: (dumpElems l ++ ']' :: rest) by
          simp [jsonDumps]]
        simp only [parseValue]
        rw [if_neg (by decide), if_neg (by decide), if_pos (by trivial)]
        exact hp
      | obj ps =>
        obtain ⟨p, hp⟩ := PO ps rest (pos + 1) hwf (by
          have : (jsonDumps (.obj ps)).length = (dumpPairs ps).length + 2 := by
            simp [jsonDumps]
          omega)
        refine ⟨p, ?_⟩
        rw [show jsonDumps (.obj ps) ++ rest = '\x7b' :: (dumpPairs ps ++ '\x7d' :: rest) by
          simp [jsonDumps]]
        simp only [parseValue]
        rw [if_neg (by decide), if_pos (by trivial)]
        exact hp
    · -- parseObject on a dump
      intro ps rest pos hwf hlen
      cases ps with
      | nil =>
        refine ⟨pos + 1, ?_⟩
        show parseObject strict (f + 1) ('\x7d' :: rest) pos = _
        simp [parseObject, isJsonWs]
      | cons p t =>
        obtain ⟨k, v⟩ := p
        have hkv : wfPairs ((k, v) :: t) = true := by
          simp only [wfJson, Bool.and_eq_true] at hwf
          exact hwf.2
        have hkd : keysDistinct ([] ++ (k, v) :: t) = true := by
          simp only [wfJson, Bool.and_eq_true] at hwf
          simpa using hwf.1
        obtain ⟨p2, hp2⟩ := PM [] k v t rest (pos + 1) hkv hkd (by
          have : (dumpPairs ((k, v) :: t)).length =
              (dumpMembers ((k, v) :: t)).length + 1 := by
            rw [dumpPairs_cons_eq]
            simp
          omega)
        refine ⟨p2, ?_⟩
        rw [dumpPairs_cons_eq]
        rw [show ('"' :: dumpMembers ((k, v) :: t)) ++ '\x7d' :: rest =
          '"' :: (dumpMembers ((k, v) :: t) ++ '\x7d' :: rest) from rfl]
        simp only [parseObject]
        rw [dumpMembers_unfold]
        exact hp2
    · -- parseMembers on a dump
      intro acc k v t rest pos hwfp hkd hlen
      simp only [wfPairs, Bool.and_eq_true] at hwfp
      obtain ⟨⟨hk, hv⟩, hwt⟩ := hwfp
      obtain ⟨p1, hp1⟩ := scanStr_round strict (pos - 1)
        ((k.flatMap escCp ++ '"' :: ':' :: ' ' ::
          (jsonDumps v ++ dumpMembersTail t rest)).length + 1) k hk
        (by
          have := flatMap_escCp_len k
          simp only [List.length_append, List.length_cons]
          omega)
        (':' :: ' ' :: (jsonDumps v ++ dumpMembersTail t rest)) pos
      have hbnd2 : jBnd (dumpMembersTail t rest) := by
        cases t with
        | nil => exact Or.inr (Or.inr rfl)
        | cons q t2 => exact Or.inl rfl
      have hvlen : 2 * (jsonDumps v).length ≤ f := by
        cases t with
        | nil =>
          simp only [dumpMembers, List.length_append, List.length_cons] at hlen
          omega
        | cons q t2 =>
          simp only [dumpMembers, List.length_append, List.length_cons] at hlen
          omega
      obtain ⟨p2, hp2⟩ := PV v (dumpMembersTail t rest) (p1 + 2) hv hvlen hbnd2
      obtain ⟨cv, tv, heqv, hcvw, -⟩ := dump_head hv
      have hvhead : ∀ c, (jsonDumps v ++ dumpMembersTail t rest).head? = some c →
          isJsonWs c = false := by
        intro c hc
        rw [heqv, List.cons_append, List.head?_cons, Option.some.injEq] at hc
        subst hc
        exact hcvw
      have hins : objInsert acc k v = acc ++ [(k, v)] := by
        unfold objInsert
        rw [if_neg (by
          rw [show (acc.any fun p => decide (p.1 = k)) = false from
            keysDistinct_any hkd]
          simp)]
      cases t with
      | nil =>
        refine ⟨p2 + 1, ?_⟩
        simp only [parseMembers]
        rw [hp1]
        dsimp only
        simp only []
        rw [skipWs_space hvhead]
        dsimp only
        rw [hp2]
        dsimp only
        rw [hins]
        rw [show dumpMembersTail [] rest = '\x7d' :: rest from rfl]
        rw [skipWs_no_ws (fun c hc => by
          rw [List.head?_cons, Option.some.injEq] at hc
          subst hc
          decide)]
        rfl
      | cons q t2 =>
        obtain ⟨k2, v2⟩ := q
        obtain ⟨p3, hp3⟩ := PM (acc ++ [(k, v)]) k2 v2 t2 rest (p2 + 3)
          hwt
          (by rw [List.append_assoc]; exact hkd)
          (by
            simp only [dumpMembers, List.length_append, List.length_cons] at hlen ⊢
            omega)
        refine ⟨p3, ?_⟩
        simp only [parseMembers]
        rw [hp1]
        dsimp only
        simp only []
        rw [skipWs_space hvhead]
        dsimp only
        rw [hp2]
        dsimp only
        rw [hins]
        rw [show dumpMembersTail ((k2, v2) :: t2) rest =
          ',' :: ' ' :: '"' :: (dumpMembers ((k2, v2) :: t2) ++ '\x7d' :: rest)
          from rfl]
        rw [skipWs_no_ws (fun c hc => by
          rw [List.head?_cons, Option.some.injEq] at hc
          subst hc
          decide)]
        dsimp only
        simp only []
        rw [skipWs_space (fun c hc => by
          rw [List.head?_cons, Option.some.injEq] at hc
          subst hc
          decide)]
        dsimp only
        simp only []
        rw [dumpMembers_unfold]
        rw [show (acc ++ [(k, v)]) ++ (k2, v2) :: t2 =
          acc ++ (k, v) :: (k2, v2) :: t2 by simp] at hp3
        exact hp3
    · -- parseArray on a dump
      intro l rest pos hwf hlen
      cases l with
      | nil =>
        refine ⟨pos + 1, ?_⟩
        show parseArray strict (f + 1) (']' :: rest) pos = _
        simp [parseArray, isJsonWs]
      | cons x t =>
        have hwx : wfJson x = true := by
          simp only [wfList, Bool.and_eq_true] at hwf
          exact hwf.1
        obtain ⟨c, t2, heq, hcw, hcb⟩ := dump_head hwx
        obtain ⟨p, hp⟩ := PE [] x t rest pos hwf (by omega)
        refine ⟨p, ?_⟩
        have hshape : ∃ z, dumpElems (x :: t) ++ ']' :: rest = c :: z := by
          cases t with
          | nil => exact ⟨t2 ++ ']' :: rest, by simp [dumpElems, heq]⟩
          | cons y t3 => exact ⟨t2 ++ ',' :: ' ' :: dumpElems (y :: t3) ++ ']' :: rest,
              by simp [dumpElems, heq]⟩
        obtain ⟨z, hz⟩ := hshape
        simp only [parseArray]
        rw [hz]
        dsimp only
        rw [if_neg (by rw [hcw]; simp)]
        rw [← hz]
        split
        · rename_i s4 heq4
          rw [hz, List.cons.injEq] at heq4
          exact absurd heq4.1 hcb
        · exact hp
    · -- parseElems on a dump
      intro acc x t rest pos hwf hlen
      simp only [wfList, Bool.and_eq_true] at hwf
      obtain ⟨hwx, hwt⟩ := hwf
      cases t with
      | nil =>
        obtain ⟨p2, hp2⟩ := PV x (']' :: rest) pos hwx (by
          simp only [dumpElems] at hlen
          omega) (Or.inr (Or.inl rfl))
        refine ⟨p2 + 1, ?_⟩
        simp only [parseElems]
        rw [show dumpElems [x] ++ ']' :: rest = jsonDumps x ++ ']' :: rest from rfl]
        rw [hp2]
        dsimp only
        rw [if_neg (by decide)]
        rfl
      | cons y t2 =>
        have hwy : wfJson y = true := by
          simp only [wfList, Bool.and_eq_true] at hwt
          exact hwt.1
        obtain ⟨p2, hp2⟩ := PV x (',' :: ' ' :: (dumpElems (y :: t2) ++ ']' :: rest)) pos
          hwx (by
            have h1 := dump_len_pos hwx
            simp only [dumpElems, List.length_append, List.length_cons] at hlen ⊢
            omega) (Or.inl rfl)
        obtain ⟨cy, ty, heqy, hcyw, -⟩ := dump_head hwy
        have hdhead : ∀ c, (dumpElems (y :: t2) ++ ']' :: rest).head? = some c →
            isJsonWs c = false := by
          intro c hc
          rw [show (dumpElems (y :: t2) ++ ']' :: rest).head? = some cy by
            cases t2 with
            | nil => simp [dumpElems, heqy]
            | cons z t4 => simp [dumpElems, heqy]] at hc
          rw [Option.some.injEq] at hc
          subst hc
          exact hcyw
        obtain ⟨p3, hp3⟩ := PE (acc ++ [x]) y t2 rest (p2 + 2) hwt (by
          have h1 := dump_len_pos hwx
          simp only [dumpElems, List.length_append, List.length_cons] at hlen ⊢
          omega)
        refine ⟨p3, ?_⟩
        simp only [parseElems]
        rw [show dumpElems (x :: y :: t2) ++ ']' :: rest =
          jsonDumps x ++ (',' :: ' ' :: (dumpElems (y :: t2) ++ ']' :: rest)) by
          simp [dumpElems]]
        rw [hp2]
        dsimp only
        rw [if_neg (by decide)]
        split
        · rename_i s4 heq4
          rw [List.cons.injEq] at heq4
          exact absurd heq4.1 (by decide)
        · rename_i s4 heq4
          rw [List.cons.injEq] at heq4
          obtain ⟨-, heq4⟩ := heq4
          subst heq4
          rw [skipWs_space hdhead]
          dsimp only
          rw [show (acc ++ [x]) ++ y :: t2 = acc ++ x :: y :: t2 by simp] at hp3
          exact hp3
        · rename_i hno1 hno2
          exact absurd rfl (hno2 (' ' :: (dumpElems (y :: t2) ++ ']' :: rest)))

theorem jsonLoadsL_dumps (strict : Bool) {v : Json} (hv : wfJson v = true) :
    jsonLoadsL strict (jsonDumps v) = .ok v := by
  obtain ⟨c, t2, heq, hcw, -⟩ := dump_head hv
  obtain ⟨PV, -, -, -, -⟩ := parse_dumps strict (4 * (jsonDumps v).length + 8)
  obtain ⟨p, hp⟩ := PV v [] 0 hv (by omega) trivial
  rw [List.append_nil] at hp
  show jsonLoadsL strict (jsonDumps v) = _
  simp only [jsonLoadsL]
  rw [skipWs_no_ws (fun c2 hc2 => by
    rw [heq, List.head?_cons, Option.some.injEq] at hc2
    subst hc2
    rw [hcw]
    simp)]
  dsimp only
  rw [hp]
  rfl

theorem loadWithRepair_dumps {v : Json} (hv : wfJson v = true) :
    loadWithRepair (jsonDumps v) = .ok v := by
  simp only [loadWithRepair, jsonLoadsL_dumps true hv]

theorem jsonLoadsL_ok_wf {strict : Bool} {l : List Char} {v : Json}
    (h : jsonLoadsL strict l = .ok v) : wfJson v = true := by
  simp only [jsonLoadsL] at h
  obtain ⟨QV, -, -, -, -⟩ := parse_wf strict (4 * l.length + 8)
  revert h
  cases hp : parseValue strict (4 * l.length + 8) (skipWs l 0).1 (skipWs l 0).2 with
  | error e => intro h; simp at h
  | ok r =>
    intro h
    dsimp only at h
    have hw := QV _ _ _ hp
    revert h
    cases (skipWs r.2.1 r.2.2).1 with
    | nil =>
      intro h
      simp only [Except.ok.injEq] at h
      rw [← h]
      exact hw
    | cons a b => intro h; simp at h

theorem commaAttempt_ok_wf : ∀ {att : Nat} {l : List Char} {v : Json},
    commaAttempt att l = some v → wfJson v = true := by
  intro att
  induction att with
  | zero => intro l v h; simp [commaAttempt] at h
  | succ a ih =>
    intro l v h
    simp only [commaAttempt] at h
    revert h
    cases hp : jsonLoadsL false l with
    | ok w =>
      intro h
      simp only [Option.some.injEq] at h
      rw [← h]
      exact jsonLoadsL_ok_wf hp
    | error e =>
      intro h
      dsimp only at h
      split at h
      · simp at h
      · split at h
        · simp at h
        · split at h
          · split at h
            · exact ih h
            · simp at h
          · simp at h

theorem loadWithRepair_ok_wf {l : List Char} {v : Json}
    (h : loadWithRepair l = .ok v) : wfJson v = true := by
  simp only [loadWithRepair] at h
  revert h
  cases h1 : jsonLoadsL true l with
  | ok w =>
    intro h
    simp only [Except.ok.injEq] at h
    rw [← h]
    exact jsonLoadsL_ok_wf h1
  | error e1 =>
    intro h
    dsimp only at h
    revert h
    cases h2 : jsonLoadsL false (escCtrlL (repairEscapesL l)) with
    | ok w =>
      intro h
      simp only [Except.ok.injEq] at h
      rw [← h]
      exact jsonLoadsL_ok_wf h2
    | error e2 =>
      intro h
      dsimp only at h
      revert h
      cases h3 : commaAttempt 3 (escCtrlL (repairEscapesL l)) with
      | some w =>
        intro h
        simp only [Except.ok.injEq] at h
        rw [← h]
        exact commaAttempt_ok_wf h3
      | none =>
        intro h
        dsimp only at h
        exact jsonLoadsL_ok_wf h

theorem parseValue_obj {strict : Bool} {fuel : Nat} {l : List Char} {pos : Nat}
    {r : Json × List Char × Nat} (hhead : l.head? = some '\x7b')
    (h : parseValue strict fuel l pos = .ok r) : ∃ ps, r.1 = .obj ps := by
  cases fuel with
  | zero => simp [parseValue] at h
  | succ f =>
    cases l with
    | nil => simp at hhead
    | cons c rest =>
      rw [List.head?_cons, Option.some.injEq] at hhead
      subst hhead
      rw [show parseValue strict (f + 1) ('\x7b' :: rest) pos =
        parseObject strict f rest (pos + 1) by
          simp [parseValue]] at h
      exact ((parse_wf strict f).2.1 _ _ _ h).2

theorem jsonLoadsL_obj {strict : Bool} {l : List Char} {v : Json}
    (hhead : l.head? = some '\x7b')
    (h : jsonLoadsL strict l = .ok v) : ∃ ps, v = .obj ps := by
  simp only [jsonLoadsL] at h
  have hskip : skipWs l 0 = (l, 0) := skipWs_no_ws (fun c hc => by
    rw [hhead, Option.some.injEq] at hc
    subst hc
    decide)
  rw [hskip] at h
  revert h
  cases hp : parseValue strict (4 * l.length + 8) l 0 with
  | error e => intro h; simp at h
  | ok r =>
    intro h
    dsimp only at h
    obtain ⟨ps, hps⟩ := parseValue_obj hhead hp
    revert h
    cases (skipWs r.2.1 r.2.2).1 with
    | nil =>
      intro h
      simp only [Except.ok.injEq] at h
      exact ⟨ps, by rw [← h, hps]⟩
    | cons a b => intro h; simp at h

theorem repairEscapesL_head (r : List Char) :
    ∃ z, repairEscapesL ('\x7b' :: r) = '\x7b' :: z :=
  ⟨_, rfl⟩

theorem escCtrlL_head {c : Char} (hc : ¬ c = '"') (r : List Char) :
    ∃ z, escCtrlL (c :: r) = c :: z := by
  refine ⟨escCtrlGo (decide (c = '"')) false r, ?_⟩
  simp only [escCtrlL, escCtrlGo]

theorem take_head {l : List Char} {c : Char} {n : Nat} (hn : 1 ≤ n)
    (h : l.head? = some c) : (l.take n).head? = some c := by
  cases l with
  | nil => simp at h
  | cons a r =>
    cases n with
    | zero => omega
    | succ m => simpa using h

theorem commaAttempt_obj : ∀ {att : Nat} {l : List Char} {v : Json},
    l.head? = some '\x7b' → commaAttempt att l = some v → ∃ ps, v = .obj ps := by
  intro att
  induction att with
  | zero => intro l v hh h; simp [commaAttempt] at h
  | succ a ih =>
    intro l v hh h
    simp only [commaAttempt] at h
    revert h
    cases hp : jsonLoadsL false l with
    | ok w =>
      intro h
      simp only [Option.some.injEq] at h
      rw [← h]
      exact jsonLoadsL_obj hh hp
    | error e =>
      intro h
      dsimp only at h
      split at h
      · simp at h
      · split at h
        · simp at h
        · split at h
          · split at h
            · refine ih ?_ h
              rename_i hnot hcons
              have h1 : ¬ (e.pos = 0 ∨ l.length ≤ e.pos) := by assumption
              have hp1 : 1 ≤ e.pos := by omega
              have ht := take_head hp1 hh
              revert ht
              cases List.take e.pos l with
              | nil => intro ht; simp at ht
              | cons a b => intro ht; simpa using ht
            · simp at h
          · simp at h

theorem loadWithRepair_obj {r : List Char} {v : Json}
    (h : loadWithRepair ('\x7b' :: r) = .ok v) : ∃ ps, v = .obj ps := by
  simp only [loadWithRepair] at h
  obtain ⟨z1, hz1⟩ := repairEscapesL_head r
  obtain ⟨z2, hz2⟩ := escCtrlL_head (c := '\x7b') (by decide) z1
  have hrep : escCtrlL (repairEscapesL ('\x7b' :: r)) = '\x7b' :: z2 := by
    rw [hz1, hz2]
  revert h
  cases h1 : jsonLoadsL true ('\x7b' :: r) with
  | ok w =>
    intro h
    simp only [Except.ok.injEq] at h
    rw [← h]
    exact jsonLoadsL_obj (l := '\x7b' :: r) rfl h1
  | error e1 =>
    intro h
    dsimp only at h
    rw [hrep] at h
    revert h
    cases h2 : jsonLoadsL false ('\x7b' :: z2) with
    | ok w =>
      intro h
      simp only [Except.ok.injEq] at h
      rw [← h]
      exact jsonLoadsL_obj (l := '\x7b' :: z2) rfl h2
    | error e2 =>
      intro h
      dsimp only at h
      revert h
      cases h3 : commaAttempt 3 ('\x7b' :: z2) with
      | some w =>
        intro h
        simp only [Except.ok.injEq] at h
        rw [← h]
        exact commaAttempt_obj (l := '\x7b' :: z2) rfl h3
      | none =>
        intro h
        dsimp only at h
        exact jsonLoadsL_obj (l := '\x7b' :: z2) rfl h

theorem dropWhile_id {p : Char → Bool} {l : List Char}
    (h : ∀ c, l.head? = some c → p c = false) : List.dropWhile p l = l := by
  cases l with
  | nil => rfl
  | cons a r => simp [List.dropWhile, h a rfl]

theorem dropWhile_last {p : Char → Bool} {c : Char} (hc : p c = false) :
    ∀ y : List Char, ∃ w, List.dropWhile p (y ++ [c]) = w ++ [c] := by
  intro y
  induction y with
  | nil => exact ⟨[], by simp [List.dropWhile, hc]⟩
  | cons a z ih =>
    by_cases ha : p a = true
    · obtain ⟨w, hw⟩ := ih
      exact ⟨w, by simp [List.dropWhile, ha, hw]⟩
    · exact ⟨a :: z, by simp [List.dropWhile, ha]⟩

theorem pyStripL_head {c : Char} (hc : isPyWs c = false) (r : List Char) :
    ∃ z, pyStripL (c :: r) = c :: z := by
  simp only [pyStripL]
  rw [dropWhile_id (l := c :: r) (fun d hd => by
    rw [List.head?_cons, Option.some.injEq] at hd
    rw [hd] at hc
    exact hc)]
  obtain ⟨w, hw⟩ := dropWhile_last hc r.reverse
  exact ⟨w.reverse, by rw [List.reverse_cons, hw]; simp⟩

theorem pyStripL_id {l : List Char}
    (h1 : ∀ c, l.head? = some c → isPyWs c = false)
    (h2 : ∀ c, l.getLast? = some c → isPyWs c = false) : pyStripL l = l := by
  simp only [pyStripL]
  rw [dropWhile_id h1]
  rw [dropWhile_id (fun c hc => h2 c (by rw [← List.head?_reverse]; exact hc))]
  exact List.reverse_reverse l

theorem balancedGo_pos : ∀ (l : List Char) (idx : Nat) (d : Int) (s e : Bool)
    (lc : Option Nat) (k : Nat), (∀ j, lc = some j → 1 ≤ j) →
    balancedGo l idx d s e lc = some k → 1 ≤ k := by
  intro l
  induction l with
  | nil => intro idx d s e lc k hlc h; exact hlc k h
  | cons c rest ih =>
    intro idx d s e lc k hlc h
    simp only [balancedGo] at h
    split_ifs at h <;>
      first
        | exact ih _ _ _ _ _ _ hlc h
        | exact ih _ _ _ _ _ _ (fun j hj => by
            rw [Option.some.injEq] at hj
            omega) h

theorem extractBalanced_head {t b : List Char} {c : Char}
    (hh : t.head? = some c) (h : extractBalanced t = some b) : b.head? = some c := by
  simp only [extractBalanced] at h
  revert h
  cases hb : balancedGo t 0 0 false false none with
  | none => intro h; simp at h
  | some n =>
    intro h
    simp only [Option.some.injEq] at h
    have hn : 1 ≤ n := balancedGo_pos t 0 0 false false none n (by simp) hb
    rw [← h]
    exact take_head hn hh

theorem attemptClose_shape {t cl : List Char} (h : attemptClose t = some cl) :
    ∃ S, cl = pyStripL (t ++ S) := by
  simp only [attemptClose] at h
  split_ifs at h
  all_goals try rw [Option.some.injEq] at h
  all_goals
    first
      | (simp at h; done)
      | exact ⟨_, h.symm⟩

theorem attemptClose_head {r cl : List Char}
    (h : attemptClose ('\x7b' :: r) = some cl) : ∃ z, cl = '\x7b' :: z := by
  obtain ⟨S, hS⟩ := attemptClose_shape h
  rw [List.cons_append] at hS
  obtain ⟨z, hz⟩ := pyStripL_head (c := '\x7b') (by decide) (r ++ S)
  rw [hz] at hS
  exact ⟨z, hS⟩

theorem recoverTruncated_head {l b : List Char}
    (h : recoverTruncated l = some b) : b.head? = some '\x7b' := by
  simp only [recoverTruncated] at h
  split at h
  · rename_i r heq
    revert h
    cases hb : extractBalanced (pyStripL l) with
    | some bb =>
      intro h
      dsimp only at h
      rw [Option.some.injEq] at h
      rw [← h]
      exact extractBalanced_head (by rw [heq]; rfl) hb
    | none =>
      intro h
      dsimp only at h
      revert h
      cases hc : attemptClose (pyStripL l) with
      | some cl =>
        intro h
        rw [Option.some.injEq] at h
        rw [heq] at hc
        obtain ⟨z, hz⟩ := attemptClose_head hc
        rw [← h, hz]
        rfl
      | none => intro h; simp at h
  · simp at h

theorem findIdx_drop : ∀ (l : List Char) (t : Char) (i k : Nat),
    findIdx l t k = some i → k ≤ i ∧ (l.drop (i - k)).head? = some t := by
  intro l
  induction l with
  | nil => intro t i k h; simp [findIdx] at h
  | cons c r ih =>
    intro t i k h
    simp only [findIdx] at h
    split_ifs at h with hc
    · rw [Option.some.injEq] at h
      subst h
      refine ⟨le_refl k, ?_⟩
      rw [Nat.sub_self]
      simp [hc]
    · obtain ⟨h1, h2⟩ := ih t i (k + 1) h
      refine ⟨by omega, ?_⟩
      rw [show i - k = (i - (k + 1)) + 1 by omega]
      simpa using h2

theorem loadWithRepair_ok_headed {t : List Char} {v : Json}
    (hh : t.head? = some '\x7b') (h : loadWithRepair t = .ok v) :
    wfJson v = true ∧ ∃ ps, v = .obj ps := by
  cases t with
  | nil => simp at hh
  | cons c r =>
    rw [List.head?_cons, Option.some.injEq] at hh
    subst hh
    exact ⟨loadWithRepair_ok_wf h, loadWithRepair_obj h⟩

theorem loadWithRepair_headed_ok {t : List Char} {v : Json}
    (hh : t.head? = some '\x7b')
    (h : (loadWithRepair t).mapError ExtractErr.decode = .ok v) :
    wfJson v = true ∧ ∃ ps, v = .obj ps := by
  revert h
  cases hl : loadWithRepair t with
  | error e => intro h; simp [Except.mapError] at h
  | ok w =>
    intro h
    simp only [Except.mapError, Except.ok.injEq] at h
    rw [← h]
    exact loadWithRepair_ok_headed hh hl

theorem extract_json_ok {text : String} {v : Json}
    (h : extract_json text = .ok v) : wfJson v = true ∧ ∃ ps, v = .obj ps := by
  simp only [extract_json] at h
  split_ifs at h with hfast
  · exact loadWithRepair_headed_ok hfast.1 h
  · split at h
    · simp at h
    · rename_i start hstart
      split at h
      · split at h
        · rename_i rec2 hrec
          exact loadWithRepair_headed_ok (recoverTruncated_head hrec) h
        · simp at h
      · rename_i stop hstop
        split_ifs at h with hle
        · split at h
          · rename_i rec2 hrec
            exact loadWithRepair_headed_ok (recoverTruncated_head hrec) h
          · simp at h
        · have hcand : (((pyStripL text.data).drop start).take
              (stop + 1 - start)).head? = some '\x7b' := by
            have h2 := (findIdx_drop (pyStripL text.data) '\x7b' start 0 hstart).2
            rw [Nat.sub_zero] at h2
            exact take_head (by omega) h2
          split at h
          · rename_i w hw
            rw [Except.ok.injEq] at h
            rw [← h]
            exact loadWithRepair_ok_headed hcand hw
          · rename_i err herr
            split at h
            · rename_i rec2 hrec
              exact loadWithRepair_headed_ok (recoverTruncated_head hrec) h
            · simp at h

theorem pyStripL_dumps_obj (ps : List (List Nat × Json)) :
    pyStripL (jsonDumps (.obj ps)) = jsonDumps (.obj ps) := by
  apply pyStripL_id
  · intro c hc
    rw [show jsonDumps (.obj ps) = '\x7b' :: (dumpPairs ps ++ ['\x7d']) from rfl,
      List.head?_cons, Option.some.injEq] at hc
    rw [← hc]
    decide
  · intro c hc
    rw [show jsonDumps (.obj ps) = ('\x7b' :: dumpPairs ps) ++ ['\x7d'] by
        rw [List.cons_append]
        rfl,
      List.getLast?_concat, Option.some.injEq] at hc
    rw [← hc]
    decide

/-- C6: recovery is idempotent: when extract_json succeeds on a text,
running extract_json again on the serialization (json.dumps) of the
recovered object gives the same result. -/
theorem recovery_idempotent {text : String} {v : Json}
    (h : extract_json text = .ok v) :
    extract_json (String.mk (jsonDumps v)) = extract_json text := by
  obtain ⟨hwf, ps, hps⟩ := extract_json_ok h
  rw [h]
  subst hps
  show extract_json (String.mk (jsonDumps (.obj ps))) = _
  simp only [extract_json]
  rw [pyStripL_dumps_obj]
  rw [if_pos ⟨by rw [show jsonDumps (.obj ps) =
      '\x7b' :: (dumpPairs ps ++ ['\x7d']) from rfl]; rfl,
    by rw [show jsonDumps (.obj ps) = ('\x7b' :: dumpPairs ps) ++ ['\x7d'] by
        rw [List.cons_append]
        rfl,
      List.getLast?_concat]⟩]
  rw [loadWithRepair_dumps hwf]
  rfl

theorem recovery_idempotent_witness :
    extract_json (String.mk (jsonDumps (Json.obj []))) =
      extract_json (String.mk ['\x7b', '\x7d']) :=
  recovery_idempotent (v := Json.obj []) (by rfl)

/-- The serialization of a one-pair object \x7bkey: string-value\x7d cut
off while the value's string literal is still open. -/
def cutText (k piece : List Nat) : List Char :=
  '\x7b' :: '"' :: (k.flatMap escCp ++ '"' :: ':' :: ' ' :: '"' :: piece.flatMap escCp)

theorem hexDigitChar_facts {n : Nat} (hn : n < 16) :
    ¬ hexDigitChar n = '"' ∧ ¬ hexDigitChar n = '\\' ∧ ¬ hexDigitChar n = '\x7d' ∧
      isPyWs (hexDigitChar n) = false := by
  interval_cases n <;> decide

theorem shortEsc_facts {e : Char} {cp : Nat} (h : shortEsc e = some cp) :
    ¬ e = '\x7d' ∧ isPyWs e = false := by
  simp only [shortEsc] at h
  split_ifs at h with h1 h2 h3 h4 h5 h6 h7 h8 <;>
    first
      | (subst_vars; exact ⟨by decide, by decide⟩)
      | simp at h

theorem isPyWs_toNat {c : Char} (h : isPyWs c = true) : c.toNat = 32 ∨ c.toNat ≤ 13 := by
  simp only [isPyWs, Bool.or_eq_true, decide_eq_true_eq] at h
  rcases h with h | h | h | h | h | h <;> subst h <;>
    first
      | exact Or.inl rfl
      | exact Or.inr (by decide)

theorem getLast_append_right {x y : List Char} {a : Char} (h : y.getLast? = some a) :
    (x ++ y).getLast? = some a := by
  rw [List.getLast?_append, h]
  rfl

theorem flatMap_escCp_getLast : ∀ {piece : List Nat} {x : Nat},
    piece.getLast? = some x →
    (piece.flatMap escCp).getLast? = (escCp x).getLast? := by
  intro piece
  induction piece with
  | nil => intro x h; simp at h
  | cons q t ih =>
    intro x h
    cases t with
    | nil =>
      rw [List.getLast?_singleton, Option.some.injEq] at h
      subst h
      simp [List.flatMap_cons]
    | cons q2 t2 =>
      rw [List.getLast?_cons_cons] at h
      rw [List.flatMap_cons, List.getLast?_append, ih h]
      cases hg : (escCp x).getLast? with
      | some a => rfl
      | none =>
        exfalso
        rw [List.getLast?_eq_none_iff] at hg
        exact escCp_ne_nil x hg

theorem escCp_last_not_ws {cp : Nat} (hcp : cp < 0x110000) (h32 : ¬ cp = 32) :
    ∀ c, (escCp cp).getLast? = some c → isPyWs c = false := by
  intro c hc
  rcases escCp_shape cp hcp with ⟨e, he, -, hse⟩ | ⟨c2, hc2, -, -, hcn, hlo, hhi⟩ |
    ⟨he, -⟩ | ⟨-, he⟩
  · rw [he, show (['\\', e] : List Char).getLast? = some e from rfl,
      Option.some.injEq] at hc
    rw [← hc]
    exact (shortEsc_facts hse).2
  · rw [hc2, List.getLast?_singleton, Option.some.injEq] at hc
    rw [← hc]
    cases hb : isPyWs c2 with
    | false => rfl
    | true =>
      exfalso
      rcases isPyWs_toNat hb with h | h <;> omega
  · rw [he, show ('\\' :: 'u' :: encodeHex4 cp).getLast? =
      some (hexDigitChar (cp % 16)) from rfl, Option.some.injEq] at hc
    rw [← hc]
    exact (hexDigitChar_facts (Nat.mod_lt _ (by omega))).2.2.2
  · rw [he, show ('\\' :: 'u' :: encodeHex4 (0xd800 + (cp - 0x10000) / 1024) ++
      '\\' :: 'u' :: encodeHex4 (0xdc00 + (cp - 0x10000) % 1024)).getLast? =
      some (hexDigitChar ((0xdc00 + (cp - 0x10000) % 1024) % 16)) from rfl,
      Option.some.injEq] at hc
    rw [← hc]
    exact (hexDigitChar_facts (Nat.mod_lt _ (by omega))).2.2.2

theorem encodeHex4_no_brace (m : Nat) : ¬ '\x7d' ∈ encodeHex4 m := by
  intro hm
  simp only [encodeHex4, List.mem_cons, List.not_mem_nil, or_false] at hm
  rcases hm with h | h | h | h <;>
    exact (hexDigitChar_facts (Nat.mod_lt _ (by omega))).2.2.1 h.symm

theorem escCp_no_brace {cp : Nat} (hcp : cp < 0x110000) (h125 : ¬ cp = 125) :
    ¬ '\x7d' ∈ escCp cp := by
  rcases escCp_shape cp hcp with ⟨e, he, -, hse⟩ | ⟨c2, hc2, -, -, hcn, -, -⟩ |
    ⟨he, -⟩ | ⟨-, he⟩
  · rw [he]
    intro hm
    rcases List.mem_cons.1 hm with h | h
    · exact absurd h.symm (by decide)
    · rcases List.mem_cons.1 h with h2 | h2
      · exact (shortEsc_facts hse).1 h2.symm
      · simp at h2
  · rw [hc2]
    intro hm
    rcases List.mem_cons.1 hm with h | h
    · rw [← h] at hcn
      exact h125 (by rw [← hcn]; rfl)
    · simp at h
  · rw [he]
    intro hm
    rcases List.mem_cons.1 hm with h | h
    · exact absurd h.symm (by decide)
    · rcases List.mem_cons.1 h with h2 | h2
      · exact absurd h2.symm (by decide)
      · exact encodeHex4_no_brace _ h2
  · rw [he]
    intro hm
    rcases List.mem_append.1 hm with h | h
    · rcases List.mem_cons.1 h with h1 | h1
      · exact absurd h1.symm (by decide)
      · rcases List.mem_cons.1 h1 with h2 | h2
        · exact absurd h2.symm (by decide)
        · exact encodeHex4_no_brace _ h2
    · rcases List.mem_cons.1 h with h1 | h1
      · exact absurd h1.symm (by decide)
      · rcases List.mem_cons.1 h1 with h2 | h2
        · exact absurd h2.symm (by decide)
        · exact encodeHex4_no_brace _ h2

theorem flatMap_no_brace {s : List Nat} (hall : ∀ cp ∈ s, cp < 0x110000)
    (h125 : ¬ 125 ∈ s) : ¬ '\x7d' ∈ s.flatMap escCp := by
  intro hm
  obtain ⟨cp, hcp, hmem⟩ := List.mem_flatMap.1 hm
  by_cases h : cp = 125
  · exact h125 (h ▸ hcp)
  · exact escCp_no_brace (hall cp hcp) h hmem

theorem wfStr_all {s : List Nat} (hs : wfStr s = true) : ∀ cp ∈ s, cp < 0x110000 := by
  simp only [wfStr, Bool.and_eq_true, List.all_eq_true, decide_eq_true_eq] at hs
  exact hs.2

theorem closeGo_esc (c : Char) (r : List Char) (d : Nat) :
    closeGo (c :: r) d true true = closeGo r d true false := by
  simp [closeGo]

theorem closeGo_backslash (r : List Char) (d : Nat) :
    closeGo ('\\' :: r) d true false = closeGo r d true true := by
  simp [closeGo]

theorem closeGo_cons_str {c : Char} (hq : ¬ c = '"') (hb : ¬ c = '\\')
    (r : List Char) (d : Nat) :
    closeGo (c :: r) d true false = closeGo r d true false := by
  simp [closeGo, hq, hb]

theorem closeGo_quote_close (r : List Char) (d : Nat) :
    closeGo ('"' :: r) d true false = closeGo r d false false := by
  simp [closeGo]

theorem closeGo_quote_open (r : List Char) (d : Nat) :
    closeGo ('"' :: r) d false false = closeGo r d true false := by
  simp [closeGo]

theorem closeGo_open_brace (r : List Char) (d : Nat) :
    closeGo ('\x7b' :: r) d false false = closeGo r (d + 1) false false := by
  simp [closeGo]

theorem closeGo_other {c : Char} (hq : ¬ c = '"') (hob : ¬ c = '\x7b')
    (hcb : ¬ c = '\x7d') (r : List Char) (d : Nat) :
    closeGo (c :: r) d false false = closeGo r d false false := by
  simp [closeGo, hq, hob, hcb]

theorem closeGo_hex4 (m : Nat) (r : List Char) (d : Nat) :
    closeGo (encodeHex4 m ++ r) d true false = closeGo r d true false := by
  have h1 := hexDigitChar_facts (n := m / 4096 % 16) (Nat.mod_lt _ (by omega))
  have h2 := hexDigitChar_facts (n := m / 256 % 16) (Nat.mod_lt _ (by omega))
  have h3 := hexDigitChar_facts (n := m / 16 % 16) (Nat.mod_lt _ (by omega))
  have h4 := hexDigitChar_facts (n := m % 16) (Nat.mod_lt _ (by omega))
  simp only [encodeHex4, List.cons_append, List.nil_append]
  rw [closeGo_cons_str h1.1 h1.2.1, closeGo_cons_str h2.1 h2.2.1,
    closeGo_cons_str h3.1 h3.2.1, closeGo_cons_str h4.1 h4.2.1]

theorem closeGo_escCp {cp : Nat} (hcp : cp < 0x110000) (r : List Char) (d : Nat) :
    closeGo (escCp cp ++ r) d true false = closeGo r d true false := by
  rcases escCp_shape cp hcp with ⟨e, he, -, -⟩ | ⟨c, hc, hq, hb, -, -, -⟩ |
    ⟨he, -⟩ | ⟨-, he⟩
  · rw [he]
    simp only [List.cons_append, List.nil_append]
    rw [closeGo_backslash, closeGo_esc]
  · rw [hc]
    simp only [List.cons_append, List.nil_append]
    rw [closeGo_cons_str hq hb]
  · rw [he]
    simp only [List.cons_append]
    rw [closeGo_backslash, closeGo_esc, closeGo_hex4]
  · rw [he]
    simp only [List.cons_append, List.append_assoc]
    rw [closeGo_backslash, closeGo_esc, closeGo_hex4, closeGo_backslash,
      closeGo_esc, closeGo_hex4]

theorem closeGo_str {s : List Nat} (hs : ∀ cp ∈ s, cp < 0x110000) :
    ∀ (r : List Char) (d : Nat),
    closeGo (s.flatMap escCp ++ r) d true false = closeGo r d true false := by
  induction s with
  | nil => intro r d; rfl
  | cons cp t ih =>
    intro r d
    rw [List.flatMap_cons, List.append_assoc, closeGo_escCp (hs cp (by simp)),
      ih (fun x hx => hs x (by simp [hx]))]

theorem closeGo_cutText {k piece : List Nat}
    (hk : ∀ cp ∈ k, cp < 0x110000) (hp : ∀ cp ∈ piece, cp < 0x110000) :
    closeGo (cutText k piece) 0 false false = (1, true) := by
  show closeGo ('\x7b' :: '"' :: (k.flatMap escCp ++
    '"' :: ':' :: ' ' :: '"' :: piece.flatMap escCp)) 0 false false = (1, true)
  rw [closeGo_open_brace, closeGo_quote_open, closeGo_str hk,
    closeGo_quote_close, closeGo_other (by decide) (by decide) (by decide),
    closeGo_other (by decide) (by decide) (by decide), closeGo_quote_open]
  rw [← List.append_nil (piece.flatMap escCp), closeGo_str hp]
  rfl

theorem balancedGo_no_brace : ∀ {l : List Char}, ¬ '\x7d' ∈ l →
    ∀ (idx : Nat) (d : Int) (s e : Bool) (lc : Option Nat),
    balancedGo l idx d s e lc = lc := by
  intro l
  induction l with
  | nil => intro h idx d s e lc; rfl
  | cons c rest ih =>
    intro h idx d s e lc
    have hc : ¬ c = '\x7d' := fun hc => h (by rw [hc]; exact List.mem_cons_self _ _)
    have ht : ¬ '\x7d' ∈ rest := fun hm => h (List.mem_cons_of_mem _ hm)
    simp only [balancedGo]
    split_ifs <;>
      first
        | exact ih ht _ _ _ _ _
        | (exfalso; exact hc (by assumption))

theorem findIdx_none : ∀ {l : List Char} {t : Char}, ¬ t ∈ l →
    ∀ i, findIdx l t i = none := by
  intro l
  induction l with
  | nil => intro t h i; rfl
  | cons c r ih =>
    intro t h i
    simp only [findIdx]
    rw [if_neg (fun hc => h (by rw [← hc]; exact List.mem_cons_self _ _))]
    exact ih (fun hm => h (List.mem_cons_of_mem _ hm)) _

theorem cutText_no_brace_full {k piece : List Nat}
    (hk : ∀ cp ∈ k, cp < 0x110000) (hp : ∀ cp ∈ piece, cp < 0x110000)
    (hk7 : ¬ 125 ∈ k) (hp7 : ¬ 125 ∈ piece) : ¬ '\x7d' ∈ cutText k piece := by
  intro hm
  simp only [cutText, List.mem_cons, List.mem_append] at hm
  rcases hm with h | h | h | h | h | h | h | h
  · exact absurd h (by decide)
  · exact absurd h (by decide)
  · exact flatMap_no_brace hk hk7 h
  · exact absurd h (by decide)
  · exact absurd h (by decide)
  · exact absurd h (by decide)
  · exact absurd h (by decide)
  · exact flatMap_no_brace hp hp7 h

theorem cutText_strip {k piece : List Nat}
    (hk : ∀ cp ∈ k, cp < 0x110000) (hp : ∀ cp ∈ piece, cp < 0x110000)
    (hlast : ∀ x, piece.getLast? = some x → ¬ x = 32) :
    pyStripL (cutText k piece) = cutText k piece := by
  apply pyStripL_id
  · intro c hc
    rw [show (cutText k piece).head? = some '\x7b' from rfl, Option.some.injEq] at hc
    rw [← hc]
    decide
  · intro c hc
    cases hpl : piece.getLast? with
    | none =>
      rw [List.getLast?_eq_none_iff] at hpl
      subst hpl
      rw [show cutText k [] = ('\x7b' :: '"' :: k.flatMap escCp) ++
          ['"', ':', ' ', '"'] by simp [cutText],
        getLast_append_right (show (['"', ':', ' ', '"'] : List Char).getLast? =
          some '"' from rfl), Option.some.injEq] at hc
      rw [← hc]
      decide
    | some x =>
      have hne : piece.flatMap escCp ≠ [] := by
        cases piece with
        | nil => simp at hpl
        | cons q t =>
          simp only [List.flatMap_cons]
          intro he
          exact escCp_ne_nil q (List.append_eq_nil.1 he).1
      obtain ⟨y, hy⟩ := Option.isSome_iff_exists.1 (List.getLast?_isSome.2 hne)
      rw [show cutText k piece =
          ('\x7b' :: '"' :: (k.flatMap escCp ++ ['"', ':', ' ', '"'])) ++
          piece.flatMap escCp by simp [cutText],
        getLast_append_right hy, Option.some.injEq] at hc
      rw [← hc]
      have hl := flatMap_escCp_getLast hpl
      rw [hy] at hl
      exact escCp_last_not_ws (hp x (List.mem_of_mem_getLast? hpl))
        (hlast x hpl) y hl.symm

theorem attemptClose_cutText {k piece : List Nat}
    (hk : ∀ cp ∈ k, cp < 0x110000) (hp : ∀ cp ∈ piece, cp < 0x110000) :
    attemptClose (cutText k piece) = some (cutText k piece ++ ['"', '\x7d']) := by
  have hstrip2 : pyStripL (cutText k piece ++ ['"', '\x7d']) =
      cutText k piece ++ ['"', '\x7d'] := by
    apply pyStripL_id
    · intro c hc
      rw [show (cutText k piece ++ ['"', '\x7d']).head? = some '\x7b' from rfl,
        Option.some.injEq] at hc
      rw [← hc]
      decide
    · intro c hc
      rw [getLast_append_right (show (['"', '\x7d'] : List Char).getLast? =
        some '\x7d' from rfl), Option.some.injEq] at hc
      rw [← hc]
      decide
  simp only [attemptClose]
  rw [closeGo_cutText hk hp]
  rw [if_neg (by simp)]
  dsimp only
  rw [show ((if true = true then ['"'] else []) ++
    List.replicate (1, true).1 '\x7d' : List Char) = ['"', '\x7d'] from rfl]
  rw [hstrip2]
  rw [if_neg ?hne]
  case hne =>
    intro heq
    have hlen := congrArg List.length heq
    simp at hlen

theorem recoverTruncated_cutText {k piece : List Nat}
    (hk : ∀ cp ∈ k, cp < 0x110000) (hp : ∀ cp ∈ piece, cp < 0x110000)
    (hk7 : ¬ 125 ∈ k) (hp7 : ¬ 125 ∈ piece)
    (hlast : ∀ x, piece.getLast? = some x → ¬ x = 32) :
    recoverTruncated (cutText k piece) = some (cutText k piece ++ ['"', '\x7d']) := by
  have hnb := cutText_no_brace_full hk hp hk7 hp7
  have h1 : extractBalanced (cutText k piece) = none := by
    simp only [extractBalanced]
    rw [balancedGo_no_brace hnb]
  have h2 := attemptClose_cutText hk hp
  simp only [recoverTruncated]
  rw [cutText_strip hk hp hlast]
  rw [show cutText k piece = '\x7b' :: ('"' :: (k.flatMap escCp ++
    '"' :: ':' :: ' ' :: '"' :: piece.flatMap escCp)) from rfl] at h1 h2 ⊢
  simp only []
  rw [h1]
  dsimp only
  rw [h2]

theorem wfJson_single_str {k piece : List Nat}
    (hk : wfStr k = true) (hp : wfStr piece = true) :
    wfJson (.obj [(k, .str piece)]) = true := by
  rw [show wfJson (.obj [(k, .str piece)]) =
    (keysDistinct [(k, .str piece)] && wfPairs [(k, .str piece)]) from rfl]
  rw [show keysDistinct [(k, Json.str piece)] = true from rfl]
  rw [show wfPairs [(k, Json.str piece)] =
    (wfStr k && wfStr piece && wfPairs []) from rfl]
  rw [hk, hp]
  rfl

/-- C3 (amended): when a one-pair object \x7bkey: string-value\x7d is cut
off while the value's string literal is open, the key and the written part
of the value are well-formed strings, no \x7d appears in their code points,
and the cut does not end in a space, extract_json recovers by forced
closure and returns the well-formed object carrying the partial value. -/
theorem truncated_string_recovery {k piece : List Nat}
    (hk : wfStr k = true) (hp : wfStr piece = true)
    (hk7 : ¬ 125 ∈ k) (hp7 : ¬ 125 ∈ piece)
    (hlast : ∀ x, piece.getLast? = some x → ¬ x = 32) :
    extract_json (String.mk (cutText k piece)) = .ok (.obj [(k, .str piece)]) := by
  have hka := wfStr_all hk
  have hpa := wfStr_all hp
  have hnb := cutText_no_brace_full hka hpa hk7 hp7
  have hwf := wfJson_single_str hk hp
  have hclosed : cutText k piece ++ ['"', '\x7d'] =
      jsonDumps (.obj [(k, .str piece)]) := by
    show _ = '\x7b' :: dumpPairs [(k, .str piece)] ++ ['\x7d']
    rw [show dumpPairs [(k, Json.str piece)] =
      encStr k ++ ':' :: ' ' :: jsonDumps (.str piece) from rfl,
      show jsonDumps (Json.str piece) = '"' :: piece.flatMap escCp ++ ['"'] from rfl]
    simp [cutText, encStr]
  have hrec := recoverTruncated_cutText hka hpa hk7 hp7 hlast
  simp only [extract_json]
  rw [cutText_strip hka hpa hlast]
  rw [if_neg ?hfast]
  case hfast =>
    intro hcond
    exact hnb (List.mem_of_mem_getLast? hcond.2)
  rw [show findIdx (cutText k piece) '\x7b' 0 = some 0 from by
    rw [show cutText k piece = '\x7b' :: ('"' :: (k.flatMap escCp ++
      '"' :: ':' :: ' ' :: '"' :: piece.flatMap escCp)) from rfl]
    simp [findIdx]]
  dsimp only
  rw [show rfindIdx (cutText k piece) '\x7d' = none from by
    simp only [rfindIdx]
    rw [findIdx_none (fun hm => hnb (List.mem_reverse.1 hm)) 0]]
  dsimp only
  rw [List.drop_zero]
  rw [hrec]
  dsimp only
  rw [hclosed, loadWithRepair_dumps hwf]
  rfl

/-- Counterexample for C3: the object \x7b"a": "xy\x7dand more"\x7d
truncated inside its string value at \x7b"a": "xy\x7d ends with a brace,
so extract_json takes the direct-load path, every repair fails on the
unterminated string, and recovery fails instead of force-closing. -/
theorem truncated_string_recovery_cex :
    extract_json (String.mk (cutText [97] [120, 121, 125])) =
      .error (.decode ⟨.unterminatedString, 6⟩) := by
  rfl

/-- Witness for C3's amended theorem: \x7b"a": "x is recovered to the
object with the partial string value. -/
theorem truncated_string_recovery_witness :
    extract_json (String.mk (cutText [97] [120])) =
      .ok (.obj [([97], .str [120])]) :=
  truncated_string_recovery (by decide) (by decide) (by decide) (by decide)
    (by
      intro x hx
      simp at hx
      omega)

end TS
